import Mathlib

/-!
# Cache simulator (`src/cache.c`): shallow embedding and verification

The C program keeps its configuration, statistics and the three cache arrays in
global variables.  Here the configuration is a `Config` record (written by the
driver before `init_cache` and never changed afterwards) and everything that
`init_cache` and the access functions write is a `State` record that is passed
explicitly.

Conventions of the embedding:

* `uint32_t` / `uint64_t` values are natural numbers; every addition or
  subtraction the C code performs on them is followed by `% 2^32` / `% 2^64`.
* An array read or write outside the allocated bounds is a fault: the
  functions return `Option`, and `none` is a fault (or, for `INTlog2`, a loop
  that never exits).
* `x >> n` is the shift on natural numbers.  C leaves shifts by 32 or more
  bits undefined; the embedding takes the mathematical value there, and the
  statements with the premise `_hshift` keep to the geometries where all three
  shift amounts `setIndexBits + blockOffsetBits` are below 32, so that every
  shift of the source is defined.
* A `for (j = 0; j < n; j++)` loop is `forLoop body n 0`.
* `malloc` is taken to succeed; a null pointer (a level that `init_cache` does not
  set up) is an empty list.

The file has two parts: first every definition (the embedding, then the
predicates, reference models and concrete inputs the statements use), then the
lemmas and theorems.
-/

namespace CacheSim

/-- Modelled from the spec: the constant `TRUE` of the header `cache.h`, whose text
is not among the source files; the spec treats `inclusive` as a boolean flag, so
`TRUE` is the C truth value 1. -/
def TRUE : Nat := 1

/-- Modelled from the spec: the constant `FALSE` of the header `cache.h`, the C
truth value 0. -/
def FALSE : Nat := 0

/-- The `struct cacheBlock` of the source: one way of a set. -/
structure cacheBlock where
  valid : Bool
  LRU_val : Nat
  tag : Nat
deriving DecidableEq

/-- The configuration globals (`icacheSets` … `memspeed`), all `uint32_t`. -/
structure Config where
  icacheSets : Nat
  icacheAssoc : Nat
  icacheHitTime : Nat
  dcacheSets : Nat
  dcacheAssoc : Nat
  dcacheHitTime : Nat
  l2cacheSets : Nat
  l2cacheAssoc : Nat
  l2cacheHitTime : Nat
  inclusive : Nat
  blocksize : Nat
  memspeed : Nat
deriving DecidableEq

/-- The globals written by `init_cache` and the access functions: the nine
statistics counters (`uint64_t`), the derived bit counts and masks, the three
cache arrays and the three free-way tables. -/
structure State where
  icacheRefs : Nat
  icacheMisses : Nat
  icachePenalties : Nat
  dcacheRefs : Nat
  dcacheMisses : Nat
  dcachePenalties : Nat
  l2cacheRefs : Nat
  l2cacheMisses : Nat
  l2cachePenalties : Nat
  blockOffset_bits : Nat
  i_setIndex_bits : Nat
  d_setIndex_bits : Nat
  l2_setIndex_bits : Nat
  i_setIndex_mask : Nat
  d_setIndex_mask : Nat
  l2_setIndex_mask : Nat
  icache : List (List cacheBlock)
  dcache : List (List cacheBlock)
  l2cache : List (List cacheBlock)
  icache_set_avail : List Nat
  dcache_set_avail : List Nat
  l2cache_set_avail : List Nat
deriving DecidableEq

/-- The loop of `INTlog2`: `while (num != 1) { num /= 2; cnt += 1; }`.  The first
argument bounds the number of loop tests; `none` means the bound was reached. -/
def INTlog2Loop : Nat → Nat → Nat → Option Nat
  | 0, _, _ => none
  | fuel + 1, num, cnt =>
    if num ≠ 1 then INTlog2Loop fuel (num / 2) (cnt + 1) else some cnt

/-- The function `INTlog2` on a `uint32_t`.  A 32-bit value that is not 0 reaches 1
after at most 31 halvings, so 32 loop tests are enough; on 0 the loop never
exits, whatever the bound (`none`). -/
def INTlog2 (num : Nat) : Option Nat := INTlog2Loop 32 num 0

/-- A `for (j = start; …; j++)` loop that runs `body` exactly `n` times on
consecutive values of `j`; a fault in the body is a fault of the loop. -/
def forLoop {σ : Type} (body : Nat → σ → Option σ) : Nat → Nat → σ → Option σ
  | 0, _, st => some st
  | n + 1, j, st =>
    match body j st with
    | none => none
    | some st1 => forLoop body n (j + 1) st1

/-- The initial block `{tag:0, valid:0, LRU_val:0}` of `init_cache`. -/
def emptyBlock : cacheBlock := { valid := false, LRU_val := 0, tag := 0 }

/-- The function `init_cache`.  The counters are reset, the bit counts and masks are
computed, and every enabled level gets `sets` rows of `assoc` empty blocks and
a free-way table filled with `assoc`.  A disabled level keeps the zero values
the C globals start with (null pointers are empty lists).  `none` means that a
call of `INTlog2` does not return. -/
def init_cache (cfg : Config) : Option State :=
  match INTlog2 cfg.blocksize with
  | none => none
  | some bo =>
    match (if cfg.icacheSets ≠ 0 then INTlog2 cfg.icacheSets else some 0) with
    | none => none
    | some ib =>
      match (if cfg.dcacheSets ≠ 0 then INTlog2 cfg.dcacheSets else some 0) with
      | none => none
      | some db =>
        match (if cfg.l2cacheSets ≠ 0 then INTlog2 cfg.l2cacheSets else some 0) with
        | none => none
        | some lb =>
          some
            { icacheRefs := 0, icacheMisses := 0, icachePenalties := 0,
              dcacheRefs := 0, dcacheMisses := 0, dcachePenalties := 0,
              l2cacheRefs := 0, l2cacheMisses := 0, l2cachePenalties := 0,
              blockOffset_bits := bo,
              i_setIndex_bits := ib,
              d_setIndex_bits := db,
              l2_setIndex_bits := lb,
              i_setIndex_mask := if cfg.icacheSets ≠ 0 then (cfg.icacheSets + 2 ^ 32 - 1) % 2 ^ 32 else 0,
              d_setIndex_mask := if cfg.dcacheSets ≠ 0 then (cfg.dcacheSets + 2 ^ 32 - 1) % 2 ^ 32 else 0,
              l2_setIndex_mask := if cfg.l2cacheSets ≠ 0 then (cfg.l2cacheSets + 2 ^ 32 - 1) % 2 ^ 32 else 0,
              icache := List.replicate cfg.icacheSets (List.replicate cfg.icacheAssoc emptyBlock),
              dcache := List.replicate cfg.dcacheSets (List.replicate cfg.dcacheAssoc emptyBlock),
              l2cache := List.replicate cfg.l2cacheSets (List.replicate cfg.l2cacheAssoc emptyBlock),
              icache_set_avail := List.replicate cfg.icacheSets cfg.icacheAssoc,
              dcache_set_avail := List.replicate cfg.dcacheSets cfg.dcacheAssoc,
              l2cache_set_avail := List.replicate cfg.l2cacheSets cfg.l2cacheAssoc }

/-- Body of the inner loop of a hit (source lines 171-176, 230-235, 288-293): ways
younger than the hit way age by one, the hit way (and any way with the same
`LRU_val`) is reset to 0. -/
def touchBody (old : Nat) (k : Nat) (row : List cacheBlock) : Option (List cacheBlock) :=
  match row[k]? with
  | none => none
  | some b =>
    if b.LRU_val < old then some (row.set k { b with LRU_val := (b.LRU_val + 1) % 2 ^ 32 })
    else if old = b.LRU_val then some (row.set k { b with LRU_val := 0 })
    else some row

/-- The search loop of an access (source lines 168-179, 227-238, 285-296), run for
`n` more iterations from way `j`.  `some (some row1)` is a hit (the function
returns from inside the loop) with the updated set, `some none` means that the
loop ended without a hit. -/
def lookupLoop (assoc tag : Nat) (row : List cacheBlock) :
    Nat → Nat → Option (Option (List cacheBlock))
  | 0, _ => some none
  | n + 1, j =>
    match row[j]? with
    | none => none
    | some b =>
      if b.tag = tag ∧ b.valid = true then
        match forLoop (touchBody b.LRU_val) assoc 0 row with
        | none => none
        | some row1 => some (some row1)
      else lookupLoop assoc tag row n (j + 1)

/-- Body of the allocation loop for a set that is not full (source lines 189-198,
247-256, 305-314).  The loop state is the set, the flag `allocated` and the
set's entry of the free-way table. -/
def allocBody (tag : Nat) (j : Nat) (st : List cacheBlock × Bool × Nat) :
    Option (List cacheBlock × Bool × Nat) :=
  match st.1[j]? with
  | none => none
  | some b =>
    if b.valid = false ∧ st.2.1 = false then
      some (st.1.set j { valid := true, LRU_val := 0, tag := tag }, true,
        (st.2.2 + 2 ^ 32 - 1) % 2 ^ 32)
    else
      some (st.1.set j { b with LRU_val := (b.LRU_val + 1) % 2 ^ 32 }, st.2.1, st.2.2)

/-- Body of the replacement loop of a full L1 set (source lines 202-210, 260-268). -/
def replaceBody (assoc tag : Nat) (j : Nat) (row : List cacheBlock) : Option (List cacheBlock) :=
  match row[j]? with
  | none => none
  | some b =>
    if (assoc + 2 ^ 32 - 1) % 2 ^ 32 ≠ b.LRU_val then
      some (row.set j { b with LRU_val := (b.LRU_val + 1) % 2 ^ 32 })
    else
      some (row.set j { valid := true, LRU_val := 0, tag := tag })

/-- Body of the inner loop of `evict_L1` (source lines 344-347, 360-363): way `k`
is compared with the current `LRU_val` of way `j`. -/
def evictInner (j : Nat) (k : Nat) (row : List cacheBlock) : Option (List cacheBlock) :=
  match row[k]?, row[j]? with
  | some bk, some bj =>
    if bk.LRU_val > bj.LRU_val then
      some (row.set k { bk with LRU_val := (bk.LRU_val + 2 ^ 32 - 1) % 2 ^ 32 })
    else some row
  | _, _ => none

/-- Body of the outer loop of `evict_L1` (source lines 341-351, 357-367).  The
loop state is the targeted set and the whole free-way table of the level.  The
comparison is on the tag alone, as in the source. -/
def evictBody (assoc i_tag i_setIndex : Nat) (j : Nat) (st : List cacheBlock × List Nat) :
    Option (List cacheBlock × List Nat) :=
  match st.1[j]? with
  | none => none
  | some b =>
    if i_tag = b.tag then
      match forLoop (evictInner j) assoc 0 (st.1.set j { b with valid := false }) with
      | none => none
      | some row2 =>
        match row2[j]?, st.2[i_setIndex]? with
        | some bj, some a =>
          some (row2.set j { bj with LRU_val := (assoc + 2 ^ 32 - 1) % 2 ^ 32 },
            st.2.set i_setIndex ((a + 1) % 2 ^ 32))
        | _, _ => none
    else some st

/-- One half of `evict_L1` (source lines 338-352 for the I-cache, 354-368 for the
D-cache), with the globals of the level (`sets`, `assoc`, mask, bit count, cache
array and free-way table) as arguments.  The result is the cache array and the
free-way table after the half. -/
def evictLevel (sets assoc mask bits origin_tagANDindex : Nat)
    (cache : List (List cacheBlock)) (avail : List Nat) :
    Option (List (List cacheBlock) × List Nat) :=
  if sets > 0 then
    let setIndex := origin_tagANDindex &&& mask
    let tag := origin_tagANDindex >>> bits
    match cache[setIndex]? with
    | none => none
    | some row =>
      match forLoop (evictBody assoc tag setIndex) assoc 0 (row, avail) with
      | none => none
      | some st => some (cache.set setIndex st.1, st.2)
  else some (cache, avail)

/-- The function `evict_L1`: rebuild the block address bits from the evicted L2
tag and set index and invalidate the matching ways of the I-cache, then of the
D-cache. -/
def evict_L1 (cfg : Config) (s : State) (l2_tag l2_setIndex : Nat) : Option State :=
  let origin_tagANDindex := ((l2_tag <<< s.l2_setIndex_bits) % 2 ^ 32) ^^^ l2_setIndex
  match evictLevel cfg.icacheSets cfg.icacheAssoc s.i_setIndex_mask s.i_setIndex_bits
      origin_tagANDindex s.icache s.icache_set_avail with
  | none => none
  | some li =>
    match evictLevel cfg.dcacheSets cfg.dcacheAssoc s.d_setIndex_mask s.d_setIndex_bits
        origin_tagANDindex s.dcache s.dcache_set_avail with
    | none => none
    | some ld =>
      some { s with icache := li.1, icache_set_avail := li.2,
                    dcache := ld.1, dcache_set_avail := ld.2 }

/-- Body of the replacement loop of a full L2 set (source lines 318-329).  The
loop works on the whole state because `evict_L1` is called from inside it,
before the tag of the replaced way is overwritten. -/
def l2replaceBody (cfg : Config) (tag l2_setIndex : Nat) (j : Nat) (s : State) : Option State :=
  match s.l2cache[l2_setIndex]? with
  | none => none
  | some row =>
    match row[j]? with
    | none => none
    | some b =>
      if (cfg.l2cacheAssoc + 2 ^ 32 - 1) % 2 ^ 32 ≠ b.LRU_val then
        some { s with l2cache :=
          s.l2cache.set l2_setIndex (row.set j { b with LRU_val := (b.LRU_val + 1) % 2 ^ 32 }) }
      else
        match (if TRUE = cfg.inclusive then evict_L1 cfg s b.tag l2_setIndex else some s) with
        | none => none
        | some s1 =>
          match s1.l2cache[l2_setIndex]? with
          | none => none
          | some row1 =>
            match row1[j]? with
            | none => none
            | some _ =>
              some { s1 with l2cache :=
                s1.l2cache.set l2_setIndex (row1.set j { valid := true, LRU_val := 0, tag := tag }) }

/-- The function `l2cache_access`: the returned pair is the access time and the
state after the call. -/
def l2cache_access (cfg : Config) (s : State) (addr : Nat) : Option (Nat × State) :=
  if 0 = cfg.l2cacheSets then some (cfg.memspeed, s)
  else
    let s1 := { s with l2cacheRefs := (s.l2cacheRefs + 1) % 2 ^ 64 }
    let l2_setIndex := (addr >>> s1.blockOffset_bits) &&& s1.l2_setIndex_mask
    let tag := addr >>> (s1.l2_setIndex_bits + s1.blockOffset_bits)
    match s1.l2cache[l2_setIndex]? with
    | none => none
    | some row =>
      match lookupLoop cfg.l2cacheAssoc tag row cfg.l2cacheAssoc 0 with
      | none => none
      | some (some row1) =>
        some (cfg.l2cacheHitTime, { s1 with l2cache := s1.l2cache.set l2_setIndex row1 })
      | some none =>
        let s2 := { s1 with l2cacheMisses := (s1.l2cacheMisses + 1) % 2 ^ 64 }
        let missPenalty := cfg.memspeed
        let s3 := { s2 with l2cachePenalties := (s2.l2cachePenalties + missPenalty) % 2 ^ 64 }
        match s3.l2cache_set_avail[l2_setIndex]? with
        | none => none
        | some a =>
          if a > 0 then
            match forLoop (allocBody tag) cfg.l2cacheAssoc 0 (row, false, a) with
            | none => none
            | some st =>
              some ((cfg.l2cacheHitTime + missPenalty) % 2 ^ 32,
                { s3 with l2cache := s3.l2cache.set l2_setIndex st.1,
                          l2cache_set_avail := s3.l2cache_set_avail.set l2_setIndex st.2.2 })
          else
            match forLoop (l2replaceBody cfg tag l2_setIndex) cfg.l2cacheAssoc 0 s3 with
            | none => none
            | some s4 => some ((cfg.l2cacheHitTime + missPenalty) % 2 ^ 32, s4)

/-- The function `icache_access`. -/
def icache_access (cfg : Config) (s : State) (addr : Nat) : Option (Nat × State) :=
  if 0 = cfg.icacheSets then l2cache_access cfg s addr
  else
    let s1 := { s with icacheRefs := (s.icacheRefs + 1) % 2 ^ 64 }
    let i_setIndex := (addr >>> s1.blockOffset_bits) &&& s1.i_setIndex_mask
    let tag := addr >>> (s1.i_setIndex_bits + s1.blockOffset_bits)
    match s1.icache[i_setIndex]? with
    | none => none
    | some row =>
      match lookupLoop cfg.icacheAssoc tag row cfg.icacheAssoc 0 with
      | none => none
      | some (some row1) =>
        some (cfg.icacheHitTime, { s1 with icache := s1.icache.set i_setIndex row1 })
      | some none =>
        let s2 := { s1 with icacheMisses := (s1.icacheMisses + 1) % 2 ^ 64 }
        match l2cache_access cfg s2 addr with
        | none => none
        | some (missPenalty, s3) =>
          let s4 := { s3 with icachePenalties := (s3.icachePenalties + missPenalty) % 2 ^ 64 }
          match s4.icache[i_setIndex]?, s4.icache_set_avail[i_setIndex]? with
          | some row2, some a =>
            if a > 0 then
              match forLoop (allocBody tag) cfg.icacheAssoc 0 (row2, false, a) with
              | none => none
              | some st =>
                some ((cfg.icacheHitTime + missPenalty) % 2 ^ 32,
                  { s4 with icache := s4.icache.set i_setIndex st.1,
                            icache_set_avail := s4.icache_set_avail.set i_setIndex st.2.2 })
            else
              match forLoop (replaceBody cfg.icacheAssoc tag) cfg.icacheAssoc 0 row2 with
              | none => none
              | some row3 =>
                some ((cfg.icacheHitTime + missPenalty) % 2 ^ 32,
                  { s4 with icache := s4.icache.set i_setIndex row3 })
          | _, _ => none

/-- The function `dcache_access`. -/
def dcache_access (cfg : Config) (s : State) (addr : Nat) : Option (Nat × State) :=
  if 0 = cfg.dcacheSets then l2cache_access cfg s addr
  else
    let s1 := { s with dcacheRefs := (s.dcacheRefs + 1) % 2 ^ 64 }
    let d_setIndex := (addr >>> s1.blockOffset_bits) &&& s1.d_setIndex_mask
    let tag := addr >>> (s1.d_setIndex_bits + s1.blockOffset_bits)
    match s1.dcache[d_setIndex]? with
    | none => none
    | some row =>
      match lookupLoop cfg.dcacheAssoc tag row cfg.dcacheAssoc 0 with
      | none => none
      | some (some row1) =>
        some (cfg.dcacheHitTime, { s1 with dcache := s1.dcache.set d_setIndex row1 })
      | some none =>
        let s2 := { s1 with dcacheMisses := (s1.dcacheMisses + 1) % 2 ^ 64 }
        match l2cache_access cfg s2 addr with
        | none => none
        | some (missPenalty, s3) =>
          let s4 := { s3 with dcachePenalties := (s3.dcachePenalties + missPenalty) % 2 ^ 64 }
          match s4.dcache[d_setIndex]?, s4.dcache_set_avail[d_setIndex]? with
          | some row2, some a =>
            if a > 0 then
              match forLoop (allocBody tag) cfg.dcacheAssoc 0 (row2, false, a) with
              | none => none
              | some st =>
                some ((cfg.dcacheHitTime + missPenalty) % 2 ^ 32,
                  { s4 with dcache := s4.dcache.set d_setIndex st.1,
                            dcache_set_avail := s4.dcache_set_avail.set d_setIndex st.2.2 })
            else
              match forLoop (replaceBody cfg.dcacheAssoc tag) cfg.dcacheAssoc 0 row2 with
              | none => none
              | some row3 =>
                some ((cfg.dcacheHitTime + missPenalty) % 2 ^ 32,
                  { s4 with dcache := s4.dcache.set d_setIndex row3 })
          | _, _ => none

/-- One call of the driver: an instruction access or a data access. -/
inductive Access where
  | instr (addr : Nat)
  | data (addr : Nat)
deriving DecidableEq

/-- The address of a call. -/
def Access.addr : Access → Nat
  | Access.instr a => a
  | Access.data a => a

/-- Perform one call. -/
def step (cfg : Config) (s : State) : Access → Option (Nat × State)
  | Access.instr a => icache_access cfg s a
  | Access.data a => dcache_access cfg s a

/-- Perform a sequence of calls, collecting the returned access times. -/
def run (cfg : Config) (s : State) : List Access → Option (List Nat × State)
  | [] => some ([], s)
  | c :: cs =>
    match step cfg s c with
    | none => none
    | some (r, s1) =>
      match run cfg s1 cs with
      | none => none
      | some (rs, s2) => some (r :: rs, s2)

/-! ## Pure descriptions of what the loops do to one way -/

/-- Effect of the inner loop of a hit on one way, `old` being the `LRU_val` of the
hit way. -/
def touchWay (old : Nat) (b : cacheBlock) : cacheBlock :=
  if b.LRU_val < old then { b with LRU_val := (b.LRU_val + 1) % 2 ^ 32 }
  else if old = b.LRU_val then { b with LRU_val := 0 }
  else b

/-- A way whose `LRU_val` was incremented. -/
def ageWay (b : cacheBlock) : cacheBlock := { b with LRU_val := (b.LRU_val + 1) % 2 ^ 32 }

/-- A freshly filled way. -/
def newWay (tag : Nat) : cacheBlock := { valid := true, LRU_val := 0, tag := tag }

/-- Effect of the allocation loop on the ways it still has to visit, `al` being
the flag `allocated`. -/
def allocList (tag : Nat) : Bool → List cacheBlock → List cacheBlock
  | _, [] => []
  | al, b :: rest =>
    if b.valid = false ∧ al = false then newWay tag :: allocList tag true rest
    else ageWay b :: allocList tag al rest

/-- Effect of the replacement loop on one way. -/
def replaceWay (assoc tag : Nat) (b : cacheBlock) : cacheBlock :=
  if (assoc + 2 ^ 32 - 1) % 2 ^ 32 ≠ b.LRU_val then ageWay b else newWay tag

/-- The part of a way that decides hits: validity and tag. -/
def wayKey (b : cacheBlock) : Bool × Nat := (b.valid, b.tag)

/-- Effect of `evict_L1` on the key of one way of the targeted set. -/
def invalKey (t : Nat) (p : Bool × Nat) : Bool × Nat := (p.1 && !(p.2 == t), p.2)

/-- The free-way count after the allocation loop: it is decremented (on `uint32_t`)
exactly when the loop finds an invalid way while `allocated` is still unset. -/
def allocAvail (al : Bool) (post : List cacheBlock) (a : Nat) : Nat :=
  if al = false ∧ ∃ b ∈ post, b.valid = false then (a + 2 ^ 32 - 1) % 2 ^ 32 else a

/-! ## Configurations, reachable states and the invariants of the hierarchy -/

/-- Every configuration value fits its `uint32_t` global. -/
def Config.Bits32 (cfg : Config) : Prop :=
  cfg.icacheSets < 2 ^ 32 ∧ cfg.icacheAssoc < 2 ^ 32 ∧ cfg.icacheHitTime < 2 ^ 32 ∧
  cfg.dcacheSets < 2 ^ 32 ∧ cfg.dcacheAssoc < 2 ^ 32 ∧ cfg.dcacheHitTime < 2 ^ 32 ∧
  cfg.l2cacheSets < 2 ^ 32 ∧ cfg.l2cacheAssoc < 2 ^ 32 ∧ cfg.l2cacheHitTime < 2 ^ 32 ∧
  cfg.inclusive < 2 ^ 32 ∧ cfg.blocksize < 2 ^ 32 ∧ cfg.memspeed < 2 ^ 32

/-- A 32-bit power of two. -/
def isPow2 (n : Nat) : Prop := ∃ k, k < 32 ∧ n = 2 ^ k

/-- A level is validly configured when it is disabled (`sets = 0`) or has a
power-of-two set count and an associativity of at least 1. -/
def LevelValid (sets assoc : Nat) : Prop := sets = 0 ∨ (isPow2 sets ∧ 1 ≤ assoc)

/-- A valid configuration: 32-bit values, power-of-two block size, valid levels. -/
def Config.Valid (cfg : Config) : Prop :=
  cfg.Bits32 ∧ isPow2 cfg.blocksize ∧ LevelValid cfg.icacheSets cfg.icacheAssoc ∧
  LevelValid cfg.dcacheSets cfg.dcacheAssoc ∧ LevelValid cfg.l2cacheSets cfg.l2cacheAssoc

/-- All three levels are enabled. -/
def Config.AllEnabled (cfg : Config) : Prop :=
  cfg.icacheSets ≠ 0 ∧ cfg.dcacheSets ≠ 0 ∧ cfg.l2cacheSets ≠ 0

/-- The states the driver can reach: `init_cache`, then any finite sequence of
`icache_access` / `dcache_access` calls on 32-bit addresses. -/
inductive Reachable (cfg : Config) : State → Prop
  | init (s : State) : init_cache cfg = some s → Reachable cfg s
  | step (s s1 : State) (c : Access) (r : Nat) :
      Reachable cfg s → c.addr < 2 ^ 32 → step cfg s c = some (r, s1) → Reachable cfg s1

/-- The arrays have the allocated dimensions and the derived constants are the
ones `init_cache` computed. -/
structure Shape (cfg : Config) (s : State) : Prop where
  bo_bits : INTlog2 cfg.blocksize = some s.blockOffset_bits
  i_len : s.icache.length = cfg.icacheSets
  i_row : ∀ row ∈ s.icache, row.length = cfg.icacheAssoc
  i_av : s.icache_set_avail.length = cfg.icacheSets
  i_mask : s.i_setIndex_mask = cfg.icacheSets - 1
  i_bits : cfg.icacheSets ≠ 0 → INTlog2 cfg.icacheSets = some s.i_setIndex_bits
  d_len : s.dcache.length = cfg.dcacheSets
  d_row : ∀ row ∈ s.dcache, row.length = cfg.dcacheAssoc
  d_av : s.dcache_set_avail.length = cfg.dcacheSets
  d_mask : s.d_setIndex_mask = cfg.dcacheSets - 1
  d_bits : cfg.dcacheSets ≠ 0 → INTlog2 cfg.dcacheSets = some s.d_setIndex_bits
  l2_len : s.l2cache.length = cfg.l2cacheSets
  l2_row : ∀ row ∈ s.l2cache, row.length = cfg.l2cacheAssoc
  l2_av : s.l2cache_set_avail.length = cfg.l2cacheSets
  l2_mask : s.l2_setIndex_mask = cfg.l2cacheSets - 1
  l2_bits : cfg.l2cacheSets ≠ 0 → INTlog2 cfg.l2cacheSets = some s.l2_setIndex_bits

/-- The set index `icache_access` computes for an address. -/
def iIndex (s : State) (addr : Nat) : Nat := (addr >>> s.blockOffset_bits) &&& s.i_setIndex_mask

/-- The tag `icache_access` computes for an address (source line 165).  C defines
the shift only for a count `i_setIndex_bits + blockOffset_bits` below 32; here
the shift is the total one on natural numbers. -/
def iTag (s : State) (addr : Nat) : Nat := addr >>> (s.i_setIndex_bits + s.blockOffset_bits)

/-- The set index `dcache_access` computes for an address. -/
def dIndex (s : State) (addr : Nat) : Nat := (addr >>> s.blockOffset_bits) &&& s.d_setIndex_mask

/-- The tag `dcache_access` computes for an address (source line 224).  C defines
the shift only for a count `d_setIndex_bits + blockOffset_bits` below 32; here
the shift is the total one on natural numbers. -/
def dTag (s : State) (addr : Nat) : Nat := addr >>> (s.d_setIndex_bits + s.blockOffset_bits)

/-- The set index `l2cache_access` computes for an address. -/
def l2Index (s : State) (addr : Nat) : Nat := (addr >>> s.blockOffset_bits) &&& s.l2_setIndex_mask

/-- The tag `l2cache_access` computes for an address (source line 282).  C defines
the shift only for a count `l2_setIndex_bits + blockOffset_bits` below 32; here
the shift is the total one on natural numbers. -/
def l2Tag (s : State) (addr : Nat) : Nat := addr >>> (s.l2_setIndex_bits + s.blockOffset_bits)

/-- The value `origin_tagANDindex` that `evict_L1` rebuilds. -/
def evictOrigin (s : State) (l2_tag l2_setIndex : Nat) : Nat :=
  ((l2_tag <<< s.l2_setIndex_bits) % 2 ^ 32) ^^^ l2_setIndex

/-- A set holds the tag: some valid way of the set carries it. -/
def Holds (row : List cacheBlock) (t : Nat) : Prop := ∃ b ∈ row, b.valid = true ∧ b.tag = t

/-- Every valid way of `r1` has a valid way of `r` with the same tag. -/
def ValidSub (r1 r : List cacheBlock) : Prop := ∀ t, Holds r1 t → Holds r t

/-- The valid blocks of both L1 caches of `s1` are, set by set, among those of `s`. -/
def L1Sub (s1 s : State) : Prop :=
  (∀ (i : Nat) (r1 : List cacheBlock), s1.icache[i]? = some r1 → ∃ r, s.icache[i]? = some r ∧ ValidSub r1 r) ∧
  (∀ (i : Nat) (r1 : List cacheBlock), s1.dcache[i]? = some r1 → ∃ r, s.dcache[i]? = some r ∧ ValidSub r1 r)

/-- Neither L1 cache holds the block with address bits `blk` (the address without
its block offset). -/
def NotInL1 (s : State) (blk : Nat) : Prop :=
  (∀ r, s.icache[blk &&& s.i_setIndex_mask]? = some r → ¬ Holds r (blk >>> s.i_setIndex_bits)) ∧
  (∀ r, s.dcache[blk &&& s.d_setIndex_mask]? = some r → ¬ Holds r (blk >>> s.d_setIndex_bits))

/-- L2 holds the block with address bits `blk`. -/
def InL2 (s : State) (blk : Nat) : Prop :=
  ∃ r, s.l2cache[blk &&& s.l2_setIndex_mask]? = some r ∧ Holds r (blk >>> s.l2_setIndex_bits)

/-- The inclusion property: every valid way of the I-cache and of the D-cache has
its block in L2. -/
def Inclusion (s : State) : Prop :=
  (∀ (i : Nat) (r : List cacheBlock) (b : cacheBlock), s.icache[i]? = some r → b ∈ r →
    b.valid = true → InL2 s ((b.tag <<< s.i_setIndex_bits) ||| i)) ∧
  (∀ (i : Nat) (r : List cacheBlock) (b : cacheBlock), s.dcache[i]? = some r → b ∈ r →
    b.valid = true → InL2 s ((b.tag <<< s.d_setIndex_bits) ||| i))

/-- The state with the L1 arrays and free-way tables blanked: two states with the
same image agree on everything `evict_L1` cannot write. -/
def State.eraseL1 (s : State) : State :=
  { s with icache := [], icache_set_avail := [], dcache := [], dcache_set_avail := [] }

/-- The state with the L1 arrays and everything `l2cache_access` writes of its own
blanked: what is left are the derived constants and the L1 statistics. -/
def State.eraseL2 (s : State) : State :=
  { s.eraseL1 with l2cacheRefs := 0, l2cacheMisses := 0, l2cachePenalties := 0,
                   l2cache := [], l2cache_set_avail := [] }

/-- The block of one level is backed by L2: every valid way of the array `cache`
(decoded with `bits` set-index bits) has its block in L2. -/
def LevelIncl (s : State) (cache : List (List cacheBlock)) (bits : Nat) : Prop :=
  ∀ (i : Nat) (r : List cacheBlock) (b : cacheBlock), cache[i]? = some r → b ∈ r →
    b.valid = true → InL2 s ((b.tag <<< bits) ||| i)

/-! ## Reference model: a per-set LRU list -/

/-- Spec-side reference: one access to an LRU list of capacity `A` (most recently
used tag first).  A tag in the list is a hit and moves to the front; any other tag is
a miss, enters at the front, and the list is cut to `A` tags. -/
def lruRefAccess (A : Nat) (l : List Nat) (t : Nat) : Bool × List Nat :=
  if t ∈ l then (true, t :: l.erase t) else (false, (t :: l).take A)

/-- Spec-side reference: the LRU list after a sequence of accesses (oldest first). -/
def lruRefList (A : Nat) (ts : List Nat) : List Nat :=
  ts.foldl (fun l t => (lruRefAccess A l t).2) []

/-- Spec-side reference: the distinct tags of a history in order of last use.  The
history is given most recent access first. -/
def recentDistinct : List Nat → List Nat
  | [] => []
  | t :: h => t :: (recentDistinct h).filter (fun x => decide (x ≠ t))

/-- The set of an L2 state matches an LRU list `l` (most recently used first): the
valid ways are exactly the listed tags, the `LRU_val` of a valid way is the
position of its tag in the list, and the free-way count is the number of
invalid ways. -/
def SetRel (A : Nat) (row : List cacheBlock) (a : Nat) (l : List Nat) : Prop :=
  row.length = A ∧ a = row.countP (fun b => !b.valid) ∧ l.length + a = A ∧ l.Nodup ∧
  ∀ (i t : Nat), (∃ b ∈ row, b.valid = true ∧ b.LRU_val = i ∧ b.tag = t) ↔ l[i]? = some t

/-- The L2 arrays match the per-set LRU lists `m`, and every listed tag comes from
a 32-bit address. -/
def L2Model (cfg : Config) (s : State) (m : Nat → List Nat) : Prop :=
  ∀ (i : Nat) (row : List cacheBlock) (a : Nat), s.l2cache[i]? = some row →
    s.l2cache_set_avail[i]? = some a →
    SetRel cfg.l2cacheAssoc row a (m i) ∧ ∀ t ∈ m i, t <<< s.l2_setIndex_bits < 2 ^ 32

/-- A sequence of direct `l2cache_access` calls: the state after the calls. -/
def l2run (cfg : Config) (s : State) : List Nat → Option State
  | [] => some s
  | a :: rest =>
    match l2cache_access cfg s a with
    | none => none
    | some p => l2run cfg p.2 rest

/-- The tags of the accesses of `addrs` that fall into L2 set `idx`, in the order
of `addrs`. -/
def setTags (s : State) (idx : Nat) (addrs : List Nat) : List Nat :=
  (addrs.filter (fun a => decide (l2Index s a = idx))).map (l2Tag s)

/-- The cyclic access pattern `t0, t1, …, tA, t0, t1, …` of length `n`. -/
def cyclic (ts : List Nat) (n : Nat) : List Nat :=
  (List.range n).map (fun i => ts.getD (i % ts.length) 0)

/-- The values `f (n-1), f (n-2), …, f 0`: a history of `n` accesses, most recent
first. -/
def backwards (f : Nat → Nat) : Nat → List Nat
  | 0 => []
  | n + 1 => f n :: backwards f n

/-! ## Predicates and concrete inputs used in the statements -/

/-- The address hits in the I-cache: a valid way of its set carries its tag. -/
def IHit (s : State) (addr : Nat) : Prop :=
  ∃ row, s.icache[iIndex s addr]? = some row ∧ Holds row (iTag s addr)

/-- The address hits in the D-cache. -/
def DHit (s : State) (addr : Nat) : Prop :=
  ∃ row, s.dcache[dIndex s addr]? = some row ∧ Holds row (dTag s addr)

/-- The address hits in L2. -/
def L2Hit (s : State) (addr : Nat) : Prop :=
  ∃ row, s.l2cache[l2Index s addr]? = some row ∧ Holds row (l2Tag s addr)

/-- The rank property of a set: the `LRU_val` values of the valid ways are, as a
multiset, exactly `0, 1, …, k-1` for `k` valid ways. -/
def RankOK (row : List cacheBlock) : Prop :=
  ((row.filter (fun b => b.valid)).map (fun b => b.LRU_val)).Perm
    (List.range (row.filter (fun b => b.valid)).length)

instance (row : List cacheBlock) : Decidable (RankOK row) :=
  inferInstanceAs (Decidable (List.Perm _ _))

/-- A configuration the spec calls invalid: a size that is not a power of two, an
enabled level of associativity 0, or a hit time or memory latency of 0. -/
def Config.Rejectable (cfg : Config) : Prop :=
  ¬ isPow2 cfg.blocksize ∨
  (cfg.icacheSets ≠ 0 ∧ ¬ isPow2 cfg.icacheSets) ∨
  (cfg.dcacheSets ≠ 0 ∧ ¬ isPow2 cfg.dcacheSets) ∨
  (cfg.l2cacheSets ≠ 0 ∧ ¬ isPow2 cfg.l2cacheSets) ∨
  (cfg.icacheSets ≠ 0 ∧ cfg.icacheAssoc = 0) ∨
  (cfg.dcacheSets ≠ 0 ∧ cfg.dcacheAssoc = 0) ∨
  (cfg.l2cacheSets ≠ 0 ∧ cfg.l2cacheAssoc = 0) ∨
  cfg.icacheHitTime = 0 ∨ cfg.dcacheHitTime = 0 ∨ cfg.l2cacheHitTime = 0 ∨ cfg.memspeed = 0

/-- The configuration of the spec scenario: every level has 1 set of associativity 2,
block size 4, hit times 1 / 1 / 10, memory latency 100, not inclusive. -/
def scenarioCfg : Config :=
  { icacheSets := 1, icacheAssoc := 2, icacheHitTime := 1,
    dcacheSets := 1, dcacheAssoc := 2, dcacheHitTime := 1,
    l2cacheSets := 1, l2cacheAssoc := 2, l2cacheHitTime := 10,
    inclusive := 0, blocksize := 4, memspeed := 100 }

/-- An inclusive configuration: direct-mapped L1 caches of 1 set, an L2 of 1 set of
associativity 1, block size 4. -/
def inclusiveCfg : Config :=
  { icacheSets := 1, icacheAssoc := 1, icacheHitTime := 1,
    dcacheSets := 1, dcacheAssoc := 1, dcacheHitTime := 1,
    l2cacheSets := 1, l2cacheAssoc := 1, l2cacheHitTime := 10,
    inclusive := 1, blocksize := 4, memspeed := 100 }

/-- A valid inclusive configuration on which `evict_L1` corrupts the I-cache: an
I-cache of 1 set of associativity 2, a D-cache of 1 set of associativity 1, an
L2 of 4 sets of associativity 1, block size 4. -/
def evictCfg : Config :=
  { icacheSets := 1, icacheAssoc := 2, icacheHitTime := 1,
    dcacheSets := 1, dcacheAssoc := 1, dcacheHitTime := 1,
    l2cacheSets := 4, l2cacheAssoc := 1, l2cacheHitTime := 10,
    inclusive := 1, blocksize := 4, memspeed := 100 }

/-- A configuration with the I-cache and the L2 disabled. -/
def bypassCfg : Config :=
  { icacheSets := 0, icacheAssoc := 0, icacheHitTime := 1,
    dcacheSets := 2, dcacheAssoc := 2, dcacheHitTime := 1,
    l2cacheSets := 0, l2cacheAssoc := 0, l2cacheHitTime := 10,
    inclusive := 0, blocksize := 4, memspeed := 100 }

/-- A configuration the spec calls invalid in every way but the block size being 0. -/
def invalidCfg : Config :=
  { icacheSets := 3, icacheAssoc := 0, icacheHitTime := 0,
    dcacheSets := 6, dcacheAssoc := 2, dcacheHitTime := 0,
    l2cacheSets := 5, l2cacheAssoc := 1, l2cacheHitTime := 0,
    inclusive := 0, blocksize := 12, memspeed := 0 }

/-- The state `init_cache` builds for `scenarioCfg`. -/
def scenarioInit : State :=
  { icacheRefs := 0, icacheMisses := 0, icachePenalties := 0,
    dcacheRefs := 0, dcacheMisses := 0, dcachePenalties := 0,
    l2cacheRefs := 0, l2cacheMisses := 0, l2cachePenalties := 0,
    blockOffset_bits := 2, i_setIndex_bits := 0, d_setIndex_bits := 0, l2_setIndex_bits := 0,
    i_setIndex_mask := 0, d_setIndex_mask := 0, l2_setIndex_mask := 0,
    icache := [[emptyBlock, emptyBlock]], dcache := [[emptyBlock, emptyBlock]],
    l2cache := [[emptyBlock, emptyBlock]],
    icache_set_avail := [2], dcache_set_avail := [2], l2cache_set_avail := [2] }

/-- The state `evictCfg` is in after the instruction accesses 0x00, 0x10, 0x04,
0x08. -/
def evictState : State :=
  { icacheRefs := 4, icacheMisses := 4, icachePenalties := 440,
    dcacheRefs := 0, dcacheMisses := 0, dcachePenalties := 0,
    l2cacheRefs := 4, l2cacheMisses := 4, l2cachePenalties := 400,
    blockOffset_bits := 2, i_setIndex_bits := 0, d_setIndex_bits := 0, l2_setIndex_bits := 2,
    i_setIndex_mask := 0, d_setIndex_mask := 0, l2_setIndex_mask := 3,
    icache := [[{ valid := true, LRU_val := 2, tag := 4 },
                { valid := true, LRU_val := 1, tag := 1 }]],
    dcache := [[{ valid := false, LRU_val := 0, tag := 0 }]],
    l2cache := [[{ valid := true, LRU_val := 0, tag := 1 }],
                [{ valid := true, LRU_val := 0, tag := 0 }],
                [{ valid := true, LRU_val := 0, tag := 0 }],
                [{ valid := false, LRU_val := 0, tag := 0 }]],
    icache_set_avail := [1], dcache_set_avail := [2], l2cache_set_avail := [0, 0, 0, 1] }

/-! ## Predicates and concrete inputs for the frame, invalidation and statistics statements -/

/-- Nothing of the L1 levels differs between the two states: the I-cache and
D-cache arrays, both L1 free-way tables and the six I-cache / D-cache
statistics are equal. -/
def L1Same (s1 s : State) : Prop :=
  s1.icache = s.icache ∧ s1.dcache = s.dcache ∧
  s1.icache_set_avail = s.icache_set_avail ∧ s1.dcache_set_avail = s.dcache_set_avail ∧
  s1.icacheRefs = s.icacheRefs ∧ s1.icacheMisses = s.icacheMisses ∧
  s1.icachePenalties = s.icachePenalties ∧
  s1.dcacheRefs = s.dcacheRefs ∧ s1.dcacheMisses = s.dcacheMisses ∧
  s1.dcachePenalties = s.dcachePenalties

/-- The states `evictCfg` passes through while data accesses alternate between the
addresses 0x10 and 0x00 (after `dcache_access(0x00)`, `icache_access(0x10)`,
`dcache_access(0x00)`): both I-cache ways are invalid with stale tags 4 and 0
and `LRU_val` 1, the D-cache and L2 set 0 hold the block accessed last (block 4
when `last10`, block 0 otherwise), `a` is the I-cache free-way count, and the
statistics are those of `c`. -/
def pumpState (last10 : Bool) (a : Nat) (c : State) : State :=
  { c with
    blockOffset_bits := 2, i_setIndex_bits := 0, d_setIndex_bits := 0, l2_setIndex_bits := 2,
    i_setIndex_mask := 0, d_setIndex_mask := 0, l2_setIndex_mask := 3,
    icache := [[{ valid := false, LRU_val := 1, tag := 4 },
                { valid := false, LRU_val := 1, tag := 0 }]],
    dcache := [[{ valid := true, LRU_val := 0, tag := if last10 then 4 else 0 }]],
    l2cache := [[{ valid := true, LRU_val := 0, tag := if last10 then 1 else 0 }],
                [emptyBlock], [emptyBlock], [emptyBlock]],
    icache_set_avail := [a], dcache_set_avail := [0], l2cache_set_avail := [0, 1, 1, 1] }

/-- The call sequence `dcache_access(0x10)`, `dcache_access(0x00)` repeated `n`
times. -/
def pumpCalls : Nat → List Access
  | 0 => []
  | n + 1 => Access.data 0x10 :: Access.data 0x00 :: pumpCalls n

/-- No two valid ways of the set carry the same tag. -/
def TagsUnique (row : List cacheBlock) : Prop :=
  ((row.filter (fun b => b.valid)).map (fun b => b.tag)).Nodup

instance (row : List cacheBlock) : Decidable (TagsUnique row) :=
  inferInstanceAs (Decidable (List.Nodup _))

/-- Effect of the inner loop of `evict_L1` (source lines 344-347, 360-363) on one
way, `r` being the `LRU_val` of the matched way: a way with a greater `LRU_val`
has it decremented (on `uint32_t`), any other way is left as it is. -/
def closeGap (r : Nat) (b : cacheBlock) : cacheBlock :=
  if b.LRU_val > r then { b with LRU_val := (b.LRU_val + 2 ^ 32 - 1) % 2 ^ 32 } else b

/-- The conservation relations between the statistics counters after `n` calls of
`icache_access` / `dcache_access`. -/
def StatsOK (cfg : Config) (n : Nat) (s : State) : Prop :=
  s.l2cacheRefs = s.icacheMisses + s.dcacheMisses ∧
  s.icacheMisses ≤ s.icacheRefs ∧ s.dcacheMisses ≤ s.dcacheRefs ∧
  s.l2cacheMisses ≤ s.l2cacheRefs ∧
  s.icacheRefs + s.dcacheRefs = n ∧
  s.l2cachePenalties = s.l2cacheMisses * cfg.memspeed

/-- The state `evictCfg` is in after the single instruction access 0x10. -/
def matchState : State :=
  { icacheRefs := 1, icacheMisses := 1, icachePenalties := 110,
    dcacheRefs := 0, dcacheMisses := 0, dcachePenalties := 0,
    l2cacheRefs := 1, l2cacheMisses := 1, l2cachePenalties := 100,
    blockOffset_bits := 2, i_setIndex_bits := 0, d_setIndex_bits := 0, l2_setIndex_bits := 2,
    i_setIndex_mask := 0, d_setIndex_mask := 0, l2_setIndex_mask := 3,
    icache := [[{ valid := true, LRU_val := 0, tag := 4 },
                { valid := false, LRU_val := 1, tag := 0 }]],
    dcache := [[{ valid := false, LRU_val := 0, tag := 0 }]],
    l2cache := [[{ valid := true, LRU_val := 0, tag := 1 }],
                [{ valid := false, LRU_val := 0, tag := 0 }],
                [{ valid := false, LRU_val := 0, tag := 0 }],
                [{ valid := false, LRU_val := 0, tag := 0 }]],
    icache_set_avail := [1], dcache_set_avail := [1], l2cache_set_avail := [0, 1, 1, 1] }

/-! ## Concrete inputs for the replacement, wrap-around invalidation and insertion statements -/

/-- The spec scenario made inclusive: every level has 1 set of associativity 2,
block size 4, hit times 1 / 1 / 10, memory latency 100, `inclusive = TRUE`. -/
def scenarioInclCfg : Config :=
  { icacheSets := 1, icacheAssoc := 2, icacheHitTime := 1,
    dcacheSets := 1, dcacheAssoc := 2, dcacheHitTime := 1,
    l2cacheSets := 1, l2cacheAssoc := 2, l2cacheHitTime := 10,
    inclusive := 1, blocksize := 4, memspeed := 100 }

/-- The state `scenarioCfg` and `scenarioInclCfg` are in after the instruction
accesses 0x00 and 0x04: the I-cache set and the L2 set are full, with block 0 in
way 0 (`LRU_val` 1) and block 1 in way 1 (`LRU_val` 0). -/
def fullState : State :=
  { icacheRefs := 2, icacheMisses := 2, icachePenalties := 220,
    dcacheRefs := 0, dcacheMisses := 0, dcachePenalties := 0,
    l2cacheRefs := 2, l2cacheMisses := 2, l2cachePenalties := 200,
    blockOffset_bits := 2, i_setIndex_bits := 0, d_setIndex_bits := 0, l2_setIndex_bits := 0,
    i_setIndex_mask := 0, d_setIndex_mask := 0, l2_setIndex_mask := 0,
    icache := [[{ valid := true, LRU_val := 1, tag := 0 },
                { valid := true, LRU_val := 0, tag := 1 }]],
    dcache := [[emptyBlock, emptyBlock]],
    l2cache := [[{ valid := true, LRU_val := 1, tag := 0 },
                 { valid := true, LRU_val := 0, tag := 1 }]],
    icache_set_avail := [0], dcache_set_avail := [2], l2cache_set_avail := [0] }

/-- A state with the derived constants of `evictCfg` (block offset 2 bits, one
I-cache and one D-cache set, four L2 sets), the given arrays and free-way
tables, and the statistics of `c`. -/
def withArrays (c : State) (ic : List (List cacheBlock)) (ia : List Nat)
    (dc : List (List cacheBlock)) (da : List Nat) (lc : List (List cacheBlock))
    (la : List Nat) : State :=
  { c with
    blockOffset_bits := 2, i_setIndex_bits := 0, d_setIndex_bits := 0, l2_setIndex_bits := 2,
    i_setIndex_mask := 0, d_setIndex_mask := 0, l2_setIndex_mask := 3,
    icache := ic, dcache := dc, l2cache := lc,
    icache_set_avail := ia, dcache_set_avail := da, l2cache_set_avail := la }

/-- A valid inclusive configuration with a three-way I-cache of one set, a
one-way D-cache of one set and a direct-mapped L2 of four sets, block size 4. -/
def evict3Cfg : Config :=
  { icacheSets := 1, icacheAssoc := 3, icacheHitTime := 1,
    dcacheSets := 1, dcacheAssoc := 1, dcacheHitTime := 1,
    l2cacheSets := 4, l2cacheAssoc := 1, l2cacheHitTime := 10,
    inclusive := 1, blocksize := 4, memspeed := 100 }

/-- The state of `evict3Cfg` in which the I-cache set holds the blocks 0, 1, 2 in
three valid ways with `LRU_val` `v`, `u`, `u` and free-way count 2, the D-cache
way is invalid with count 2, and L2 holds the blocks 0 to 3; the statistics
are those of `c`. -/
def ageState (u v : Nat) (c : State) : State :=
  withArrays c
    [[{ valid := true, LRU_val := v, tag := 0 }, { valid := true, LRU_val := u, tag := 1 },
      { valid := true, LRU_val := u, tag := 2 }]] [2]
    [[{ valid := false, LRU_val := 0, tag := 4 }]] [2]
    [[{ valid := true, LRU_val := 0, tag := 0 }], [{ valid := true, LRU_val := 0, tag := 0 }],
      [{ valid := true, LRU_val := 0, tag := 0 }], [{ valid := true, LRU_val := 0, tag := 0 }]]
    [0, 0, 0, 0]

/-- The call `icache_access(0x0C)` repeated `n` times. -/
def ageCalls : Nat → List Access
  | 0 => []
  | n + 1 => Access.instr 0x0C :: ageCalls n

/-! # Lemmas and theorems -/

/-! ## Loops -/

theorem forLoop_succ {σ : Type} (body : Nat → σ → Option σ) (n j : Nat) (st st1 : σ)
    (h : body j st = some st1) : forLoop body (n + 1) j st = forLoop body n (j + 1) st1 := by
  simp [forLoop, h]

/-- A loop whose body keeps an invariant and cannot fault below `bound` ends and
keeps the invariant. -/
theorem forLoop_inv {σ : Type} (body : Nat → σ → Option σ) (Inv : σ → Prop) (bound : Nat)
    (hbody : ∀ j st, j < bound → Inv st → ∃ st1, body j st = some st1 ∧ Inv st1) :
    ∀ (n j : Nat) (st : σ), j + n ≤ bound → Inv st →
      ∃ st1, forLoop body n j st = some st1 ∧ Inv st1 := by
  intro n
  induction n with
  | zero => intro j st _ hi; exact ⟨st, rfl, hi⟩
  | succ n ih =>
    intro j st hb hi
    obtain ⟨st1, h1, hi1⟩ := hbody j st (by omega) hi
    obtain ⟨st2, h2, hi2⟩ := ih (j + 1) st1 (by omega) hi1
    exact ⟨st2, by rw [forLoop_succ body n j st st1 h1]; exact h2, hi2⟩

theorem getElem?_append_cons {α : Type} (pre post : List α) (b : α) :
    (pre ++ b :: post)[pre.length]? = some b := by
  rw [List.getElem?_append_right (le_refl _)]
  simp

theorem set_append_cons {α : Type} (pre post : List α) (b c : α) :
    (pre ++ b :: post).set pre.length c = pre ++ c :: post := by
  simp

/-- A loop whose body rewrites way `j` by `f` maps `f` over the ways it visits. -/
theorem forLoop_map (body : Nat → List cacheBlock → Option (List cacheBlock))
    (f : cacheBlock → cacheBlock)
    (hbody : ∀ (pre post : List cacheBlock) (b : cacheBlock),
      body pre.length (pre ++ b :: post) = some (pre ++ f b :: post)) :
    ∀ (post pre : List cacheBlock),
      forLoop body post.length pre.length (pre ++ post) = some (pre ++ post.map f) := by
  intro post
  induction post with
  | nil => intro pre; simp [forLoop]
  | cons b rest ih =>
    intro pre
    have h := ih (pre ++ [f b])
    simp only [List.length_append, List.length_singleton, List.append_assoc,
      List.singleton_append] at h
    rw [List.length_cons, forLoop_succ body _ _ _ _ (hbody pre rest b)]
    simpa using h

theorem touchBody_eq (old : Nat) (pre post : List cacheBlock) (b : cacheBlock) :
    touchBody old pre.length (pre ++ b :: post) = some (pre ++ touchWay old b :: post) := by
  unfold touchBody touchWay
  rw [getElem?_append_cons]
  by_cases h1 : b.LRU_val < old
  · simp [h1]
  · by_cases h2 : old = b.LRU_val
    · simp [h2]
    · simp [h1, h2]

theorem touchLoop_eq (old : Nat) (row : List cacheBlock) :
    forLoop (touchBody old) row.length 0 row = some (row.map (touchWay old)) := by
  simpa using forLoop_map (touchBody old) (touchWay old) (touchBody_eq old) row []

theorem replaceBody_eq (assoc tag : Nat) (pre post : List cacheBlock) (b : cacheBlock) :
    replaceBody assoc tag pre.length (pre ++ b :: post)
      = some (pre ++ replaceWay assoc tag b :: post) := by
  unfold replaceBody replaceWay ageWay newWay
  rw [getElem?_append_cons]
  simp only [set_append_cons]
  split_ifs <;> rfl

theorem replaceLoop_eq (assoc tag : Nat) (row : List cacheBlock) :
    forLoop (replaceBody assoc tag) row.length 0 row = some (row.map (replaceWay assoc tag)) := by
  simpa using forLoop_map (replaceBody assoc tag) (replaceWay assoc tag)
    (replaceBody_eq assoc tag) row []

/-- The search loop: the first valid way with the tag decides. -/
theorem lookupLoop_eq (tag : Nat) (row : List cacheBlock) :
    ∀ (post pre : List cacheBlock), pre ++ post = row →
      lookupLoop row.length tag row post.length pre.length
        = some ((post.find? (fun b => decide (b.tag = tag ∧ b.valid = true))).map
            (fun b => row.map (touchWay b.LRU_val))) := by
  intro post
  induction post with
  | nil => intro pre _; simp [lookupLoop]
  | cons b rest ih =>
    intro pre hrow
    have hget : row[pre.length]? = some b := by rw [← hrow]; exact getElem?_append_cons pre rest b
    simp only [List.length_cons, lookupLoop, hget]
    by_cases hb : b.tag = tag ∧ b.valid = true
    · rw [if_pos hb, touchLoop_eq]
      simp [List.find?, hb]
    · rw [if_neg hb]
      have h := ih (pre ++ [b]) (by simpa using hrow)
      simp only [List.length_append, List.length_singleton] at h
      rw [h]
      simp [List.find?, hb]

theorem allocBody_eq (tag : Nat) (pre post : List cacheBlock) (b : cacheBlock) (al : Bool)
    (a : Nat) :
    allocBody tag pre.length (pre ++ b :: post, al, a)
      = some (if b.valid = false ∧ al = false
          then (pre ++ newWay tag :: post, true, (a + 2 ^ 32 - 1) % 2 ^ 32)
          else (pre ++ ageWay b :: post, al, a)) := by
  unfold allocBody newWay ageWay
  simp only [getElem?_append_cons, set_append_cons]
  by_cases h : b.valid = false ∧ al = false
  · rw [if_pos h, if_pos h]
  · rw [if_neg h, if_neg h]

theorem allocLoop_eq (tag : Nat) :
    ∀ (post pre : List cacheBlock) (al : Bool) (a : Nat),
      ∃ al1, forLoop (allocBody tag) post.length pre.length (pre ++ post, al, a)
        = some (pre ++ allocList tag al post, al1, allocAvail al post a) := by
  intro post
  induction post with
  | nil => intro pre al a; exact ⟨al, by simp [forLoop, allocList, allocAvail]⟩
  | cons b rest ih =>
    intro pre al a
    rw [List.length_cons, forLoop_succ _ _ _ _ _ (allocBody_eq tag pre rest b al a)]
    by_cases h : b.valid = false ∧ al = false
    · rw [if_pos h]
      obtain ⟨al1, h1⟩ := ih (pre ++ [newWay tag]) true ((a + 2 ^ 32 - 1) % 2 ^ 32)
      refine ⟨al1, ?_⟩
      simp only [List.length_append, List.length_singleton, List.append_assoc,
        List.singleton_append] at h1
      rw [h1]
      simp [allocList, allocAvail, h]
    · rw [if_neg h]
      obtain ⟨al1, h1⟩ := ih (pre ++ [ageWay b]) al a
      refine ⟨al1, ?_⟩
      simp only [List.length_append, List.length_singleton, List.append_assoc,
        List.singleton_append] at h1
      rw [h1]
      have : allocAvail al (b :: rest) a = allocAvail al rest a := by
        unfold allocAvail
        by_cases hal : al = false
        · have hbv : b.valid = true := by
            cases hv : b.valid
            · exact absurd ⟨hv, hal⟩ h
            · rfl
          simp [hal, hbv]
        · simp [hal]
      simp [allocList, h, this]


/-- Overwriting a way by one with the same image under `f` does not change the
images. -/
theorem map_set_same {α β : Type} (f : α → β) (row : List α) (k : Nat) (c : α)
    (h : ∀ b, row[k]? = some b → f c = f b) : (row.set k c).map f = row.map f := by
  apply List.ext_getElem?
  intro m
  rw [List.getElem?_map, List.getElem?_map, List.getElem?_set]
  by_cases hm : k = m
  · subst hm
    by_cases hk : k < row.length
    · simp [hk, List.getElem?_eq_getElem hk, h _ (List.getElem?_eq_getElem hk)]
    · simp [hk, List.getElem?_eq_none (Nat.le_of_not_lt hk)]
  · simp [hm]

theorem evictInner_keys (A j : Nat) (keys : List (Bool × Nat)) (hj : j < A) :
    ∀ (n k : Nat) (row : List cacheBlock), k + n ≤ A →
      (row.length = A ∧ row.map wayKey = keys) →
      ∃ row1, forLoop (evictInner j) n k row = some row1 ∧
        (row1.length = A ∧ row1.map wayKey = keys) := by
  apply forLoop_inv (evictInner j) (fun row => row.length = A ∧ row.map wayKey = keys) A
  intro k row hk hinv
  obtain ⟨hlen, hkeys⟩ := hinv
  have hk1 : k < row.length := by omega
  have hj1 : j < row.length := by omega
  unfold evictInner
  rw [List.getElem?_eq_getElem hk1, List.getElem?_eq_getElem hj1]
  simp only
  split_ifs
  · refine ⟨_, rfl, by simpa using hlen, ?_⟩
    rw [← hkeys]
    apply map_set_same
    intro b hb
    rw [List.getElem?_eq_getElem hk1] at hb
    cases hb
    simp [wayKey]
  · exact ⟨_, rfl, hlen, hkeys⟩

/-- The outer loop of `evict_L1` on one set: it ends, keeps the tags, and clears
the valid bit of exactly the ways carrying the tag. -/
theorem evictLoop_keys (A t i : Nat) :
    ∀ (post pre : List (Bool × Nat)) (row : List cacheBlock) (av : List Nat),
      row.map wayKey = pre ++ post → row.length = A → i < av.length →
      ∃ row1 av1, forLoop (evictBody A t i) post.length pre.length (row, av) = some (row1, av1) ∧
        row1.map wayKey = pre ++ post.map (invalKey t) ∧ row1.length = A ∧
        av1.length = av.length := by
  intro post
  induction post with
  | nil =>
    intro pre row av hk hl _
    exact ⟨row, av, rfl, by simpa using hk, hl, rfl⟩
  | cons p rest ih =>
    intro pre row av hk hl hi
    have hlen : row.length = pre.length + (rest.length + 1) := by
      have := congrArg List.length hk
      simpa using this
    have hj : pre.length < row.length := by omega
    have hp : wayKey row[pre.length] = p := by
      have h1 : (row.map wayKey)[pre.length]? = some p := by
        rw [hk]; exact getElem?_append_cons pre rest p
      rw [List.getElem?_map, List.getElem?_eq_getElem hj] at h1
      simpa using h1
    have hset : ∀ c : cacheBlock, wayKey c = invalKey t p →
        (row.set pre.length c).map wayKey = (pre ++ [invalKey t p]) ++ rest := by
      intro c hc
      rw [List.map_set, hk, hc, set_append_cons]
      simp
    by_cases ht : t = row[pre.length].tag
    · -- the way carries the tag
      have hkey : invalKey t p = (false, row[pre.length].tag) := by
        rw [← hp]; simp [invalKey, wayKey, ht]
      obtain ⟨row2, h2, hl2, hk2⟩ := evictInner_keys A pre.length
        ((pre ++ [invalKey t p]) ++ rest) (by omega) A 0
        (row.set pre.length { row[pre.length] with valid := false }) (by omega)
        ⟨by simpa using hl, hset _ (by rw [hkey]; rfl)⟩
      have hj2 : pre.length < row2.length := by omega
      obtain ⟨row3, av3, h3, hk3, hl3, ha3⟩ := ih (pre ++ [invalKey t p])
        (row2.set pre.length { row2[pre.length] with LRU_val := (A + 2 ^ 32 - 1) % 2 ^ 32 })
        (av.set i ((av[i] + 1) % 2 ^ 32))
        (by
          rw [← hk2]
          apply map_set_same
          intro b hb
          rw [List.getElem?_eq_getElem hj2] at hb
          cases hb
          simp [wayKey])
        (by simpa using hl2) (by simpa using hi)
      refine ⟨row3, av3, ?_, by simpa using hk3, hl3, by simpa using ha3⟩
      have hbody : evictBody A t i pre.length (row, av)
          = some (row2.set pre.length { row2[pre.length] with LRU_val := (A + 2 ^ 32 - 1) % 2 ^ 32 },
              av.set i ((av[i] + 1) % 2 ^ 32)) := by
        unfold evictBody
        simp only [List.getElem?_eq_getElem hj, if_pos ht, h2, List.getElem?_eq_getElem hj2,
          List.getElem?_eq_getElem hi]
      rw [List.length_cons, forLoop_succ _ _ _ _ _ hbody]
      simpa using h3
    · have hkey : invalKey t p = p := by
        rw [← hp]
        have : (row[pre.length].tag == t) = false := by
          simpa using fun h => ht h.symm
        simp [invalKey, wayKey, this]
      obtain ⟨row3, av3, h3, hk3, hl3, ha3⟩ := ih (pre ++ [invalKey t p]) row av
        (by rw [hkey, hk]; simp) hl hi
      refine ⟨row3, av3, ?_, by simpa using hk3, hl3, ha3⟩
      have hbody : evictBody A t i pre.length (row, av) = some (row, av) := by
        unfold evictBody
        simp only [List.getElem?_eq_getElem hj, if_neg ht]
      rw [List.length_cons, forLoop_succ _ _ _ _ _ hbody]
      simpa using h3

/-! ## `INTlog2` and `init_cache` -/

theorem INTlog2Loop_zero (fuel cnt : Nat) : INTlog2Loop fuel 0 cnt = none := by
  induction fuel generalizing cnt with
  | zero => rfl
  | succ f ih => simp [INTlog2Loop, ih]

theorem INTlog2Loop_pow2 (fuel k cnt : Nat) (h : k < fuel) :
    INTlog2Loop fuel (2 ^ k) cnt = some (cnt + k) := by
  induction fuel generalizing k cnt with
  | zero => omega
  | succ f ih =>
    cases k with
    | zero => simp [INTlog2Loop]
    | succ k =>
      have h2 : 2 ^ (k + 1) ≠ 1 := by
        have : 0 < 2 ^ k := Nat.pow_pos (by omega)
        rw [Nat.pow_succ]; omega
      have h3 : 2 ^ (k + 1) / 2 = 2 ^ k := by
        rw [Nat.pow_succ]; simp
      rw [INTlog2Loop, if_pos h2, h3, ih k (cnt + 1) (by omega)]
      congr 1; omega

theorem INTlog2_pow2 (k : Nat) (h : k < 32) : INTlog2 (2 ^ k) = some k := by
  simpa [INTlog2] using INTlog2Loop_pow2 32 k 0 h

theorem INTlog2Loop_some (fuel n cnt : Nat) (h0 : 0 < n) (h : n < 2 ^ fuel) :
    ∃ c, INTlog2Loop fuel n cnt = some c := by
  induction fuel generalizing n cnt with
  | zero => simp at h; omega
  | succ f ih =>
    by_cases h1 : n = 1
    · exact ⟨cnt, by simp [INTlog2Loop, h1]⟩
    · rw [INTlog2Loop, if_pos h1]
      apply ih
      · omega
      · rw [Nat.pow_succ] at h; omega

theorem INTlog2_some (n : Nat) (h0 : 0 < n) (h : n < 2 ^ 32) : ∃ c, INTlog2 n = some c :=
  INTlog2Loop_some 32 n 0 h0 h

theorem INTlog2_level_some (n : Nat) (h : n < 2 ^ 32) :
    ∃ c, (if n ≠ 0 then INTlog2 n else some 0) = some c := by
  by_cases h0 : n = 0
  · exact ⟨0, by simp [h0]⟩
  · rw [if_pos h0]; exact INTlog2_some n (by omega) h

theorem init_mask (n : Nat) (h : n < 2 ^ 32) :
    (if n ≠ 0 then (n + 2 ^ 32 - 1) % 2 ^ 32 else 0) = n - 1 := by
  by_cases h0 : n = 0
  · simp [h0]
  · rw [if_pos h0]; omega

/-- What `init_cache` builds: the state is determined by the four logarithms. -/
theorem init_cache_some (cfg : Config) (s : State) (h : init_cache cfg = some s) :
    ∃ bo ib db lb, INTlog2 cfg.blocksize = some bo ∧
      (if cfg.icacheSets ≠ 0 then INTlog2 cfg.icacheSets else some 0) = some ib ∧
      (if cfg.dcacheSets ≠ 0 then INTlog2 cfg.dcacheSets else some 0) = some db ∧
      (if cfg.l2cacheSets ≠ 0 then INTlog2 cfg.l2cacheSets else some 0) = some lb ∧
      s = { icacheRefs := 0, icacheMisses := 0, icachePenalties := 0,
            dcacheRefs := 0, dcacheMisses := 0, dcachePenalties := 0,
            l2cacheRefs := 0, l2cacheMisses := 0, l2cachePenalties := 0,
            blockOffset_bits := bo,
            i_setIndex_bits := ib,
            d_setIndex_bits := db,
            l2_setIndex_bits := lb,
            i_setIndex_mask := if cfg.icacheSets ≠ 0 then (cfg.icacheSets + 2 ^ 32 - 1) % 2 ^ 32 else 0,
            d_setIndex_mask := if cfg.dcacheSets ≠ 0 then (cfg.dcacheSets + 2 ^ 32 - 1) % 2 ^ 32 else 0,
            l2_setIndex_mask := if cfg.l2cacheSets ≠ 0 then (cfg.l2cacheSets + 2 ^ 32 - 1) % 2 ^ 32 else 0,
            icache := List.replicate cfg.icacheSets (List.replicate cfg.icacheAssoc emptyBlock),
            dcache := List.replicate cfg.dcacheSets (List.replicate cfg.dcacheAssoc emptyBlock),
            l2cache := List.replicate cfg.l2cacheSets (List.replicate cfg.l2cacheAssoc emptyBlock),
            icache_set_avail := List.replicate cfg.icacheSets cfg.icacheAssoc,
            dcache_set_avail := List.replicate cfg.dcacheSets cfg.dcacheAssoc,
            l2cache_set_avail := List.replicate cfg.l2cacheSets cfg.l2cacheAssoc } := by
  unfold init_cache at h
  cases h1 : INTlog2 cfg.blocksize with
  | none => simp [h1] at h
  | some bo =>
    cases h2 : (if cfg.icacheSets ≠ 0 then INTlog2 cfg.icacheSets else some 0) with
    | none => simp [h1, h2] at h
    | some ib =>
      cases h3 : (if cfg.dcacheSets ≠ 0 then INTlog2 cfg.dcacheSets else some 0) with
      | none => simp [h1, h2, h3] at h
      | some db =>
        cases h4 : (if cfg.l2cacheSets ≠ 0 then INTlog2 cfg.l2cacheSets else some 0) with
        | none => simp [h1, h2, h3, h4] at h
        | some lb =>
          simp only [h1, h2, h3, h4, Option.some.injEq] at h
          exact ⟨bo, ib, db, lb, rfl, rfl, rfl, rfl, h.symm⟩

theorem init_cache_isSome (cfg : Config) (hb : cfg.Bits32) (h0 : 0 < cfg.blocksize) :
    ∃ s, init_cache cfg = some s := by
  obtain ⟨h1, _, _, h2, _, _, h3, _, _, _, h4, _⟩ := hb
  obtain ⟨bo, hbo⟩ := INTlog2_some cfg.blocksize h0 h4
  obtain ⟨ib, hib⟩ := INTlog2_level_some cfg.icacheSets h1
  obtain ⟨db, hdb⟩ := INTlog2_level_some cfg.dcacheSets h2
  obtain ⟨lb, hlb⟩ := INTlog2_level_some cfg.l2cacheSets h3
  unfold init_cache
  rw [hbo, hib, hdb, hlb]
  exact ⟨_, rfl⟩

theorem init_shape (cfg : Config) (s : State) (hb : cfg.Bits32) (h : init_cache cfg = some s) :
    Shape cfg s := by
  obtain ⟨bo, ib, db, lb, hbo, hib, hdb, hlb, rfl⟩ := init_cache_some cfg s h
  obtain ⟨h1, _, _, h2, _, _, h3, _, _, _, _, _⟩ := hb
  constructor
  · exact hbo
  · simp
  · intro row hrow; rw [List.eq_of_mem_replicate hrow]; simp
  · simp
  · exact init_mask _ h1
  · intro h0; rw [if_pos h0] at hib; exact hib
  · simp
  · intro row hrow; rw [List.eq_of_mem_replicate hrow]; simp
  · simp
  · exact init_mask _ h2
  · intro h0; rw [if_pos h0] at hdb; exact hdb
  · simp
  · intro row hrow; rw [List.eq_of_mem_replicate hrow]; simp
  · simp
  · exact init_mask _ h3
  · intro h0; rw [if_pos h0] at hlb; exact hlb

/-! ## Sets, valid tags and `evict_L1` -/

theorem and_mask_lt (x n : Nat) (h : n ≠ 0) : x &&& (n - 1) < n := by
  have := @Nat.and_le_right x (n - 1)
  omega

theorem validSub_refl (r : List cacheBlock) : ValidSub r r := fun _ h => h

theorem validSub_trans {r1 r2 r3 : List cacheBlock} (h1 : ValidSub r1 r2) (h2 : ValidSub r2 r3) :
    ValidSub r1 r3 := fun t h => h2 t (h1 t h)

theorem l1Sub_refl (s : State) : L1Sub s s :=
  ⟨fun _ r1 h => ⟨r1, h, validSub_refl r1⟩, fun _ r1 h => ⟨r1, h, validSub_refl r1⟩⟩

theorem l1Sub_trans {s1 s2 s3 : State} (h1 : L1Sub s1 s2) (h2 : L1Sub s2 s3) : L1Sub s1 s3 := by
  constructor
  · intro i r1 hr1
    obtain ⟨r2, hr2, v12⟩ := h1.1 i r1 hr1
    obtain ⟨r3, hr3, v23⟩ := h2.1 i r2 hr2
    exact ⟨r3, hr3, validSub_trans v12 v23⟩
  · intro i r1 hr1
    obtain ⟨r2, hr2, v12⟩ := h1.2 i r1 hr1
    obtain ⟨r3, hr3, v23⟩ := h2.2 i r2 hr2
    exact ⟨r3, hr3, validSub_trans v12 v23⟩

/-- The rows of a cache after one row was replaced. -/
theorem getElem?_set_row {α : Type} (cs : List α) (i j : Nat) (r1 r : α)
    (h : (cs.set i r1)[j]? = some r) : (j = i ∧ r = r1) ∨ (j ≠ i ∧ cs[j]? = some r) := by
  rw [List.getElem?_set] at h
  by_cases hij : i = j
  · subst hij
    left
    by_cases hi : i < cs.length
    · simp [hi] at h; exact ⟨rfl, h.symm⟩
    · simp [hi] at h
  · right
    simp [hij] at h
    exact ⟨fun e => hij e.symm, h⟩

theorem rows_set (cs : List (List cacheBlock)) (i A : Nat) (r1 : List cacheBlock)
    (hrow : ∀ row ∈ cs, row.length = A) (h1 : r1.length = A) :
    ∀ row ∈ cs.set i r1, row.length = A := by
  intro row hmem
  rcases List.mem_or_eq_of_mem_set hmem with h | h
  · exact hrow row h
  · rw [h]; exact h1

theorem cacheSub_set (cs : List (List cacheBlock)) (idx : Nat) (row row1 : List cacheBlock)
    (hrow : cs[idx]? = some row) (hv : ValidSub row1 row) :
    ∀ (i : Nat) (r1 : List cacheBlock), (cs.set idx row1)[i]? = some r1 →
      ∃ r, cs[i]? = some r ∧ ValidSub r1 r := by
  intro i r1 h
  rcases getElem?_set_row cs idx i row1 r1 h with ⟨hi, hr⟩ | ⟨_, hr⟩
  · subst hi; subst hr; exact ⟨row, hrow, hv⟩
  · exact ⟨r1, hr, validSub_refl r1⟩

theorem keys_validSub (t : Nat) (row row1 : List cacheBlock)
    (h : row1.map wayKey = (row.map wayKey).map (invalKey t)) :
    ValidSub row1 row ∧ ¬ Holds row1 t := by
  have key : ∀ b1 ∈ row1, b1.valid = true → ∃ b ∈ row, b.valid = true ∧ b.tag = b1.tag ∧ b.tag ≠ t := by
    intro b1 hb1 hv
    have hm : wayKey b1 ∈ (row.map wayKey).map (invalKey t) := by
      rw [← h]; exact List.mem_map_of_mem _ hb1
    simp only [List.map_map, List.mem_map, Function.comp] at hm
    obtain ⟨b, hb, hk⟩ := hm
    simp only [invalKey, wayKey, Prod.mk.injEq] at hk
    obtain ⟨hk1, hk2⟩ := hk
    rw [hv] at hk1
    simp only [Bool.and_eq_true, Bool.not_eq_true', beq_eq_false_iff_ne, ne_eq] at hk1
    exact ⟨b, hb, hk1.1, hk2, hk1.2⟩
  constructor
  · rintro t1 ⟨b1, hb1, hv, ht⟩
    obtain ⟨b, hb, hbv, hbt, _⟩ := key b1 hb1 hv
    exact ⟨b, hb, hbv, hbt.trans ht⟩
  · rintro ⟨b1, hb1, hv, ht⟩
    obtain ⟨b, _, _, hbt, hne⟩ := key b1 hb1 hv
    exact hne (hbt.trans ht)

/-- One half of `evict_L1` cannot fault on well-shaped arrays; it keeps the
dimensions, only clears valid bits, and the targeted set no longer holds the
tag. -/
theorem evictLevel_spec (sets A mask bits o : Nat) (cs : List (List cacheBlock)) (av : List Nat)
    (hlen : cs.length = sets) (hrow : ∀ row ∈ cs, row.length = A) (hav : av.length = sets)
    (hmask : mask = sets - 1) :
    ∃ cs1 av1, evictLevel sets A mask bits o cs av = some (cs1, av1) ∧
      cs1.length = sets ∧ (∀ row ∈ cs1, row.length = A) ∧ av1.length = sets ∧
      (∀ (i : Nat) (r1 : List cacheBlock), cs1[i]? = some r1 →
        ∃ r, cs[i]? = some r ∧ ValidSub r1 r) ∧
      (∀ r, cs1[o &&& mask]? = some r → ¬ Holds r (o >>> bits)) := by
  unfold evictLevel
  by_cases h0 : sets > 0
  · rw [if_pos h0]
    have hi : o &&& mask < sets := by rw [hmask]; exact and_mask_lt _ _ (by omega)
    have hi1 : o &&& mask < cs.length := by omega
    have hl : (cs[o &&& mask]).length = A := hrow _ (List.getElem_mem hi1)
    obtain ⟨row1, av1, h1, hk, hl1, ha1⟩ := evictLoop_keys A (o >>> bits) (o &&& mask)
      ((cs[o &&& mask]).map wayKey) [] (cs[o &&& mask]) av (by simp) hl (by omega)
    have hloop : forLoop (evictBody A (o >>> bits) (o &&& mask)) A 0 (cs[o &&& mask], av)
        = some (row1, av1) := by simpa [hl] using h1
    have hv := keys_validSub (o >>> bits) (cs[o &&& mask]) row1 (by simpa using hk)
    refine ⟨cs.set (o &&& mask) row1, av1, ?_, by simpa using hlen,
      rows_set _ _ _ _ hrow hl1, by omega, ?_, ?_⟩
    · simp only [List.getElem?_eq_getElem hi1, hloop]
    · exact cacheSub_set _ _ _ _ (List.getElem?_eq_getElem hi1) hv.1
    · intro r hr
      have : r = row1 := by simpa [hi1] using hr.symm
      rw [this]; exact hv.2
  · rw [if_neg h0]
    refine ⟨cs, av, rfl, hlen, hrow, hav, fun _ r1 h => ⟨r1, h, validSub_refl r1⟩, ?_⟩
    intro r hr
    have : cs = [] := List.eq_nil_of_length_eq_zero (by omega)
    simp [this] at hr

/-- The function `evict_L1` cannot fault on a well-shaped state; it changes only the L1
arrays and free-way tables, only clears valid bits, and afterwards neither L1
cache holds the rebuilt block. -/
theorem evict_L1_spec (cfg : Config) (s : State) (T S : Nat) (hs : Shape cfg s) :
    ∃ s1, evict_L1 cfg s T S = some s1 ∧ Shape cfg s1 ∧
      s1.eraseL1 = s.eraseL1 ∧ L1Sub s1 s ∧ NotInL1 s1 (evictOrigin s T S) := by
  obtain ⟨ic, ia, h1, hil, hir, hia, hisub, hinot⟩ :=
    evictLevel_spec cfg.icacheSets cfg.icacheAssoc s.i_setIndex_mask s.i_setIndex_bits
      (evictOrigin s T S) s.icache s.icache_set_avail hs.i_len hs.i_row hs.i_av hs.i_mask
  obtain ⟨dc, da, h2, hdl, hdr, hda, hdsub, hdnot⟩ :=
    evictLevel_spec cfg.dcacheSets cfg.dcacheAssoc s.d_setIndex_mask s.d_setIndex_bits
      (evictOrigin s T S) s.dcache s.dcache_set_avail hs.d_len hs.d_row hs.d_av hs.d_mask
  refine ⟨{ s with icache := ic, icache_set_avail := ia, dcache := dc, dcache_set_avail := da },
    ?_, ?_, rfl, ⟨hisub, hdsub⟩, ⟨hinot, hdnot⟩⟩
  · unfold evict_L1
    simp only [evictOrigin] at h1 h2
    simp only [h1, h2]
  · exact ⟨hs.bo_bits, hil, hir, hia, hs.i_mask, hs.i_bits, hdl, hdr, hda, hs.d_mask, hs.d_bits,
      hs.l2_len, hs.l2_row, hs.l2_av, hs.l2_mask, hs.l2_bits⟩

/-! ## The loops of an access on a set of the right length -/

theorem find_some_holds (row : List cacheBlock) (tag : Nat) (b : cacheBlock)
    (h : row.find? (fun b => decide (b.tag = tag ∧ b.valid = true)) = some b) :
    b ∈ row ∧ b.valid = true ∧ b.tag = tag := by
  have h1 := List.find?_some h
  have h2 := List.mem_of_find?_eq_some h
  simp only [decide_eq_true_eq] at h1
  exact ⟨h2, h1.2, h1.1⟩

theorem find_none_iff (row : List cacheBlock) (tag : Nat) :
    row.find? (fun b => decide (b.tag = tag ∧ b.valid = true)) = none ↔ ¬ Holds row tag := by
  rw [List.find?_eq_none]
  constructor
  · rintro h ⟨b, hb, hv, ht⟩
    exact h b hb (by simp [hv, ht])
  · intro h b hb hd
    simp only [decide_eq_true_eq] at hd
    exact h ⟨b, hb, hd.2, hd.1⟩

theorem find_cases (row : List cacheBlock) (tag : Nat) :
    (∃ b, row.find? (fun b => decide (b.tag = tag ∧ b.valid = true)) = some b) ∨ ¬ Holds row tag := by
  cases h : row.find? (fun b => decide (b.tag = tag ∧ b.valid = true)) with
  | none => right; exact (find_none_iff row tag).1 h
  | some b => left; exact ⟨b, rfl⟩

theorem find_some_of_holds (row : List cacheBlock) (tag : Nat) (h : Holds row tag) :
    ∃ b, row.find? (fun b => decide (b.tag = tag ∧ b.valid = true)) = some b := by
  rcases find_cases row tag with h1 | h1
  · exact h1
  · exact absurd h h1

theorem lookup_hit (A tag : Nat) (row : List cacheBlock) (b : cacheBlock) (hl : row.length = A)
    (h : row.find? (fun b => decide (b.tag = tag ∧ b.valid = true)) = some b) :
    lookupLoop A tag row A 0 = some (some (row.map (touchWay b.LRU_val))) := by
  have := lookupLoop_eq tag row row [] rfl
  rw [hl, h] at this
  simpa using this

theorem lookup_miss (A tag : Nat) (row : List cacheBlock) (hl : row.length = A)
    (h : ¬ Holds row tag) : lookupLoop A tag row A 0 = some none := by
  have := lookupLoop_eq tag row row [] rfl
  rw [hl, (find_none_iff row tag).2 h] at this
  simpa using this

theorem alloc_loop (A tag a : Nat) (row : List cacheBlock) (hl : row.length = A) :
    ∃ al1, forLoop (allocBody tag) A 0 (row, false, a)
      = some (allocList tag false row, al1, allocAvail false row a) := by
  obtain ⟨al1, h⟩ := allocLoop_eq tag row [] false a
  exact ⟨al1, by simpa [hl] using h⟩

theorem replace_loop (A tag : Nat) (row : List cacheBlock) (hl : row.length = A) :
    forLoop (replaceBody A tag) A 0 row = some (row.map (replaceWay A tag)) := by
  have := replaceLoop_eq A tag row
  rwa [hl] at this

theorem allocList_length (tag : Nat) (row : List cacheBlock) (al : Bool) :
    (allocList tag al row).length = row.length := by
  induction row generalizing al with
  | nil => rfl
  | cons b rest ih =>
    unfold allocList
    split_ifs <;> simp [ih]

/-! ## `l2cache_access` on a well-shaped state -/

theorem l2_row_exists (cfg : Config) (s : State) (hs : Shape cfg s) (h0 : cfg.l2cacheSets ≠ 0)
    (addr : Nat) :
    ∃ row a, s.l2cache[l2Index s addr]? = some row ∧
      s.l2cache_set_avail[l2Index s addr]? = some a ∧ row.length = cfg.l2cacheAssoc := by
  have hi : l2Index s addr < cfg.l2cacheSets := by
    unfold l2Index; rw [hs.l2_mask]; exact and_mask_lt _ _ h0
  have h1 : l2Index s addr < s.l2cache.length := by rw [hs.l2_len]; exact hi
  have h2 : l2Index s addr < s.l2cache_set_avail.length := by rw [hs.l2_av]; exact hi
  exact ⟨_, _, List.getElem?_eq_getElem h1, List.getElem?_eq_getElem h2,
    hs.l2_row _ (List.getElem_mem h1)⟩

theorem l2cache_access_disabled (cfg : Config) (s : State) (addr : Nat)
    (h0 : cfg.l2cacheSets = 0) : l2cache_access cfg s addr = some (cfg.memspeed, s) := by
  unfold l2cache_access
  simp [h0]

theorem l2cache_access_hit (cfg : Config) (s : State) (addr : Nat) (row : List cacheBlock)
    (b : cacheBlock) (h0 : cfg.l2cacheSets ≠ 0)
    (hrow : s.l2cache[l2Index s addr]? = some row) (hl : row.length = cfg.l2cacheAssoc)
    (hf : row.find? (fun b => decide (b.tag = l2Tag s addr ∧ b.valid = true)) = some b) :
    l2cache_access cfg s addr = some (cfg.l2cacheHitTime,
      { s with l2cacheRefs := (s.l2cacheRefs + 1) % 2 ^ 64,
               l2cache := s.l2cache.set (l2Index s addr) (row.map (touchWay b.LRU_val)) }) := by
  unfold l2cache_access
  unfold l2Index at hrow
  have hlook := lookup_hit cfg.l2cacheAssoc (l2Tag s addr) row b hl hf
  unfold l2Tag at hlook
  rw [if_neg (fun h => h0 h.symm)]
  simp only [hrow, hlook]
  rfl

theorem l2cache_access_alloc (cfg : Config) (s : State) (addr a : Nat) (row : List cacheBlock)
    (h0 : cfg.l2cacheSets ≠ 0)
    (hrow : s.l2cache[l2Index s addr]? = some row) (hl : row.length = cfg.l2cacheAssoc)
    (hav : s.l2cache_set_avail[l2Index s addr]? = some a)
    (hf : ¬ Holds row (l2Tag s addr)) (ha : a > 0) :
    l2cache_access cfg s addr = some ((cfg.l2cacheHitTime + cfg.memspeed) % 2 ^ 32,
      { s with l2cacheRefs := (s.l2cacheRefs + 1) % 2 ^ 64,
               l2cacheMisses := (s.l2cacheMisses + 1) % 2 ^ 64,
               l2cachePenalties := (s.l2cachePenalties + cfg.memspeed) % 2 ^ 64,
               l2cache := s.l2cache.set (l2Index s addr) (allocList (l2Tag s addr) false row),
               l2cache_set_avail :=
                 s.l2cache_set_avail.set (l2Index s addr) (allocAvail false row a) }) := by
  unfold l2cache_access
  unfold l2Index at hrow hav
  have hlook := lookup_miss cfg.l2cacheAssoc (l2Tag s addr) row hl hf
  obtain ⟨al1, hloop⟩ := alloc_loop cfg.l2cacheAssoc (l2Tag s addr) a row hl
  unfold l2Tag at hlook hloop
  rw [if_neg (fun h => h0 h.symm)]
  simp only [hrow, hlook, hav, if_pos ha, hloop]
  rfl

/-! ## The replacement loop of `l2cache_access` -/

theorem set_self_of_getElem? {α : Type} (cs : List α) (i : Nat) (r : α) (h : cs[i]? = some r) :
    cs.set i r = cs := by
  apply List.ext_getElem?
  intro m
  rw [List.getElem?_set]
  by_cases hm : i = m
  · subst hm
    have hi : i < cs.length := by
      by_contra hc
      rw [List.getElem?_eq_none (Nat.le_of_not_lt hc)] at h
      cases h
    simp [hi, h]
  · simp [hm]

theorem eraseL1_with_l2cache (s sE : State) (Z : List (List cacheBlock))
    (h : sE.eraseL1 = s.eraseL1) :
    ({ sE with l2cache := Z }).eraseL1 = ({ s with l2cache := Z }).eraseL1 := by
  show ({ sE.eraseL1 with l2cache := Z } : State) = { s.eraseL1 with l2cache := Z }
  rw [h]

/-- What two states with the same image under `eraseL1` share. -/
theorem eraseL1_fields (s1 s : State) (h : s1.eraseL1 = s.eraseL1) :
    s1.l2cache = s.l2cache ∧ s1.l2cache_set_avail = s.l2cache_set_avail ∧
    s1.blockOffset_bits = s.blockOffset_bits ∧
    s1.i_setIndex_bits = s.i_setIndex_bits ∧ s1.d_setIndex_bits = s.d_setIndex_bits ∧
    s1.l2_setIndex_bits = s.l2_setIndex_bits ∧
    s1.i_setIndex_mask = s.i_setIndex_mask ∧ s1.d_setIndex_mask = s.d_setIndex_mask ∧
    s1.l2_setIndex_mask = s.l2_setIndex_mask :=
  ⟨(congrArg State.l2cache h : s1.eraseL1.l2cache = s.eraseL1.l2cache),
   (congrArg State.l2cache_set_avail h : s1.eraseL1.l2cache_set_avail = s.eraseL1.l2cache_set_avail),
   (congrArg State.blockOffset_bits h : s1.eraseL1.blockOffset_bits = s.eraseL1.blockOffset_bits),
   (congrArg State.i_setIndex_bits h : s1.eraseL1.i_setIndex_bits = s.eraseL1.i_setIndex_bits),
   (congrArg State.d_setIndex_bits h : s1.eraseL1.d_setIndex_bits = s.eraseL1.d_setIndex_bits),
   (congrArg State.l2_setIndex_bits h : s1.eraseL1.l2_setIndex_bits = s.eraseL1.l2_setIndex_bits),
   (congrArg State.i_setIndex_mask h : s1.eraseL1.i_setIndex_mask = s.eraseL1.i_setIndex_mask),
   (congrArg State.d_setIndex_mask h : s1.eraseL1.d_setIndex_mask = s.eraseL1.d_setIndex_mask),
   (congrArg State.l2_setIndex_mask h : s1.eraseL1.l2_setIndex_mask = s.eraseL1.l2_setIndex_mask)⟩

/-- The statistics counters of two states with the same image under `eraseL1`. -/
theorem eraseL1_counters (s1 s : State) (h : s1.eraseL1 = s.eraseL1) :
    s1.icacheRefs = s.icacheRefs ∧ s1.icacheMisses = s.icacheMisses ∧
    s1.icachePenalties = s.icachePenalties ∧
    s1.dcacheRefs = s.dcacheRefs ∧ s1.dcacheMisses = s.dcacheMisses ∧
    s1.dcachePenalties = s.dcachePenalties ∧
    s1.l2cacheRefs = s.l2cacheRefs ∧ s1.l2cacheMisses = s.l2cacheMisses ∧
    s1.l2cachePenalties = s.l2cachePenalties :=
  ⟨(congrArg State.icacheRefs h : s1.eraseL1.icacheRefs = s.eraseL1.icacheRefs),
   (congrArg State.icacheMisses h : s1.eraseL1.icacheMisses = s.eraseL1.icacheMisses),
   (congrArg State.icachePenalties h : s1.eraseL1.icachePenalties = s.eraseL1.icachePenalties),
   (congrArg State.dcacheRefs h : s1.eraseL1.dcacheRefs = s.eraseL1.dcacheRefs),
   (congrArg State.dcacheMisses h : s1.eraseL1.dcacheMisses = s.eraseL1.dcacheMisses),
   (congrArg State.dcachePenalties h : s1.eraseL1.dcachePenalties = s.eraseL1.dcachePenalties),
   (congrArg State.l2cacheRefs h : s1.eraseL1.l2cacheRefs = s.eraseL1.l2cacheRefs),
   (congrArg State.l2cacheMisses h : s1.eraseL1.l2cacheMisses = s.eraseL1.l2cacheMisses),
   (congrArg State.l2cachePenalties h : s1.eraseL1.l2cachePenalties = s.eraseL1.l2cachePenalties)⟩

theorem notInL1_mono (s1 s2 : State) (blk : Nat) (hsub : L1Sub s2 s1)
    (hm1 : s2.i_setIndex_mask = s1.i_setIndex_mask) (hb1 : s2.i_setIndex_bits = s1.i_setIndex_bits)
    (hm2 : s2.d_setIndex_mask = s1.d_setIndex_mask) (hb2 : s2.d_setIndex_bits = s1.d_setIndex_bits)
    (h : NotInL1 s1 blk) : NotInL1 s2 blk := by
  constructor
  · intro r hr hh
    rw [hm1] at hr
    rw [hb1] at hh
    obtain ⟨r0, hr0, hv⟩ := hsub.1 _ r hr
    exact h.1 r0 hr0 (hv _ hh)
  · intro r hr hh
    rw [hm2] at hr
    rw [hb2] at hh
    obtain ⟨r0, hr0, hv⟩ := hsub.2 _ r hr
    exact h.2 r0 hr0 (hv _ hh)

theorem shape_with_l2row (cfg : Config) (s : State) (idx : Nat) (row : List cacheBlock)
    (hs : Shape cfg s) (hl : row.length = cfg.l2cacheAssoc) :
    Shape cfg { s with l2cache := s.l2cache.set idx row } :=
  ⟨hs.bo_bits, hs.i_len, hs.i_row, hs.i_av, hs.i_mask, hs.i_bits,
    hs.d_len, hs.d_row, hs.d_av, hs.d_mask, hs.d_bits,
    (by simpa using hs.l2_len), rows_set _ _ _ _ hs.l2_row hl, hs.l2_av, hs.l2_mask, hs.l2_bits⟩

/-- The shape does not depend on the statistics counters. -/
theorem shape_counters (cfg : Config) (s : State) (hs : Shape cfg s)
    (c1 c2 c3 c4 c5 c6 c7 c8 c9 : Nat) :
    Shape cfg { s with icacheRefs := c1, icacheMisses := c2, icachePenalties := c3,
                       dcacheRefs := c4, dcacheMisses := c5, dcachePenalties := c6,
                       l2cacheRefs := c7, l2cacheMisses := c8, l2cachePenalties := c9 } :=
  ⟨hs.bo_bits, hs.i_len, hs.i_row, hs.i_av, hs.i_mask, hs.i_bits,
    hs.d_len, hs.d_row, hs.d_av, hs.d_mask, hs.d_bits,
    hs.l2_len, hs.l2_row, hs.l2_av, hs.l2_mask, hs.l2_bits⟩

theorem l2replaceLoop_spec (cfg : Config) (tag idx : Nat) :
    ∀ (post pre : List cacheBlock) (s : State), Shape cfg s →
      s.l2cache[idx]? = some (pre ++ post) →
      ∃ s1, forLoop (l2replaceBody cfg tag idx) post.length pre.length s = some s1 ∧
        Shape cfg s1 ∧
        s1.eraseL1 = (State.eraseL1 { s with
          l2cache := s.l2cache.set idx (pre ++ post.map (replaceWay cfg.l2cacheAssoc tag)) }) ∧
        L1Sub s1 s ∧
        (TRUE = cfg.inclusive → ∀ b ∈ post,
          b.LRU_val = (cfg.l2cacheAssoc + 2 ^ 32 - 1) % 2 ^ 32 →
          NotInL1 s1 (evictOrigin s b.tag idx)) := by
  intro post
  induction post with
  | nil =>
    intro pre s hs hrow
    refine ⟨s, rfl, hs, ?_, l1Sub_refl s, ?_⟩
    · have : s.l2cache.set idx (pre ++ List.map (replaceWay cfg.l2cacheAssoc tag) []) = s.l2cache := by
        simp only [List.map_nil, List.append_nil] at hrow ⊢
        exact set_self_of_getElem? _ _ _ hrow
      rw [this]
    · intro _ b hb; cases hb
  | cons b rest ih =>
    intro pre s hs hrow
    have hidx : idx < s.l2cache.length := by
      by_contra hc
      rw [List.getElem?_eq_none (Nat.le_of_not_lt hc)] at hrow
      cases hrow
    have hlen : (pre ++ b :: rest).length = cfg.l2cacheAssoc :=
      hs.l2_row _ (List.getElem?_mem hrow)
    have hget : (pre ++ b :: rest)[pre.length]? = some b := getElem?_append_cons pre rest b
    by_cases hlru : (cfg.l2cacheAssoc + 2 ^ 32 - 1) % 2 ^ 32 = b.LRU_val
    · -- the way is replaced; `evict_L1` runs first when the hierarchy is inclusive
      have hE : ∃ sE, (if TRUE = cfg.inclusive then evict_L1 cfg s b.tag idx else some s) = some sE ∧
          Shape cfg sE ∧ sE.eraseL1 = s.eraseL1 ∧ L1Sub sE s ∧
          (TRUE = cfg.inclusive → NotInL1 sE (evictOrigin s b.tag idx)) := by
        by_cases hinc : TRUE = cfg.inclusive
        · rw [if_pos hinc]
          obtain ⟨sE, h1, h2, h3, h4, h5⟩ := evict_L1_spec cfg s b.tag idx hs
          exact ⟨sE, h1, h2, h3, h4, fun _ => h5⟩
        · rw [if_neg hinc]
          exact ⟨s, rfl, hs, rfl, l1Sub_refl s, fun h => absurd h hinc⟩
      obtain ⟨sE, hev, hsE, hfE, hsubE, hnotE⟩ := hE
      have hl2E : sE.l2cache = s.l2cache := (eraseL1_fields sE s hfE).1
      have hrowE : sE.l2cache[idx]? = some (pre ++ b :: rest) := by rw [hl2E]; exact hrow
      have hbody : l2replaceBody cfg tag idx pre.length s
          = some { sE with l2cache := sE.l2cache.set idx (pre ++ newWay tag :: rest) } := by
        unfold l2replaceBody
        simp only [hrow, hget, hlru, ne_eq, not_true_eq_false, if_false, hev, hrowE,
          set_append_cons]
        rfl
      have hs' : Shape cfg { sE with l2cache := sE.l2cache.set idx (pre ++ newWay tag :: rest) } :=
        shape_with_l2row cfg sE idx _ hsE (by simpa using hlen)
      obtain ⟨s1, h1, hs1, hf1, hsub1, hnot1⟩ := ih (pre ++ [newWay tag])
        { sE with l2cache := sE.l2cache.set idx (pre ++ newWay tag :: rest) } hs'
        (by
          show (sE.l2cache.set idx (pre ++ newWay tag :: rest))[idx]? = _
          rw [List.getElem?_set_self (by rw [hl2E]; exact hidx)]
          simp)
      refine ⟨s1, ?_, hs1, ?_, ?_, ?_⟩
      · rw [List.length_cons, forLoop_succ _ _ _ _ _ hbody]
        simpa using h1
      · rw [hf1]
        simp only [List.set_set, List.append_assoc, List.singleton_append, List.map_cons]
        have : replaceWay cfg.l2cacheAssoc tag b = newWay tag := by
          unfold replaceWay; rw [if_neg (by simpa using hlru)]
        rw [this, hl2E]
        exact eraseL1_with_l2cache s sE _ hfE
      · exact l1Sub_trans hsub1 hsubE
      · intro hinc b1 hb1 hb1lru
        obtain ⟨_, _, _, e2, e4, _, e1, e3, _⟩ := eraseL1_fields s1 _ hf1
        obtain ⟨_, _, _, _, _, e5, _, _, _⟩ := eraseL1_fields sE s hfE
        rcases List.mem_cons.1 hb1 with hb | hb
        · subst hb
          exact notInL1_mono sE s1 _ hsub1 e1 e2 e3 e4 (hnotE hinc)
        · have := hnot1 hinc b1 hb hb1lru
          simpa [evictOrigin, e5] using this
    · -- the way only ages
      have hbody : l2replaceBody cfg tag idx pre.length s
          = some { s with l2cache := s.l2cache.set idx (pre ++ ageWay b :: rest) } := by
        unfold l2replaceBody
        simp only [hrow, hget, ne_eq, hlru, not_false_eq_true, if_true, set_append_cons]
        rfl
      have hs' : Shape cfg { s with l2cache := s.l2cache.set idx (pre ++ ageWay b :: rest) } :=
        shape_with_l2row cfg s idx _ hs (by simpa using hlen)
      obtain ⟨s1, h1, hs1, hf1, hsub1, hnot1⟩ := ih (pre ++ [ageWay b])
        { s with l2cache := s.l2cache.set idx (pre ++ ageWay b :: rest) } hs'
        (by
          show (s.l2cache.set idx (pre ++ ageWay b :: rest))[idx]? = _
          rw [List.getElem?_set_self hidx]
          simp)
      refine ⟨s1, ?_, hs1, ?_, hsub1, ?_⟩
      · rw [List.length_cons, forLoop_succ _ _ _ _ _ hbody]
        simpa using h1
      · rw [hf1]
        simp only [List.set_set, List.append_assoc, List.singleton_append, List.map_cons]
        have : replaceWay cfg.l2cacheAssoc tag b = ageWay b := by
          unfold replaceWay; rw [if_pos (by simpa using hlru)]
        rw [this]
      · intro hinc b1 hb1 hb1lru
        rcases List.mem_cons.1 hb1 with hb | hb
        · subst hb
          exact absurd hb1lru.symm hlru
        · exact hnot1 hinc b1 hb hb1lru

theorem l2cache_access_replace (cfg : Config) (s : State) (addr : Nat) (row : List cacheBlock)
    (hs : Shape cfg s) (h0 : cfg.l2cacheSets ≠ 0)
    (hrow : s.l2cache[l2Index s addr]? = some row)
    (hav : s.l2cache_set_avail[l2Index s addr]? = some 0)
    (hf : ¬ Holds row (l2Tag s addr)) :
    ∃ s1, l2cache_access cfg s addr = some ((cfg.l2cacheHitTime + cfg.memspeed) % 2 ^ 32, s1) ∧
      Shape cfg s1 ∧
      s1.eraseL1 = ({ s with
        l2cacheRefs := (s.l2cacheRefs + 1) % 2 ^ 64,
        l2cacheMisses := (s.l2cacheMisses + 1) % 2 ^ 64,
        l2cachePenalties := (s.l2cachePenalties + cfg.memspeed) % 2 ^ 64,
        l2cache := s.l2cache.set (l2Index s addr)
          (row.map (replaceWay cfg.l2cacheAssoc (l2Tag s addr))) }).eraseL1 ∧
      L1Sub s1 s ∧
      (TRUE = cfg.inclusive → ∀ b ∈ row,
        b.LRU_val = (cfg.l2cacheAssoc + 2 ^ 32 - 1) % 2 ^ 32 →
        NotInL1 s1 (evictOrigin s b.tag (l2Index s addr))) := by
  have hidx : l2Index s addr < s.l2cache.length := by
    by_contra hc
    rw [List.getElem?_eq_none (Nat.le_of_not_lt hc)] at hrow
    cases hrow
  have hl : row.length = cfg.l2cacheAssoc := hs.l2_row _ (List.getElem?_mem hrow)
  have hlook := lookup_miss cfg.l2cacheAssoc (l2Tag s addr) row hl hf
  have hs3 : Shape cfg { s with
      l2cacheRefs := (s.l2cacheRefs + 1) % 2 ^ 64,
      l2cacheMisses := (s.l2cacheMisses + 1) % 2 ^ 64,
      l2cachePenalties := (s.l2cachePenalties + cfg.memspeed) % 2 ^ 64 } :=
    shape_counters cfg s hs _ _ _ _ _ _ _ _ _
  obtain ⟨s1, h1, hs1, hf1, hsub1, hnot1⟩ := l2replaceLoop_spec cfg (l2Tag s addr)
    (l2Index s addr) row [] _ hs3 (by rw [List.nil_append]; exact hrow)
  refine ⟨s1, ?_, hs1, ?_, hsub1, hnot1⟩
  · unfold l2cache_access
    unfold l2Index at hrow hav h1
    unfold l2Tag at hlook h1
    rw [hl] at h1
    rw [if_neg (fun h => h0 h.symm)]
    simp only [hrow, hlook, hav, gt_iff_lt, Nat.lt_irrefl, if_false]
    simp only [List.length_nil] at h1
    rw [h1]
  · rw [hf1]
    rfl

/-! ## A set and its LRU list -/

theorem erase_eq_eraseIdx_of_nodup (l : List Nat) (r t : Nat) (hn : l.Nodup)
    (h : l[r]? = some t) : l.erase t = l.eraseIdx r := by
  induction l generalizing r with
  | nil => simp at h
  | cons x xs ih =>
    cases r with
    | zero =>
      simp only [List.getElem?_cons_zero, Option.some.injEq] at h
      subst h
      simp
    | succ r =>
      simp only [List.getElem?_cons_succ] at h
      have hx : x ≠ t := by
        intro e
        subst e
        exact (List.nodup_cons.1 hn).1 (List.getElem?_mem h)
      rw [List.erase_cons_tail (by simpa using hx), List.eraseIdx_cons_succ,
        ih r (List.nodup_cons.1 hn).2 h]

/-- Moving the tag at position `r` to the front renumbers the positions the way
the hit loop renumbers `LRU_val`. -/
theorem lru_move_front (l : List Nat) (r t : Nat) (hn : l.Nodup) (h : l[r]? = some t)
    (hlen : l.length ≤ 2 ^ 32) (i t1 : Nat) :
    (t :: l.erase t)[i]? = some t1 ↔
      ∃ i0, l[i0]? = some t1 ∧
        (if i0 < r then (i0 + 1) % 2 ^ 32 else if r = i0 then 0 else i0) = i := by
  rw [erase_eq_eraseIdx_of_nodup l r t hn h]
  have hr : r < l.length := by
    by_contra hc
    rw [List.getElem?_eq_none (Nat.le_of_not_lt hc)] at h
    cases h
  constructor
  · intro hi
    cases i with
    | zero =>
      simp only [List.getElem?_cons_zero, Option.some.injEq] at hi
      subst hi
      exact ⟨r, h, by simp⟩
    | succ j =>
      simp only [List.getElem?_cons_succ, List.getElem?_eraseIdx] at hi
      by_cases hj : j < r
      · rw [if_pos hj] at hi
        refine ⟨j, hi, ?_⟩
        rw [if_pos hj]
        have : j + 1 < 2 ^ 32 := by omega
        exact Nat.mod_eq_of_lt this
      · rw [if_neg hj] at hi
        refine ⟨j + 1, hi, ?_⟩
        rw [if_neg (by omega), if_neg (by omega)]
  · rintro ⟨i0, hi0, hg⟩
    have hi0lt : i0 < l.length := by
      by_contra hc
      rw [List.getElem?_eq_none (Nat.le_of_not_lt hc)] at hi0
      cases hi0
    by_cases h1 : i0 < r
    · rw [if_pos h1] at hg
      have : (i0 + 1) % 2 ^ 32 = i0 + 1 := Nat.mod_eq_of_lt (by omega)
      rw [this] at hg
      subst hg
      simp only [List.getElem?_cons_succ, List.getElem?_eraseIdx, if_pos h1]
      exact hi0
    · rw [if_neg h1] at hg
      by_cases h2 : r = i0
      · rw [if_pos h2] at hg
        subst hg
        subst h2
        rw [h] at hi0
        simpa using hi0
      · rw [if_neg h2] at hg
        subst hg
        obtain ⟨j, rfl⟩ : ∃ j, i0 = j + 1 := ⟨i0 - 1, by omega⟩
        simp only [List.getElem?_cons_succ, List.getElem?_eraseIdx]
        rw [if_neg (by omega)]
        exact hi0

theorem setRel_holds_iff (A a : Nat) (row : List cacheBlock) (l : List Nat)
    (h : SetRel A row a l) (t : Nat) : Holds row t ↔ t ∈ l := by
  obtain ⟨_, _, _, _, hc⟩ := h
  constructor
  · rintro ⟨b, hb, hv, ht⟩
    exact List.getElem?_mem ((hc b.LRU_val t).1 ⟨b, hb, hv, rfl, ht⟩)
  · intro hm
    obtain ⟨i, hi⟩ := List.getElem?_of_mem hm
    obtain ⟨b, hb, hv, _, ht⟩ := (hc i t).2 hi
    exact ⟨b, hb, hv, ht⟩

theorem setRel_rank_lt (A a : Nat) (row : List cacheBlock) (l : List Nat)
    (h : SetRel A row a l) (b : cacheBlock) (hb : b ∈ row) (hv : b.valid = true) :
    b.LRU_val < l.length := by
  obtain ⟨_, _, _, _, hc⟩ := h
  have := (hc b.LRU_val b.tag).1 ⟨b, hb, hv, rfl, rfl⟩
  by_contra hlt
  rw [List.getElem?_eq_none (Nat.le_of_not_lt hlt)] at this
  cases this

theorem touchWay_valid (old : Nat) (b : cacheBlock) : (touchWay old b).valid = b.valid := by
  unfold touchWay; split_ifs <;> rfl

theorem touchWay_tag (old : Nat) (b : cacheBlock) : (touchWay old b).tag = b.tag := by
  unfold touchWay; split_ifs <;> rfl

theorem touchWay_rank (old : Nat) (b : cacheBlock) :
    (touchWay old b).LRU_val
      = if b.LRU_val < old then (b.LRU_val + 1) % 2 ^ 32 else if old = b.LRU_val then 0
        else b.LRU_val := by
  unfold touchWay; split_ifs <;> rfl

/-- A hit keeps the relation, with the tag moved to the front of the list. -/
theorem setRel_hit (A a : Nat) (row : List cacheBlock) (l : List Nat) (b : cacheBlock)
    (hA : A < 2 ^ 32) (h : SetRel A row a l) (hb : b ∈ row) (hv : b.valid = true) :
    SetRel A (row.map (touchWay b.LRU_val)) a (b.tag :: l.erase b.tag) := by
  have hmem : b.tag ∈ l := (setRel_holds_iff A a row l h b.tag).1 ⟨b, hb, hv, rfl⟩
  obtain ⟨hl, ha, hla, hn, hc⟩ := h
  have hr : l[b.LRU_val]? = some b.tag := (hc _ _).1 ⟨b, hb, hv, rfl, rfl⟩
  refine ⟨by simpa using hl, ?_, ?_, ?_, ?_⟩
  · rw [ha, List.countP_map]
    congr 1
    funext x
    simp [touchWay_valid]
  · rw [List.length_cons, List.length_erase_of_mem hmem]
    have : 0 < l.length := List.length_pos_of_mem hmem
    omega
  · exact List.nodup_cons.2 ⟨hn.not_mem_erase, hn.erase _⟩
  · intro i t
    rw [lru_move_front l b.LRU_val b.tag hn hr (by omega) i t]
    constructor
    · rintro ⟨b1, hb1, hv1, hr1, ht1⟩
      obtain ⟨b0, hb0, rfl⟩ := List.mem_map.1 hb1
      rw [touchWay_valid] at hv1
      rw [touchWay_tag] at ht1
      rw [touchWay_rank] at hr1
      exact ⟨b0.LRU_val, (hc _ _).1 ⟨b0, hb0, hv1, rfl, ht1⟩, hr1⟩
    · rintro ⟨i0, hi0, hg⟩
      obtain ⟨b0, hb0, hv0, hr0, ht0⟩ := (hc _ _).2 hi0
      refine ⟨touchWay b.LRU_val b0, List.mem_map_of_mem _ hb0, ?_, ?_, ?_⟩
      · rw [touchWay_valid]; exact hv0
      · rw [touchWay_rank, hr0]; exact hg
      · rw [touchWay_tag]; exact ht0

/-! ## Allocation and replacement on a set and its LRU list -/

theorem ageWay_valid (b : cacheBlock) : (ageWay b).valid = b.valid := rfl
theorem ageWay_tag (b : cacheBlock) : (ageWay b).tag = b.tag := rfl
theorem ageWay_rank (b : cacheBlock) : (ageWay b).LRU_val = (b.LRU_val + 1) % 2 ^ 32 := rfl

/-- The valid ways after the allocation loop: the new way, if an invalid way was
found, and the aged copies of the ways that were valid. -/
theorem allocList_valid_mem (tag : Nat) (row : List cacheBlock) (al : Bool) (b1 : cacheBlock) :
    (b1 ∈ allocList tag al row ∧ b1.valid = true) ↔
      ((al = false ∧ (∃ b ∈ row, b.valid = false) ∧ b1 = newWay tag) ∨
        (∃ b ∈ row, b.valid = true ∧ b1 = ageWay b)) := by
  induction row generalizing al with
  | nil => simp [allocList]
  | cons b rest ih =>
    unfold allocList
    by_cases hc : b.valid = false ∧ al = false
    · rw [if_pos hc]
      obtain ⟨hbv, hal⟩ := hc
      constructor
      · rintro ⟨hm, hv⟩
        rcases List.mem_cons.1 hm with h | h
        · left; exact ⟨hal, ⟨b, List.mem_cons_self _ _, hbv⟩, h⟩
        · rcases (ih true).1 ⟨h, hv⟩ with h1 | ⟨b0, hb0, hv0, e0⟩
          · exact absurd h1.1 (by simp)
          · right; exact ⟨b0, List.mem_cons_of_mem _ hb0, hv0, e0⟩
      · rintro (⟨_, _, e⟩ | ⟨b0, hb0, hv0, e0⟩)
        · subst e; exact ⟨List.mem_cons_self _ _, rfl⟩
        · rcases List.mem_cons.1 hb0 with h | h
          · subst h; rw [hbv] at hv0; cases hv0
          · have := (ih true).2 (Or.inr ⟨b0, h, hv0, e0⟩)
            exact ⟨List.mem_cons_of_mem _ this.1, this.2⟩
    · rw [if_neg hc]
      constructor
      · rintro ⟨hm, hv⟩
        rcases List.mem_cons.1 hm with h | h
        · right
          refine ⟨b, List.mem_cons_self _ _, ?_, h⟩
          rw [h, ageWay_valid] at hv; exact hv
        · rcases (ih al).1 ⟨h, hv⟩ with ⟨h1, ⟨b0, hb0, hv0⟩, e⟩ | ⟨b0, hb0, hv0, e0⟩
          · left; exact ⟨h1, ⟨b0, List.mem_cons_of_mem _ hb0, hv0⟩, e⟩
          · right; exact ⟨b0, List.mem_cons_of_mem _ hb0, hv0, e0⟩
      · rintro (⟨hal, ⟨b0, hb0, hv0⟩, e⟩ | ⟨b0, hb0, hv0, e0⟩)
        · rcases List.mem_cons.1 hb0 with h | h
          · subst h; exact absurd ⟨hv0, hal⟩ hc
          · have := (ih al).2 (Or.inl ⟨hal, ⟨b0, h, hv0⟩, e⟩)
            exact ⟨List.mem_cons_of_mem _ this.1, this.2⟩
        · rcases List.mem_cons.1 hb0 with h | h
          · subst h; subst e0
            exact ⟨List.mem_cons_self _ _, hv0⟩
          · have := (ih al).2 (Or.inr ⟨b0, h, hv0, e0⟩)
            exact ⟨List.mem_cons_of_mem _ this.1, this.2⟩

/-- The number of invalid ways after the allocation loop. -/
theorem allocList_countP (tag : Nat) (row : List cacheBlock) (al : Bool) :
    (allocList tag al row).countP (fun b => !b.valid)
      = if al = false ∧ ∃ b ∈ row, b.valid = false
        then row.countP (fun b => !b.valid) - 1 else row.countP (fun b => !b.valid) := by
  induction row generalizing al with
  | nil => simp [allocList]
  | cons b rest ih =>
    unfold allocList
    by_cases hc : b.valid = false ∧ al = false
    · rw [if_pos hc]
      obtain ⟨hbv, hal⟩ := hc
      have h1 : (al = false ∧ ∃ b1 ∈ b :: rest, b1.valid = false) :=
        ⟨hal, b, List.mem_cons_self _ _, hbv⟩
      rw [if_pos h1, List.countP_cons, List.countP_cons, ih true]
      simp [newWay, hbv]
    · rw [if_neg hc, List.countP_cons, List.countP_cons, ih al]
      by_cases hal : al = false
      · have hbv : b.valid = true := by
          cases hv : b.valid
          · exact absurd ⟨hv, hal⟩ hc
          · rfl
        have hiff : (∃ b1 ∈ b :: rest, b1.valid = false) ↔ (∃ b1 ∈ rest, b1.valid = false) := by
          constructor
          · rintro ⟨b1, hb1, hv1⟩
            rcases List.mem_cons.1 hb1 with h | h
            · subst h; rw [hbv] at hv1; cases hv1
            · exact ⟨b1, h, hv1⟩
          · rintro ⟨b1, hb1, hv1⟩
            exact ⟨b1, List.mem_cons_of_mem _ hb1, hv1⟩
        simp only [hal, true_and, hiff, ageWay_valid, hbv]
        split_ifs <;> simp_all
      · simp [hal, ageWay_valid]

theorem countP_pos_invalid (row : List cacheBlock) (h : 0 < row.countP (fun b => !b.valid)) :
    ∃ b ∈ row, b.valid = false := by
  obtain ⟨b, hb, hv⟩ := List.countP_pos_iff.1 h
  exact ⟨b, hb, by simpa using hv⟩

theorem countP_zero_valid (row : List cacheBlock) (h : row.countP (fun b => !b.valid) = 0)
    (b : cacheBlock) (hb : b ∈ row) : b.valid = true := by
  have := List.countP_eq_zero.1 h b hb
  simpa using this

/-- A miss in a set that is not full keeps the relation, with the tag added in
front of the list. -/
theorem setRel_alloc (A a t : Nat) (row : List cacheBlock) (l : List Nat) (hA : A < 2 ^ 32)
    (h : SetRel A row a l) (hmiss : ¬ Holds row t) (ha : 0 < a) :
    SetRel A (allocList t false row) (allocAvail false row a) (t :: l) := by
  have hnm : t ∉ l := fun hm => hmiss ((setRel_holds_iff A a row l h t).2 hm)
  have hrank := setRel_rank_lt A a row l h
  obtain ⟨hl, hac, hla, hn, hc⟩ := h
  have hinv : ∃ b ∈ row, b.valid = false := countP_pos_invalid row (by omega)
  have hav : allocAvail false row a = a - 1 := by
    unfold allocAvail
    rw [if_pos ⟨rfl, hinv⟩]
    omega
  refine ⟨by rw [allocList_length]; exact hl, ?_, ?_, List.nodup_cons.2 ⟨hnm, hn⟩, ?_⟩
  · rw [hav, allocList_countP, if_pos ⟨rfl, hinv⟩, hac]
  · rw [hav, List.length_cons]; omega
  · intro i t1
    constructor
    · rintro ⟨b1, hb1, hv1, hr1, ht1⟩
      rcases (allocList_valid_mem t row false b1).1 ⟨hb1, hv1⟩ with ⟨_, _, e⟩ | ⟨b0, hb0, hv0, e⟩
      · subst e
        simp only [newWay] at hr1 ht1
        subst hr1; subst ht1
        simp
      · subst e
        rw [ageWay_rank] at hr1
        rw [ageWay_tag] at ht1
        have hlt := hrank b0 hb0 hv0
        have : (b0.LRU_val + 1) % 2 ^ 32 = b0.LRU_val + 1 := Nat.mod_eq_of_lt (by omega)
        rw [this] at hr1
        subst hr1
        simp only [List.getElem?_cons_succ]
        exact (hc _ _).1 ⟨b0, hb0, hv0, rfl, ht1⟩
    · intro hi
      cases i with
      | zero =>
        simp only [List.getElem?_cons_zero, Option.some.injEq] at hi
        subst hi
        have := (allocList_valid_mem t row false (newWay t)).2 (Or.inl ⟨rfl, hinv, rfl⟩)
        exact ⟨newWay t, this.1, this.2, rfl, rfl⟩
      | succ j =>
        simp only [List.getElem?_cons_succ] at hi
        obtain ⟨b0, hb0, hv0, hr0, ht0⟩ := (hc _ _).2 hi
        have := (allocList_valid_mem t row false (ageWay b0)).2 (Or.inr ⟨b0, hb0, hv0, rfl⟩)
        refine ⟨ageWay b0, this.1, this.2, ?_, ht0⟩
        rw [ageWay_rank, hr0]
        have hlt := hrank b0 hb0 hv0
        exact Nat.mod_eq_of_lt (by omega)

theorem replaceWay_old (A t : Nat) (b : cacheBlock)
    (h : (A + 2 ^ 32 - 1) % 2 ^ 32 = b.LRU_val) : replaceWay A t b = newWay t := by
  unfold replaceWay; rw [if_neg (by simpa using h)]

theorem replaceWay_young (A t : Nat) (b : cacheBlock)
    (h : (A + 2 ^ 32 - 1) % 2 ^ 32 ≠ b.LRU_val) : replaceWay A t b = ageWay b := by
  unfold replaceWay; rw [if_pos h]

theorem getElem?_dropLast (l : List Nat) (j : Nat) :
    l.dropLast[j]? = if j < l.length - 1 then l[j]? else none := by
  rw [List.dropLast_eq_take, List.getElem?_take]

/-- A miss in a full set keeps the relation, with the tag added in front of the
list and the last tag of the list dropped. -/
theorem setRel_replace (A t : Nat) (row : List cacheBlock) (l : List Nat) (hA1 : 1 ≤ A)
    (hA : A < 2 ^ 32) (h : SetRel A row 0 l) (hmiss : ¬ Holds row t) :
    SetRel A (row.map (replaceWay A t)) 0 (t :: l.dropLast) := by
  have hnm : t ∉ l := fun hm => hmiss ((setRel_holds_iff A 0 row l h t).2 hm)
  have hrank := setRel_rank_lt A 0 row l h
  obtain ⟨hl, hac, hla, hn, hc⟩ := h
  have hvalid := countP_zero_valid row hac.symm
  have hlast : (A + 2 ^ 32 - 1) % 2 ^ 32 = A - 1 := by omega
  have hlen : l.length = A := by omega
  refine ⟨by simpa using hl, ?_, ?_, ?_, ?_⟩
  · symm
    rw [List.countP_eq_zero]
    intro b1 hb1
    obtain ⟨b0, hb0, rfl⟩ := List.mem_map.1 hb1
    unfold replaceWay
    split_ifs
    · simp [ageWay_valid, hvalid b0 hb0]
    · simp [newWay]
  · simp only [List.length_cons, List.length_dropLast]; omega
  · exact List.nodup_cons.2
      ⟨fun hm => hnm (List.dropLast_subset l hm), hn.sublist (List.dropLast_sublist l)⟩
  · intro i t1
    constructor
    · rintro ⟨b1, hb1, hv1, hr1, ht1⟩
      obtain ⟨b0, hb0, rfl⟩ := List.mem_map.1 hb1
      by_cases hlru : (A + 2 ^ 32 - 1) % 2 ^ 32 = b0.LRU_val
      · rw [replaceWay_old A t b0 hlru] at hr1 ht1
        simp only [newWay] at hr1 ht1
        subst hr1; subst ht1
        simp
      · rw [replaceWay_young A t b0 hlru] at hr1 ht1
        rw [ageWay_rank] at hr1
        rw [ageWay_tag] at ht1
        have hlt := hrank b0 hb0 (hvalid b0 hb0)
        have : (b0.LRU_val + 1) % 2 ^ 32 = b0.LRU_val + 1 := Nat.mod_eq_of_lt (by omega)
        rw [this] at hr1
        subst hr1
        simp only [List.getElem?_cons_succ, getElem?_dropLast]
        rw [if_pos (by omega)]
        exact (hc _ _).1 ⟨b0, hb0, hvalid b0 hb0, rfl, ht1⟩
    · intro hi
      cases i with
      | zero =>
        simp only [List.getElem?_cons_zero, Option.some.injEq] at hi
        subst hi
        have hA1lt : A - 1 < l.length := by omega
        obtain ⟨b0, hb0, hv0, hr0, _⟩ := (hc (A - 1) l[A - 1]).2 (List.getElem?_eq_getElem hA1lt)
        refine ⟨replaceWay A t b0, List.mem_map_of_mem _ hb0, ?_, ?_, ?_⟩
        all_goals rw [replaceWay_old A t b0 (by rw [hlast, hr0])]
        all_goals rfl
      | succ j =>
        simp only [List.getElem?_cons_succ, getElem?_dropLast] at hi
        by_cases hj : j < l.length - 1
        · rw [if_pos hj] at hi
          obtain ⟨b0, hb0, hv0, hr0, ht0⟩ := (hc _ _).2 hi
          refine ⟨replaceWay A t b0, List.mem_map_of_mem _ hb0, ?_, ?_, ?_⟩
          all_goals rw [replaceWay_young A t b0 (by rw [hlast, hr0]; omega)]
          · rw [ageWay_valid]; exact hv0
          · rw [ageWay_rank, hr0]; exact Nat.mod_eq_of_lt (by omega)
          · rw [ageWay_tag]; exact ht0
        · rw [if_neg hj] at hi; cases hi

/-! ## The three cases of `l2cache_access` -/

/-- On a well-shaped state with L2 enabled, `l2cache_access` returns, and does one
of three things: a hit, an allocation in a set with a free way, or a replacement
in a full set. -/
theorem l2cache_access_cases (cfg : Config) (s : State) (addr : Nat) (hs : Shape cfg s)
    (h0 : cfg.l2cacheSets ≠ 0) :
    ∃ row a r s1, s.l2cache[l2Index s addr]? = some row ∧
      s.l2cache_set_avail[l2Index s addr]? = some a ∧
      l2cache_access cfg s addr = some (r, s1) ∧ Shape cfg s1 ∧ L1Sub s1 s ∧
      ((∃ b, b ∈ row ∧ b.valid = true ∧ b.tag = l2Tag s addr ∧ r = cfg.l2cacheHitTime ∧
          s1 = { s with l2cacheRefs := (s.l2cacheRefs + 1) % 2 ^ 64,
                        l2cache := s.l2cache.set (l2Index s addr)
                          (row.map (touchWay b.LRU_val)) }) ∨
       (¬ Holds row (l2Tag s addr) ∧ 0 < a ∧
          r = (cfg.l2cacheHitTime + cfg.memspeed) % 2 ^ 32 ∧
          s1 = { s with l2cacheRefs := (s.l2cacheRefs + 1) % 2 ^ 64,
                        l2cacheMisses := (s.l2cacheMisses + 1) % 2 ^ 64,
                        l2cachePenalties := (s.l2cachePenalties + cfg.memspeed) % 2 ^ 64,
                        l2cache := s.l2cache.set (l2Index s addr)
                          (allocList (l2Tag s addr) false row),
                        l2cache_set_avail := s.l2cache_set_avail.set (l2Index s addr)
                          (allocAvail false row a) }) ∨
       (¬ Holds row (l2Tag s addr) ∧ a = 0 ∧
          r = (cfg.l2cacheHitTime + cfg.memspeed) % 2 ^ 32 ∧
          s1.eraseL1 = State.eraseL1 { s with
            l2cacheRefs := (s.l2cacheRefs + 1) % 2 ^ 64,
            l2cacheMisses := (s.l2cacheMisses + 1) % 2 ^ 64,
            l2cachePenalties := (s.l2cachePenalties + cfg.memspeed) % 2 ^ 64,
            l2cache := s.l2cache.set (l2Index s addr)
              (row.map (replaceWay cfg.l2cacheAssoc (l2Tag s addr))) } ∧
          (TRUE = cfg.inclusive → ∀ b ∈ row,
            b.LRU_val = (cfg.l2cacheAssoc + 2 ^ 32 - 1) % 2 ^ 32 →
            NotInL1 s1 (evictOrigin s b.tag (l2Index s addr))))) := by
  obtain ⟨row, a, hrow, hav, hl⟩ := l2_row_exists cfg s hs h0 addr
  rcases find_cases row (l2Tag s addr) with ⟨b, hf⟩ | hmiss
  · obtain ⟨hb, hv, ht⟩ := find_some_holds row _ b hf
    refine ⟨row, a, _, _, hrow, hav, l2cache_access_hit cfg s addr row b h0 hrow hl hf, ?_,
      l1Sub_refl s, Or.inl ⟨b, hb, hv, ht, rfl, rfl⟩⟩
    exact ⟨hs.bo_bits, hs.i_len, hs.i_row, hs.i_av, hs.i_mask, hs.i_bits,
      hs.d_len, hs.d_row, hs.d_av, hs.d_mask, hs.d_bits,
      (by simpa using hs.l2_len), rows_set _ _ _ _ hs.l2_row (by simpa using hl),
      hs.l2_av, hs.l2_mask, hs.l2_bits⟩
  · by_cases ha : 0 < a
    · refine ⟨row, a, _, _, hrow, hav,
        l2cache_access_alloc cfg s addr a row h0 hrow hl hav hmiss ha, ?_,
        l1Sub_refl s, Or.inr (Or.inl ⟨hmiss, ha, rfl, rfl⟩)⟩
      exact ⟨hs.bo_bits, hs.i_len, hs.i_row, hs.i_av, hs.i_mask, hs.i_bits,
        hs.d_len, hs.d_row, hs.d_av, hs.d_mask, hs.d_bits,
        (by simpa using hs.l2_len),
        rows_set _ _ _ _ hs.l2_row (by rw [allocList_length]; exact hl),
        (by simpa using hs.l2_av), hs.l2_mask, hs.l2_bits⟩
    · have ha0 : a = 0 := by omega
      subst ha0
      obtain ⟨s1, h1, hs1, hf1, hsub1, hnot1⟩ :=
        l2cache_access_replace cfg s addr row hs h0 hrow hav hmiss
      exact ⟨row, 0, _, s1, hrow, hav, h1, hs1, hsub1,
        Or.inr (Or.inr ⟨hmiss, rfl, rfl, hf1, hnot1⟩)⟩

/-- The function `l2cache_access` cannot fault on a well-shaped state and keeps the shape. -/
theorem l2cache_access_total (cfg : Config) (s : State) (addr : Nat) (hs : Shape cfg s) :
    ∃ r s1, l2cache_access cfg s addr = some (r, s1) ∧ Shape cfg s1 ∧ L1Sub s1 s := by
  by_cases h0 : cfg.l2cacheSets = 0
  · exact ⟨_, _, l2cache_access_disabled cfg s addr h0, hs, l1Sub_refl s⟩
  · obtain ⟨_, _, r, s1, _, _, h, hs1, hsub, _⟩ := l2cache_access_cases cfg s addr hs h0
    exact ⟨r, s1, h, hs1, hsub⟩

/-! ## Address bits -/

theorem shiftRight_shiftRight (a b k : Nat) : (a >>> b) >>> k = a >>> (k + b) := by
  rw [Nat.add_comm, Nat.shiftRight_add]

/-- Splitting a number into the bits above position `k` and the low `k` bits and
putting them together again with `^^^` gives the number back. -/
theorem split_xor (x k : Nat) : ((x >>> k) <<< k) ^^^ (x &&& (2 ^ k - 1)) = x := by
  apply Nat.eq_of_testBit_eq
  intro i
  rw [Nat.testBit_xor, Nat.testBit_shiftLeft, Nat.testBit_and, Nat.testBit_two_pow_sub_one,
    Nat.testBit_shiftRight]
  by_cases h : i < k
  · have h1 : ¬ i ≥ k := by omega
    simp [h, h1]
  · have h1 : i ≥ k := by omega
    have h2 : k + (i - k) = i := by omega
    simp [h, h1, h2]

theorem split_or (x k : Nat) : ((x >>> k) <<< k) ||| (x &&& (2 ^ k - 1)) = x := by
  apply Nat.eq_of_testBit_eq
  intro i
  rw [Nat.testBit_or, Nat.testBit_shiftLeft, Nat.testBit_and, Nat.testBit_two_pow_sub_one,
    Nat.testBit_shiftRight]
  by_cases h : i < k
  · have h1 : ¬ i ≥ k := by omega
    simp [h, h1]
  · have h1 : i ≥ k := by omega
    have h2 : k + (i - k) = i := by omega
    simp [h, h1, h2]

theorem join_low (t i k : Nat) (hi : i < 2 ^ k) : ((t <<< k) ||| i) &&& (2 ^ k - 1) = i := by
  apply Nat.eq_of_testBit_eq
  intro j
  rw [Nat.testBit_and, Nat.testBit_or, Nat.testBit_shiftLeft, Nat.testBit_two_pow_sub_one]
  by_cases h : j < k
  · have h1 : ¬ j ≥ k := by omega
    simp [h, h1]
  · have h1 : j ≥ k := by omega
    have h3 : i.testBit j = false :=
      Nat.testBit_lt_two_pow (Nat.lt_of_lt_of_le hi (Nat.pow_le_pow_right (by omega) h1))
    simp [h, h3]

theorem join_high (t i k : Nat) (hi : i < 2 ^ k) : ((t <<< k) ||| i) >>> k = t := by
  apply Nat.eq_of_testBit_eq
  intro j
  rw [Nat.testBit_shiftRight, Nat.testBit_or, Nat.testBit_shiftLeft]
  have h3 : i.testBit (k + j) = false :=
    Nat.testBit_lt_two_pow (Nat.lt_of_lt_of_le hi (Nat.pow_le_pow_right (by omega) (by omega)))
  simp [h3]

theorem shift_back_le (x k : Nat) : (x >>> k) <<< k ≤ x := by
  rw [Nat.shiftLeft_eq, Nat.shiftRight_eq_div_pow]
  exact Nat.div_mul_le_self x (2 ^ k)

theorem shiftRight_le_self (x k : Nat) : x >>> k ≤ x := by
  rw [Nat.shiftRight_eq_div_pow]
  exact Nat.div_le_self x (2 ^ k)

/-- The tag of a 32-bit address, shifted back over the set-index bits, is a 32-bit
value: the shift in `evict_L1` loses nothing. -/
theorem tag_shift_lt (a l b : Nat) (ha : a < 2 ^ 32) : (a >>> (l + b)) <<< l < 2 ^ 32 := by
  rw [← shiftRight_shiftRight]
  exact Nat.lt_of_le_of_lt (Nat.le_trans (shift_back_le _ _) (shiftRight_le_self _ _)) ha

/-- The block address bits rebuilt by `evict_L1` from an L2 tag and set index. -/
theorem origin_eq (blk T S k : Nat) (hS : blk &&& (2 ^ k - 1) = S) (hT : blk >>> k = T)
    (hlt : T <<< k < 2 ^ 32) : ((T <<< k) % 2 ^ 32) ^^^ S = blk := by
  rw [Nat.mod_eq_of_lt hlt, ← hS, ← hT]
  exact split_xor blk k

/-! ## `l2cache_access` and the per-set LRU lists -/

/-- What two states with the same image under `eraseL2` share. -/
theorem eraseL2_fields (s1 s : State) (h : s1.eraseL2 = s.eraseL2) :
    s1.blockOffset_bits = s.blockOffset_bits ∧
    s1.i_setIndex_bits = s.i_setIndex_bits ∧ s1.d_setIndex_bits = s.d_setIndex_bits ∧
    s1.l2_setIndex_bits = s.l2_setIndex_bits ∧
    s1.i_setIndex_mask = s.i_setIndex_mask ∧ s1.d_setIndex_mask = s.d_setIndex_mask ∧
    s1.l2_setIndex_mask = s.l2_setIndex_mask :=
  ⟨(congrArg State.blockOffset_bits h : s1.eraseL2.blockOffset_bits = s.eraseL2.blockOffset_bits),
   (congrArg State.i_setIndex_bits h : s1.eraseL2.i_setIndex_bits = s.eraseL2.i_setIndex_bits),
   (congrArg State.d_setIndex_bits h : s1.eraseL2.d_setIndex_bits = s.eraseL2.d_setIndex_bits),
   (congrArg State.l2_setIndex_bits h : s1.eraseL2.l2_setIndex_bits = s.eraseL2.l2_setIndex_bits),
   (congrArg State.i_setIndex_mask h : s1.eraseL2.i_setIndex_mask = s.eraseL2.i_setIndex_mask),
   (congrArg State.d_setIndex_mask h : s1.eraseL2.d_setIndex_mask = s.eraseL2.d_setIndex_mask),
   (congrArg State.l2_setIndex_mask h : s1.eraseL2.l2_setIndex_mask = s.eraseL2.l2_setIndex_mask)⟩

/-- The L1 statistics of two states with the same image under `eraseL2`. -/
theorem eraseL2_counters (s1 s : State) (h : s1.eraseL2 = s.eraseL2) :
    s1.icacheRefs = s.icacheRefs ∧ s1.icacheMisses = s.icacheMisses ∧
    s1.icachePenalties = s.icachePenalties ∧
    s1.dcacheRefs = s.dcacheRefs ∧ s1.dcacheMisses = s.dcacheMisses ∧
    s1.dcachePenalties = s.dcachePenalties :=
  ⟨(congrArg State.icacheRefs h : s1.eraseL2.icacheRefs = s.eraseL2.icacheRefs),
   (congrArg State.icacheMisses h : s1.eraseL2.icacheMisses = s.eraseL2.icacheMisses),
   (congrArg State.icachePenalties h : s1.eraseL2.icachePenalties = s.eraseL2.icachePenalties),
   (congrArg State.dcacheRefs h : s1.eraseL2.dcacheRefs = s.eraseL2.dcacheRefs),
   (congrArg State.dcacheMisses h : s1.eraseL2.dcacheMisses = s.eraseL2.dcacheMisses),
   (congrArg State.dcachePenalties h : s1.eraseL2.dcachePenalties = s.eraseL2.dcachePenalties)⟩

theorem eraseL2_of_eraseL1 (s1 s : State) (h : s1.eraseL1 = s.eraseL1) :
    s1.eraseL2 = s.eraseL2 := by
  show ({ s1.eraseL1 with l2cacheRefs := 0, l2cacheMisses := 0, l2cachePenalties := 0,
                          l2cache := [], l2cache_set_avail := [] } : State) = _
  rw [h]
  rfl

/-- The function `l2cache_access` writes nothing but the L2 arrays and statistics and the L1
arrays and free-way tables. -/
theorem l2cache_access_frame (cfg : Config) (s : State) (addr r : Nat) (s1 : State)
    (hs : Shape cfg s) (h : l2cache_access cfg s addr = some (r, s1)) :
    s1.eraseL2 = s.eraseL2 := by
  by_cases h0 : cfg.l2cacheSets = 0
  · rw [l2cache_access_disabled cfg s addr h0] at h
    cases h; rfl
  · obtain ⟨row, a, r', s1', _, _, h', _, _, hc⟩ := l2cache_access_cases cfg s addr hs h0
    rw [h] at h'
    cases h'
    rcases hc with ⟨b, _, _, _, _, e⟩ | ⟨_, _, _, e⟩ | ⟨_, _, _, e, _⟩
    · rw [e]; rfl
    · rw [e]; rfl
    · exact (eraseL2_of_eraseL1 _ _ e).trans rfl

theorem lruRef_hit (A : Nat) (l : List Nat) (t : Nat) (h : t ∈ l) :
    (lruRefAccess A l t).2 = t :: l.erase t := by
  unfold lruRefAccess; rw [if_pos h]

theorem lruRef_miss (A : Nat) (l : List Nat) (t : Nat) (h : t ∉ l) :
    (lruRefAccess A l t).2 = (t :: l).take A := by
  unfold lruRefAccess; rw [if_neg h]

theorem lruRef_mem (A : Nat) (l : List Nat) (t x : Nat) (h : x ∈ (lruRefAccess A l t).2) :
    x = t ∨ x ∈ l := by
  unfold lruRefAccess at h
  split_ifs at h
  · rcases List.mem_cons.1 h with h1 | h1
    · exact Or.inl h1
    · exact Or.inr (List.mem_of_mem_erase h1)
  · rcases List.mem_cons.1 (List.mem_of_mem_take h) with h1 | h1
    · exact Or.inl h1
    · exact Or.inr h1

/-- One call of `l2cache_access` is one access of the reference LRU list of the
set: it is a hit exactly when the tag is in the list, and afterwards the set
matches the updated list. -/
theorem l2_model_step (cfg : Config) (s : State) (addr : Nat) (m : Nat → List Nat)
    (hs : Shape cfg s) (h0 : cfg.l2cacheSets ≠ 0) (hA1 : 1 ≤ cfg.l2cacheAssoc)
    (hA : cfg.l2cacheAssoc < 2 ^ 32) (ha : addr < 2 ^ 32) (hm : L2Model cfg s m) :
    ∃ r s1, l2cache_access cfg s addr = some (r, s1) ∧ Shape cfg s1 ∧ L1Sub s1 s ∧
      L2Model cfg s1 (Function.update m (l2Index s addr)
        (lruRefAccess cfg.l2cacheAssoc (m (l2Index s addr)) (l2Tag s addr)).2) ∧
      (l2Tag s addr ∈ m (l2Index s addr) →
        r = cfg.l2cacheHitTime ∧ s1.l2cacheMisses = s.l2cacheMisses) ∧
      (l2Tag s addr ∉ m (l2Index s addr) →
        r = (cfg.l2cacheHitTime + cfg.memspeed) % 2 ^ 32 ∧
        s1.l2cacheMisses = (s.l2cacheMisses + 1) % 2 ^ 64) := by
  obtain ⟨row, a, r, s1, hrow, hav, hacc, hs1, hsub, hc⟩ := l2cache_access_cases cfg s addr hs h0
  obtain ⟨hrel, hbound⟩ := hm _ row a hrow hav
  have hholds := setRel_holds_iff _ _ _ _ hrel (l2Tag s addr)
  have hframe := l2cache_access_frame cfg s addr r s1 hs hacc
  obtain ⟨_, _, _, hbits, _, _, _⟩ := eraseL2_fields s1 s hframe
  have hidx : l2Index s addr < s.l2cache.length := by
    by_contra hcon
    rw [List.getElem?_eq_none (Nat.le_of_not_lt hcon)] at hrow
    cases hrow
  have hidx2 : l2Index s addr < s.l2cache_set_avail.length := by
    by_contra hcon
    rw [List.getElem?_eq_none (Nat.le_of_not_lt hcon)] at hav
    cases hav
  -- the new set and free-way count, and the relation they satisfy
  have key : ∃ row1 a1, s1.l2cache = s.l2cache.set (l2Index s addr) row1 ∧
      s1.l2cache_set_avail = s.l2cache_set_avail.set (l2Index s addr) a1 ∧
      SetRel cfg.l2cacheAssoc row1 a1
        (lruRefAccess cfg.l2cacheAssoc (m (l2Index s addr)) (l2Tag s addr)).2 ∧
      (l2Tag s addr ∈ m (l2Index s addr) →
        r = cfg.l2cacheHitTime ∧ s1.l2cacheMisses = s.l2cacheMisses) ∧
      (l2Tag s addr ∉ m (l2Index s addr) →
        r = (cfg.l2cacheHitTime + cfg.memspeed) % 2 ^ 32 ∧
        s1.l2cacheMisses = (s.l2cacheMisses + 1) % 2 ^ 64) := by
    rcases hc with ⟨b, hb, hv, ht, hr, e⟩ | ⟨hmiss, hapos, hr, e⟩ | ⟨hmiss, ha0, hr, e, _⟩
    · have hmem : l2Tag s addr ∈ m (l2Index s addr) := hholds.1 ⟨b, hb, hv, ht⟩
      refine ⟨row.map (touchWay b.LRU_val), a, by rw [e], ?_, ?_, ?_, ?_⟩
      · rw [e]; exact (set_self_of_getElem? _ _ _ hav).symm
      · rw [lruRef_hit _ _ _ hmem, ← ht]
        exact setRel_hit _ _ _ _ b hA hrel hb hv
      · intro _; exact ⟨hr, by rw [e]⟩
      · intro hn; exact absurd hmem hn
    · have hnm : l2Tag s addr ∉ m (l2Index s addr) := fun h => hmiss (hholds.2 h)
      refine ⟨allocList (l2Tag s addr) false row, allocAvail false row a, by rw [e], by rw [e],
        ?_, ?_, ?_⟩
      · rw [lruRef_miss _ _ _ hnm]
        have hlen : (l2Tag s addr :: m (l2Index s addr)).length ≤ cfg.l2cacheAssoc := by
          have := hrel.2.2.1
          simp only [List.length_cons]; omega
        rw [List.take_of_length_le hlen]
        exact setRel_alloc _ _ _ _ _ hA hrel hmiss hapos
      · intro h; exact absurd h hnm
      · intro _; exact ⟨hr, by rw [e]⟩
    · have hnm : l2Tag s addr ∉ m (l2Index s addr) := fun h => hmiss (hholds.2 h)
      subst ha0
      obtain ⟨e1, e2, _⟩ := eraseL1_fields _ _ e
      obtain ⟨_, _, _, _, _, _, _, e3, _⟩ := eraseL1_counters _ _ e
      refine ⟨row.map (replaceWay cfg.l2cacheAssoc (l2Tag s addr)), 0, e1, ?_, ?_, ?_, ?_⟩
      · rw [e2]; exact (set_self_of_getElem? _ _ _ hav).symm
      · rw [lruRef_miss _ _ _ hnm]
        have hlen : (m (l2Index s addr)).length = cfg.l2cacheAssoc := by
          have := hrel.2.2.1
          omega
        have : (l2Tag s addr :: m (l2Index s addr)).take cfg.l2cacheAssoc
            = l2Tag s addr :: (m (l2Index s addr)).dropLast := by
          obtain ⟨n, hn⟩ : ∃ n, cfg.l2cacheAssoc = n + 1 := ⟨cfg.l2cacheAssoc - 1, by omega⟩
          rw [hn, List.take_succ_cons, List.dropLast_eq_take, hlen, hn]
          rfl
        rw [this]
        exact setRel_replace _ _ _ _ hA1 hA hrel hmiss
      · intro h; exact absurd h hnm
      · intro _; exact ⟨hr, e3⟩
  obtain ⟨row1, a1, hc1, hc2, hrel1, hhit, hmissr⟩ := key
  refine ⟨r, s1, hacc, hs1, hsub, ?_, hhit, hmissr⟩
  intro i rowi ai hri hai
  rw [hc1] at hri
  rw [hc2] at hai
  rw [hbits]
  by_cases hi : i = l2Index s addr
  · subst hi
    rw [List.getElem?_set_self hidx] at hri
    rw [List.getElem?_set_self hidx2] at hai
    cases hri; cases hai
    rw [Function.update_same]
    refine ⟨hrel1, ?_⟩
    intro t ht
    rcases lruRef_mem _ _ _ _ ht with h1 | h1
    · rw [h1]
      exact tag_shift_lt addr s.l2_setIndex_bits s.blockOffset_bits ha
    · exact hbound t h1
  · rw [List.getElem?_set_ne (fun e => hi e.symm)] at hri hai
    rw [Function.update_noteq hi]
    exact hm i rowi ai hri hai

/-! ## The cases of `icache_access` and `dcache_access` -/

theorem getElem?_lt {α : Type} (cs : List α) (i : Nat) (r : α) (h : cs[i]? = some r) :
    i < cs.length := by
  by_contra hc
  rw [List.getElem?_eq_none (Nat.le_of_not_lt hc)] at h
  cases h

/-- The set an L1 access fills after a miss: allocation when the free-way count
is positive, replacement otherwise. -/
theorem l1_fill_length (A tag a : Nat) (row : List cacheBlock) (hl : row.length = A) :
    (if 0 < a then allocList tag false row else row.map (replaceWay A tag)).length = A := by
  split_ifs
  · rw [allocList_length]; exact hl
  · simpa using hl

theorem icache_access_disabled (cfg : Config) (s : State) (addr : Nat)
    (h0 : cfg.icacheSets = 0) : icache_access cfg s addr = l2cache_access cfg s addr := by
  unfold icache_access
  rw [if_pos h0.symm]

theorem dcache_access_disabled (cfg : Config) (s : State) (addr : Nat)
    (h0 : cfg.dcacheSets = 0) : dcache_access cfg s addr = l2cache_access cfg s addr := by
  unfold dcache_access
  rw [if_pos h0.symm]

/-- On a well-shaped state with the I-cache enabled, `icache_access` returns: either
a hit, or a miss that calls `l2cache_access` and then fills the set. -/
theorem icache_access_cases (cfg : Config) (s : State) (addr : Nat) (hs : Shape cfg s)
    (h0 : cfg.icacheSets ≠ 0) :
    ∃ row, s.icache[iIndex s addr]? = some row ∧
      ((∃ b, b ∈ row ∧ b.valid = true ∧ b.tag = iTag s addr ∧
          icache_access cfg s addr = some (cfg.icacheHitTime,
            { s with icacheRefs := (s.icacheRefs + 1) % 2 ^ 64,
                     icache := s.icache.set (iIndex s addr) (row.map (touchWay b.LRU_val)) })) ∨
       (¬ Holds row (iTag s addr) ∧ ∃ p s3 row2 a,
          l2cache_access cfg { s with icacheRefs := (s.icacheRefs + 1) % 2 ^ 64,
                                      icacheMisses := (s.icacheMisses + 1) % 2 ^ 64 } addr
            = some (p, s3) ∧
          Shape cfg s3 ∧ s3.icache[iIndex s addr]? = some row2 ∧
          s3.icache_set_avail[iIndex s addr]? = some a ∧
          icache_access cfg s addr = some ((cfg.icacheHitTime + p) % 2 ^ 32,
            { s3 with icachePenalties := (s3.icachePenalties + p) % 2 ^ 64,
                      icache := s3.icache.set (iIndex s addr)
                        (if 0 < a then allocList (iTag s addr) false row2
                         else row2.map (replaceWay cfg.icacheAssoc (iTag s addr))),
                      icache_set_avail :=
                        if 0 < a then s3.icache_set_avail.set (iIndex s addr)
                          (allocAvail false row2 a)
                        else s3.icache_set_avail }))) := by
  have hi : iIndex s addr < cfg.icacheSets := by
    unfold iIndex; rw [hs.i_mask]; exact and_mask_lt _ _ h0
  have hi1 : iIndex s addr < s.icache.length := by rw [hs.i_len]; exact hi
  obtain ⟨row, hrow⟩ : ∃ row, s.icache[iIndex s addr]? = some row :=
    ⟨_, List.getElem?_eq_getElem hi1⟩
  have hl : row.length = cfg.icacheAssoc := hs.i_row _ (List.getElem?_mem hrow)
  refine ⟨row, hrow, ?_⟩
  rcases find_cases row (iTag s addr) with ⟨b, hf⟩ | hmiss
  · left
    obtain ⟨hb, hv, ht⟩ := find_some_holds _ _ b hf
    refine ⟨b, hb, hv, ht, ?_⟩
    have hlook := lookup_hit cfg.icacheAssoc (iTag s addr) _ b hl hf
    unfold icache_access
    unfold iIndex at hrow
    unfold iTag at hlook
    rw [if_neg (fun h => h0 h.symm)]
    simp only [hrow, hlook]
    rfl
  · right
    refine ⟨hmiss, ?_⟩
    have hs2 : Shape cfg { s with icacheRefs := (s.icacheRefs + 1) % 2 ^ 64,
                                  icacheMisses := (s.icacheMisses + 1) % 2 ^ 64 } :=
      shape_counters cfg s hs _ _ _ _ _ _ _ _ _
    obtain ⟨p, s3, hacc, hs3, _⟩ := l2cache_access_total cfg _ addr hs2
    have hi3 : iIndex s addr < s3.icache.length := by rw [hs3.i_len]; exact hi
    have hi4 : iIndex s addr < s3.icache_set_avail.length := by rw [hs3.i_av]; exact hi
    obtain ⟨row2, hrow3⟩ : ∃ row2, s3.icache[iIndex s addr]? = some row2 :=
      ⟨_, List.getElem?_eq_getElem hi3⟩
    obtain ⟨a, hav3⟩ : ∃ a, s3.icache_set_avail[iIndex s addr]? = some a :=
      ⟨_, List.getElem?_eq_getElem hi4⟩
    have hl3 : row2.length = cfg.icacheAssoc := hs3.i_row _ (List.getElem?_mem hrow3)
    refine ⟨p, s3, row2, a, hacc, hs3, hrow3, hav3, ?_⟩
    have hlook := lookup_miss cfg.icacheAssoc (iTag s addr) _ hl hmiss
    obtain ⟨al1, hloop⟩ := alloc_loop cfg.icacheAssoc (iTag s addr) a row2 hl3
    have hrep := replace_loop cfg.icacheAssoc (iTag s addr) row2 hl3
    unfold icache_access
    unfold iIndex at hrow hrow3 hav3
    unfold iTag at hlook hloop hrep
    rw [if_neg (fun h => h0 h.symm)]
    simp only [hrow, hlook, hacc, hrow3, hav3]
    by_cases ha : 0 < a
    · simp only [gt_iff_lt, ha, if_true, hloop]
      rfl
    · simp only [gt_iff_lt, ha, if_false, hrep]
      rfl

/-- On a well-shaped state with the D-cache enabled, `dcache_access` returns: either
a hit, or a miss that calls `l2cache_access` and then fills the set. -/
theorem dcache_access_cases (cfg : Config) (s : State) (addr : Nat) (hs : Shape cfg s)
    (h0 : cfg.dcacheSets ≠ 0) :
    ∃ row, s.dcache[dIndex s addr]? = some row ∧
      ((∃ b, b ∈ row ∧ b.valid = true ∧ b.tag = dTag s addr ∧
          dcache_access cfg s addr = some (cfg.dcacheHitTime,
            { s with dcacheRefs := (s.dcacheRefs + 1) % 2 ^ 64,
                     dcache := s.dcache.set (dIndex s addr) (row.map (touchWay b.LRU_val)) })) ∨
       (¬ Holds row (dTag s addr) ∧ ∃ p s3 row2 a,
          l2cache_access cfg { s with dcacheRefs := (s.dcacheRefs + 1) % 2 ^ 64,
                                      dcacheMisses := (s.dcacheMisses + 1) % 2 ^ 64 } addr
            = some (p, s3) ∧
          Shape cfg s3 ∧ s3.dcache[dIndex s addr]? = some row2 ∧
          s3.dcache_set_avail[dIndex s addr]? = some a ∧
          dcache_access cfg s addr = some ((cfg.dcacheHitTime + p) % 2 ^ 32,
            { s3 with dcachePenalties := (s3.dcachePenalties + p) % 2 ^ 64,
                      dcache := s3.dcache.set (dIndex s addr)
                        (if 0 < a then allocList (dTag s addr) false row2
                         else row2.map (replaceWay cfg.dcacheAssoc (dTag s addr))),
                      dcache_set_avail :=
                        if 0 < a then s3.dcache_set_avail.set (dIndex s addr)
                          (allocAvail false row2 a)
                        else s3.dcache_set_avail }))) := by
  have hi : dIndex s addr < cfg.dcacheSets := by
    unfold dIndex; rw [hs.d_mask]; exact and_mask_lt _ _ h0
  have hi1 : dIndex s addr < s.dcache.length := by rw [hs.d_len]; exact hi
  obtain ⟨row, hrow⟩ : ∃ row, s.dcache[dIndex s addr]? = some row :=
    ⟨_, List.getElem?_eq_getElem hi1⟩
  have hl : row.length = cfg.dcacheAssoc := hs.d_row _ (List.getElem?_mem hrow)
  refine ⟨row, hrow, ?_⟩
  rcases find_cases row (dTag s addr) with ⟨b, hf⟩ | hmiss
  · left
    obtain ⟨hb, hv, ht⟩ := find_some_holds _ _ b hf
    refine ⟨b, hb, hv, ht, ?_⟩
    have hlook := lookup_hit cfg.dcacheAssoc (dTag s addr) _ b hl hf
    unfold dcache_access
    unfold dIndex at hrow
    unfold dTag at hlook
    rw [if_neg (fun h => h0 h.symm)]
    simp only [hrow, hlook]
    rfl
  · right
    refine ⟨hmiss, ?_⟩
    have hs2 : Shape cfg { s with dcacheRefs := (s.dcacheRefs + 1) % 2 ^ 64,
                                  dcacheMisses := (s.dcacheMisses + 1) % 2 ^ 64 } :=
      shape_counters cfg s hs _ _ _ _ _ _ _ _ _
    obtain ⟨p, s3, hacc, hs3, _⟩ := l2cache_access_total cfg _ addr hs2
    have hi3 : dIndex s addr < s3.dcache.length := by rw [hs3.d_len]; exact hi
    have hi4 : dIndex s addr < s3.dcache_set_avail.length := by rw [hs3.d_av]; exact hi
    obtain ⟨row2, hrow3⟩ : ∃ row2, s3.dcache[dIndex s addr]? = some row2 :=
      ⟨_, List.getElem?_eq_getElem hi3⟩
    obtain ⟨a, hav3⟩ : ∃ a, s3.dcache_set_avail[dIndex s addr]? = some a :=
      ⟨_, List.getElem?_eq_getElem hi4⟩
    have hl3 : row2.length = cfg.dcacheAssoc := hs3.d_row _ (List.getElem?_mem hrow3)
    refine ⟨p, s3, row2, a, hacc, hs3, hrow3, hav3, ?_⟩
    have hlook := lookup_miss cfg.dcacheAssoc (dTag s addr) _ hl hmiss
    obtain ⟨al1, hloop⟩ := alloc_loop cfg.dcacheAssoc (dTag s addr) a row2 hl3
    have hrep := replace_loop cfg.dcacheAssoc (dTag s addr) row2 hl3
    unfold dcache_access
    unfold dIndex at hrow hrow3 hav3
    unfold dTag at hlook hloop hrep
    rw [if_neg (fun h => h0 h.symm)]
    simp only [hrow, hlook, hacc, hrow3, hav3]
    by_cases ha : 0 < a
    · simp only [gt_iff_lt, ha, if_true, hloop]
      rfl
    · simp only [gt_iff_lt, ha, if_false, hrep]
      rfl

/-! ## No access can fault -/

theorem icache_access_total (cfg : Config) (s : State) (addr : Nat) (hs : Shape cfg s) :
    ∃ r s1, icache_access cfg s addr = some (r, s1) ∧ Shape cfg s1 := by
  by_cases h0 : cfg.icacheSets = 0
  · rw [icache_access_disabled cfg s addr h0]
    obtain ⟨r, s1, h, hs1, _⟩ := l2cache_access_total cfg s addr hs
    exact ⟨r, s1, h, hs1⟩
  · obtain ⟨row, hrow, hc⟩ := icache_access_cases cfg s addr hs h0
    have hl : row.length = cfg.icacheAssoc := hs.i_row _ (List.getElem?_mem hrow)
    rcases hc with ⟨b, _, _, _, h⟩ | ⟨_, p, s3, row2, a, _, hs3, hrow3, _, h⟩
    · refine ⟨_, _, h, ?_⟩
      exact ⟨hs.bo_bits, (by simpa using hs.i_len),
        rows_set _ _ _ _ hs.i_row (by simpa using hl), hs.i_av, hs.i_mask, hs.i_bits,
        hs.d_len, hs.d_row, hs.d_av, hs.d_mask, hs.d_bits,
        hs.l2_len, hs.l2_row, hs.l2_av, hs.l2_mask, hs.l2_bits⟩
    · refine ⟨_, _, h, ?_⟩
      have hl3 : row2.length = cfg.icacheAssoc := hs3.i_row _ (List.getElem?_mem hrow3)
      exact ⟨hs3.bo_bits, (by simpa using hs3.i_len),
        rows_set _ _ _ _ hs3.i_row (l1_fill_length _ _ _ _ hl3),
        (by
          show (if 0 < a then _ else _ : List Nat).length = _
          split_ifs
          · simpa using hs3.i_av
          · exact hs3.i_av),
        hs3.i_mask, hs3.i_bits,
        hs3.d_len, hs3.d_row, hs3.d_av, hs3.d_mask, hs3.d_bits,
        hs3.l2_len, hs3.l2_row, hs3.l2_av, hs3.l2_mask, hs3.l2_bits⟩

theorem dcache_access_total (cfg : Config) (s : State) (addr : Nat) (hs : Shape cfg s) :
    ∃ r s1, dcache_access cfg s addr = some (r, s1) ∧ Shape cfg s1 := by
  by_cases h0 : cfg.dcacheSets = 0
  · rw [dcache_access_disabled cfg s addr h0]
    obtain ⟨r, s1, h, hs1, _⟩ := l2cache_access_total cfg s addr hs
    exact ⟨r, s1, h, hs1⟩
  · obtain ⟨row, hrow, hc⟩ := dcache_access_cases cfg s addr hs h0
    have hl : row.length = cfg.dcacheAssoc := hs.d_row _ (List.getElem?_mem hrow)
    rcases hc with ⟨b, _, _, _, h⟩ | ⟨_, p, s3, row2, a, _, hs3, hrow3, _, h⟩
    · refine ⟨_, _, h, ?_⟩
      exact ⟨hs.bo_bits, hs.i_len, hs.i_row, hs.i_av, hs.i_mask, hs.i_bits,
        (by simpa using hs.d_len),
        rows_set _ _ _ _ hs.d_row (by simpa using hl), hs.d_av, hs.d_mask, hs.d_bits,
        hs.l2_len, hs.l2_row, hs.l2_av, hs.l2_mask, hs.l2_bits⟩
    · refine ⟨_, _, h, ?_⟩
      have hl3 : row2.length = cfg.dcacheAssoc := hs3.d_row _ (List.getElem?_mem hrow3)
      exact ⟨hs3.bo_bits, hs3.i_len, hs3.i_row, hs3.i_av, hs3.i_mask, hs3.i_bits,
        (by simpa using hs3.d_len),
        rows_set _ _ _ _ hs3.d_row (l1_fill_length _ _ _ _ hl3),
        (by
          show (if 0 < a then _ else _ : List Nat).length = _
          split_ifs
          · simpa using hs3.d_av
          · exact hs3.d_av),
        hs3.d_mask, hs3.d_bits,
        hs3.l2_len, hs3.l2_row, hs3.l2_av, hs3.l2_mask, hs3.l2_bits⟩

theorem step_total (cfg : Config) (s : State) (c : Access) (hs : Shape cfg s) :
    ∃ r s1, step cfg s c = some (r, s1) ∧ Shape cfg s1 := by
  cases c with
  | instr a => exact icache_access_total cfg s a hs
  | data a => exact dcache_access_total cfg s a hs

theorem step_shape (cfg : Config) (s s1 : State) (c : Access) (r : Nat) (hs : Shape cfg s)
    (h : step cfg s c = some (r, s1)) : Shape cfg s1 := by
  obtain ⟨r', s1', h', hs1⟩ := step_total cfg s c hs
  rw [h] at h'
  cases h'
  exact hs1

/-- Every reachable state is well shaped. -/
theorem reachable_shape (cfg : Config) (hb : cfg.Bits32) (s : State) (hr : Reachable cfg s) :
    Shape cfg s := by
  induction hr with
  | init s h => exact init_shape cfg s hb h
  | step s s1 c r _ _ hstep ih => exact step_shape cfg s s1 c r ih hstep

/-- Any sequence of calls runs to completion on a well-shaped state. -/
theorem run_total (cfg : Config) (calls : List Access) :
    ∀ s, Shape cfg s → ∃ rs s1, run cfg s calls = some (rs, s1) ∧ Shape cfg s1 := by
  induction calls with
  | nil => intro s hs; exact ⟨[], s, rfl, hs⟩
  | cons c cs ih =>
    intro s hs
    obtain ⟨r, s1, h1, hs1⟩ := step_total cfg s c hs
    obtain ⟨rs, s2, h2, hs2⟩ := ih s1 hs1
    exact ⟨r :: rs, s2, by simp [run, h1, h2], hs2⟩

/-! ## What a set holds after each loop -/

theorem holds_touch (old : Nat) (row : List cacheBlock) (t : Nat) :
    Holds (row.map (touchWay old)) t ↔ Holds row t := by
  constructor
  · rintro ⟨b1, hb1, hv, ht⟩
    obtain ⟨b, hb, rfl⟩ := List.mem_map.1 hb1
    rw [touchWay_valid] at hv
    rw [touchWay_tag] at ht
    exact ⟨b, hb, hv, ht⟩
  · rintro ⟨b, hb, hv, ht⟩
    exact ⟨touchWay old b, List.mem_map_of_mem _ hb, by rw [touchWay_valid]; exact hv,
      by rw [touchWay_tag]; exact ht⟩

theorem holds_alloc_sub (tag : Nat) (al : Bool) (row : List cacheBlock) (x : Nat)
    (h : Holds (allocList tag al row) x) : x = tag ∨ Holds row x := by
  obtain ⟨b1, hb1, hv, ht⟩ := h
  rcases (allocList_valid_mem tag row al b1).1 ⟨hb1, hv⟩ with ⟨_, _, e⟩ | ⟨b, hb, hbv, e⟩
  · left; rw [← ht, e]; rfl
  · right; exact ⟨b, hb, hbv, by rw [← ht, e]; rfl⟩

theorem holds_alloc_mono (tag : Nat) (al : Bool) (row : List cacheBlock) (x : Nat)
    (h : Holds row x) : Holds (allocList tag al row) x := by
  obtain ⟨b, hb, hv, ht⟩ := h
  have := (allocList_valid_mem tag row al (ageWay b)).2 (Or.inr ⟨b, hb, hv, rfl⟩)
  exact ⟨ageWay b, this.1, this.2, ht⟩

theorem holds_replace_sub (A tag : Nat) (row : List cacheBlock) (x : Nat)
    (h : Holds (row.map (replaceWay A tag)) x) : x = tag ∨ Holds row x := by
  obtain ⟨b1, hb1, hv, ht⟩ := h
  obtain ⟨b, hb, rfl⟩ := List.mem_map.1 hb1
  by_cases hl : (A + 2 ^ 32 - 1) % 2 ^ 32 = b.LRU_val
  · rw [replaceWay_old A tag b hl] at ht
    left; exact ht.symm
  · rw [replaceWay_young A tag b hl] at hv ht
    right; exact ⟨b, hb, hv, ht⟩

theorem holds_fill_sub (A tag a : Nat) (row : List cacheBlock) (x : Nat)
    (h : Holds (if 0 < a then allocList tag false row else row.map (replaceWay A tag)) x) :
    x = tag ∨ Holds row x := by
  split_ifs at h
  · exact holds_alloc_sub tag false row x h
  · exact holds_replace_sub A tag row x h

/-! ## Inclusion -/

theorem level_geom (sets assoc bits mask : Nat) (hv : LevelValid sets assoc) (h0 : sets ≠ 0)
    (hb : INTlog2 sets = some bits) (hm : mask = sets - 1) :
    sets = 2 ^ bits ∧ mask = 2 ^ bits - 1 ∧ 1 ≤ assoc := by
  rcases hv with h | ⟨⟨k, hk, e⟩, ha⟩
  · exact absurd h h0
  · rw [e, INTlog2_pow2 k hk] at hb
    cases hb
    exact ⟨e, by rw [hm, e], ha⟩

theorem inL2_congr (s1 s : State) (blk : Nat) (h1 : s1.l2cache = s.l2cache)
    (h2 : s1.l2_setIndex_mask = s.l2_setIndex_mask)
    (h3 : s1.l2_setIndex_bits = s.l2_setIndex_bits) : InL2 s1 blk ↔ InL2 s blk := by
  unfold InL2
  rw [h1, h2, h3]

theorem levelIncl_iff (s : State) (cache : List (List cacheBlock)) (bits : Nat) :
    LevelIncl s cache bits ↔
      ∀ (i : Nat) (r : List cacheBlock) (t : Nat), cache[i]? = some r → Holds r t →
        InL2 s ((t <<< bits) ||| i) := by
  constructor
  · rintro h i r t hr ⟨b, hb, hv, ht⟩
    rw [← ht]; exact h i r b hr hb hv
  · intro h i r b hr hb hv
    exact h i r b.tag hr ⟨b, hb, hv, rfl⟩

theorem lruRef_mem_self (A : Nat) (l : List Nat) (t : Nat) (hA : 1 ≤ A) :
    t ∈ (lruRefAccess A l t).2 := by
  unfold lruRefAccess
  split_ifs
  · exact List.mem_cons_self _ _
  · obtain ⟨n, rfl⟩ : ∃ n, A = n + 1 := ⟨A - 1, by omega⟩
    simp

/-- With an inclusive L2, a call of `l2cache_access` leaves the accessed block in
L2, and every block that was in L2 is still there or is in neither L1 cache. -/
theorem l2_step_incl (cfg : Config) (s : State) (addr : Nat) (m : Nat → List Nat)
    (hs : Shape cfg s) (h0 : cfg.l2cacheSets ≠ 0) (hb : cfg.Bits32)
    (hv : LevelValid cfg.l2cacheSets cfg.l2cacheAssoc) (hinc : TRUE = cfg.inclusive)
    (ha : addr < 2 ^ 32) (hm : L2Model cfg s m) :
    ∃ r s1 m1, l2cache_access cfg s addr = some (r, s1) ∧ Shape cfg s1 ∧ L1Sub s1 s ∧
      L2Model cfg s1 m1 ∧ s1.eraseL2 = s.eraseL2 ∧
      InL2 s1 (addr >>> s.blockOffset_bits) ∧
      (∀ blk, InL2 s blk → InL2 s1 blk ∨ NotInL1 s1 blk) := by
  obtain ⟨_, _, _, _, _, _, _, hA, _⟩ := hb
  obtain ⟨hsets, hmask, hA1⟩ := level_geom _ _ _ _ hv h0 (hs.l2_bits h0) hs.l2_mask
  obtain ⟨r, s1, hacc, hs1, hsub, hm1, _, _⟩ :=
    l2_model_step cfg s addr m hs h0 hA1 hA ha hm
  have hframe := l2cache_access_frame cfg s addr r s1 hs hacc
  obtain ⟨_, _, _, hbits, _, _, hmask1⟩ := eraseL2_fields s1 s hframe
  refine ⟨r, s1, _, hacc, hs1, hsub, hm1, hframe, ?_, ?_⟩
  · -- the accessed block is in L2
    obtain ⟨row1, a1, hrow1, hav1, _⟩ := l2_row_exists cfg s1 hs1 h0 addr
    have hidx : l2Index s1 addr = l2Index s addr := by
      unfold l2Index
      rw [hmask1, (eraseL2_fields s1 s hframe).1]
    rw [hidx] at hrow1 hav1
    obtain ⟨hrel, _⟩ := hm1 _ row1 a1 hrow1 hav1
    rw [Function.update_same] at hrel
    have hh : Holds row1 (l2Tag s addr) :=
      (setRel_holds_iff _ _ _ _ hrel _).2 (lruRef_mem_self _ _ _ hA1)
    refine ⟨row1, ?_, ?_⟩
    · rw [hmask1]; exact hrow1
    · rw [hbits, shiftRight_shiftRight]; exact hh
  · -- the other blocks
    intro blk hin
    obtain ⟨r0, hr0, hh0⟩ := hin
    obtain ⟨row, a, r', s1', hrow, hav, hacc', _, _, hc⟩ := l2cache_access_cases cfg s addr hs h0
    rw [hacc] at hacc'
    cases hacc'
    have hidx := getElem?_lt _ _ _ hrow
    by_cases hi : blk &&& s.l2_setIndex_mask = l2Index s addr
    · rw [hi, hrow] at hr0
      cases hr0
      have key : ∀ row1, s1.l2cache = s.l2cache.set (l2Index s addr) row1 →
          Holds row1 (blk >>> s.l2_setIndex_bits) → InL2 s1 blk := by
        intro row1 e hh
        refine ⟨row1, ?_, by rw [hbits]; exact hh⟩
        rw [hmask1, hi, e, List.getElem?_set_self hidx]
      rcases hc with ⟨b, _, _, _, _, e⟩ | ⟨_, _, _, e⟩ | ⟨_, ha0, _, e, hnot⟩
      · left
        exact key _ (by rw [e]) ((holds_touch _ _ _).2 hh0)
      · left
        exact key _ (by rw [e]) (holds_alloc_mono _ _ _ _ hh0)
      · obtain ⟨b, hb, hbv, hbt⟩ := hh0
        by_cases hl : (cfg.l2cacheAssoc + 2 ^ 32 - 1) % 2 ^ 32 = b.LRU_val
        · right
          have hn := hnot hinc b hb hl.symm
          have hbound : b.tag <<< s.l2_setIndex_bits < 2 ^ 32 := by
            subst ha0
            obtain ⟨hrel, hbd⟩ := hm _ r0 0 hrow hav
            exact hbd _ ((setRel_holds_iff _ _ _ _ hrel _).1 ⟨b, hb, hbv, rfl⟩)
          have : evictOrigin s b.tag (l2Index s addr) = blk := by
            unfold evictOrigin
            exact origin_eq blk b.tag (l2Index s addr) s.l2_setIndex_bits
              (by rw [← hmask]; exact hi) hbt.symm hbound
          rw [this] at hn
          exact hn
        · left
          refine key _ (eraseL1_fields _ _ e).1 ?_
          exact ⟨replaceWay cfg.l2cacheAssoc (l2Tag s addr) b, List.mem_map_of_mem _ hb,
            by rw [replaceWay_young _ _ _ hl]; exact hbv,
            by rw [replaceWay_young _ _ _ hl]; exact hbt⟩
    · left
      have hne : l2Index s addr ≠ blk &&& s.l2_setIndex_mask := fun e => hi e.symm
      have key : ∀ row1, s1.l2cache = s.l2cache.set (l2Index s addr) row1 → InL2 s1 blk := by
        intro row1 e
        refine ⟨r0, ?_, by rw [hbits]; exact hh0⟩
        rw [hmask1, e, List.getElem?_set_ne hne]
        exact hr0
      rcases hc with ⟨b, _, _, _, _, e⟩ | ⟨_, _, _, e⟩ | ⟨_, _, _, e, _⟩
      · exact key _ (by rw [e])
      · exact key _ (by rw [e])
      · exact key _ (eraseL1_fields _ _ e).1

/-! ## The inclusion invariant along a run -/

theorem levelIncl_nil (s : State) (bits : Nat) : LevelIncl s [] bits := by
  intro i r b hr
  simp at hr

/-- Inclusion of one L1 level survives a call of `l2cache_access` that evicts from
L1 whatever it evicts from L2. -/
theorem levelIncl_after_l2 (s s1 : State) (cache cache1 : List (List cacheBlock))
    (k mask : Nat) (hincl : LevelIncl s cache k)
    (hsub : ∀ (i : Nat) (r1 : List cacheBlock), cache1[i]? = some r1 →
      ∃ r, cache[i]? = some r ∧ ValidSub r1 r)
    (hnot : ∀ blk, InL2 s blk → InL2 s1 blk ∨
      (∀ r, cache1[blk &&& mask]? = some r → ¬ Holds r (blk >>> k)))
    (hmask : mask = 2 ^ k - 1) (hlen : cache1.length = 2 ^ k) : LevelIncl s1 cache1 k := by
  rw [levelIncl_iff] at hincl ⊢
  intro i r1 t hr1 hh
  obtain ⟨r, hr, hv⟩ := hsub i r1 hr1
  have hi : i < 2 ^ k := by rw [← hlen]; exact getElem?_lt _ _ _ hr1
  rcases hnot _ (hincl i r t hr (hv t hh)) with h | h
  · exact h
  · exfalso
    rw [hmask, join_low t i k hi, join_high t i k hi] at h
    exact h r1 hr1 hh

/-- Inclusion of one L1 level survives the filling of a set with the block that was
just brought into L2. -/
theorem levelIncl_fill (s3 s1 : State) (cache : List (List cacheBlock)) (k mask bo addr : Nat)
    (row2 row1 : List cacheBlock) (hincl : LevelIncl s3 cache k)
    (hin : InL2 s3 (addr >>> bo)) (h1 : s1.l2cache = s3.l2cache)
    (h2 : s1.l2_setIndex_mask = s3.l2_setIndex_mask)
    (h3 : s1.l2_setIndex_bits = s3.l2_setIndex_bits) (hmask : mask = 2 ^ k - 1)
    (hrow : cache[(addr >>> bo) &&& mask]? = some row2)
    (hfill : ∀ x, Holds row1 x → x = addr >>> (k + bo) ∨ Holds row2 x) :
    LevelIncl s1 (cache.set ((addr >>> bo) &&& mask) row1) k := by
  rw [levelIncl_iff] at hincl ⊢
  intro i r t hr hh
  rw [inL2_congr s1 s3 _ h1 h2 h3]
  rcases getElem?_set_row _ _ _ _ _ hr with ⟨hi, hrr⟩ | ⟨_, hrr⟩
  · subst hrr
    rcases hfill t hh with e | h
    · rw [e, hi, hmask, ← shiftRight_shiftRight, split_or]
      exact hin
    · rw [hi]; exact hincl _ row2 t hrow h
  · exact hincl i r t hrr hh

theorem levelIncl_touch (s s1 : State) (cache : List (List cacheBlock)) (k idx old : Nat)
    (row : List cacheBlock) (hincl : LevelIncl s cache k) (h1 : s1.l2cache = s.l2cache)
    (h2 : s1.l2_setIndex_mask = s.l2_setIndex_mask)
    (h3 : s1.l2_setIndex_bits = s.l2_setIndex_bits) (hrow : cache[idx]? = some row) :
    LevelIncl s1 (cache.set idx (row.map (touchWay old))) k := by
  rw [levelIncl_iff] at hincl ⊢
  intro i r t hr hh
  rw [inL2_congr s1 s _ h1 h2 h3]
  rcases getElem?_set_row _ _ _ _ _ hr with ⟨hi, hrr⟩ | ⟨_, hrr⟩
  · subst hrr; subst hi
    exact hincl _ row t hrow ((holds_touch _ _ _).1 hh)
  · exact hincl i r t hrr hh

theorem levelIncl_congr (s s1 : State) (cache : List (List cacheBlock)) (k : Nat)
    (hincl : LevelIncl s cache k) (h1 : s1.l2cache = s.l2cache)
    (h2 : s1.l2_setIndex_mask = s.l2_setIndex_mask)
    (h3 : s1.l2_setIndex_bits = s.l2_setIndex_bits) : LevelIncl s1 cache k := by
  intro i r b hr hb hv
  rw [inL2_congr s1 s _ h1 h2 h3]
  exact hincl i r b hr hb hv

theorem l2Model_congr (cfg : Config) (s s1 : State) (m : Nat → List Nat)
    (hm : L2Model cfg s m) (h1 : s1.l2cache = s.l2cache)
    (h2 : s1.l2cache_set_avail = s.l2cache_set_avail)
    (h3 : s1.l2_setIndex_bits = s.l2_setIndex_bits) : L2Model cfg s1 m := by
  intro i row a hr ha
  rw [h1] at hr
  rw [h2] at ha
  rw [h3]
  exact hm i row a hr ha

/-- The invariant of an inclusive hierarchy: well-shaped arrays, L2 sets that are
LRU lists, and inclusion of both L1 levels. -/
theorem incl_l2_step (cfg : Config) (s : State) (addr : Nat) (hb : cfg.Bits32)
    (hv : cfg.Valid) (h0 : cfg.l2cacheSets ≠ 0) (hinc : TRUE = cfg.inclusive)
    (ha : addr < 2 ^ 32) (hs : Shape cfg s) (hm : ∃ m, L2Model cfg s m)
    (hi : LevelIncl s s.icache s.i_setIndex_bits) (hd : LevelIncl s s.dcache s.d_setIndex_bits) :
    ∃ r s1, l2cache_access cfg s addr = some (r, s1) ∧ Shape cfg s1 ∧
      (∃ m, L2Model cfg s1 m) ∧ s1.eraseL2 = s.eraseL2 ∧
      InL2 s1 (addr >>> s.blockOffset_bits) ∧
      LevelIncl s1 s1.icache s1.i_setIndex_bits ∧ LevelIncl s1 s1.dcache s1.d_setIndex_bits := by
  obtain ⟨m, hm⟩ := hm
  obtain ⟨_, _, hvi, hvd, hvl⟩ := hv
  obtain ⟨r, s1, m1, hacc, hs1, hsub, hm1, hframe, hin, hnot⟩ :=
    l2_step_incl cfg s addr m hs h0 hb hvl hinc ha hm
  obtain ⟨_, hib, hdb, _, him, hdm, _⟩ := eraseL2_fields s1 s hframe
  refine ⟨r, s1, hacc, hs1, ⟨m1, hm1⟩, hframe, hin, ?_, ?_⟩
  · by_cases hi0 : cfg.icacheSets = 0
    · have : s1.icache = [] := List.eq_nil_of_length_eq_zero (by rw [hs1.i_len]; exact hi0)
      rw [this]; exact levelIncl_nil _ _
    · obtain ⟨hsets, hmask, _⟩ := level_geom _ _ _ _ hvi hi0 (hs.i_bits hi0) hs.i_mask
      rw [hib]
      refine levelIncl_after_l2 s s1 s.icache s1.icache _ s.i_setIndex_mask hi hsub.1 ?_
        hmask (by rw [hs1.i_len]; exact hsets)
      intro blk hblk
      rcases hnot blk hblk with h | h
      · exact Or.inl h
      · right
        have := h.1
        rw [him, hib] at this
        exact this
  · by_cases hd0 : cfg.dcacheSets = 0
    · have : s1.dcache = [] := List.eq_nil_of_length_eq_zero (by rw [hs1.d_len]; exact hd0)
      rw [this]; exact levelIncl_nil _ _
    · obtain ⟨hsets, hmask, _⟩ := level_geom _ _ _ _ hvd hd0 (hs.d_bits hd0) hs.d_mask
      rw [hdb]
      refine levelIncl_after_l2 s s1 s.dcache s1.dcache _ s.d_setIndex_mask hd hsub.2 ?_
        hmask (by rw [hs1.d_len]; exact hsets)
      intro blk hblk
      rcases hnot blk hblk with h | h
      · exact Or.inl h
      · right
        have := h.2
        rw [hdm, hdb] at this
        exact this

/-! ## Both L1 access functions keep the invariant -/

theorem eraseL2_blockOffset_bits (s1 s : State) (h : s1.eraseL2 = s.eraseL2) :
    s1.blockOffset_bits = s.blockOffset_bits := (eraseL2_fields s1 s h).1
theorem eraseL2_i_setIndex_bits (s1 s : State) (h : s1.eraseL2 = s.eraseL2) :
    s1.i_setIndex_bits = s.i_setIndex_bits := (eraseL2_fields s1 s h).2.1
theorem eraseL2_d_setIndex_bits (s1 s : State) (h : s1.eraseL2 = s.eraseL2) :
    s1.d_setIndex_bits = s.d_setIndex_bits := (eraseL2_fields s1 s h).2.2.1
theorem eraseL2_l2_setIndex_bits (s1 s : State) (h : s1.eraseL2 = s.eraseL2) :
    s1.l2_setIndex_bits = s.l2_setIndex_bits := (eraseL2_fields s1 s h).2.2.2.1
theorem eraseL2_i_setIndex_mask (s1 s : State) (h : s1.eraseL2 = s.eraseL2) :
    s1.i_setIndex_mask = s.i_setIndex_mask := (eraseL2_fields s1 s h).2.2.2.2.1
theorem eraseL2_d_setIndex_mask (s1 s : State) (h : s1.eraseL2 = s.eraseL2) :
    s1.d_setIndex_mask = s.d_setIndex_mask := (eraseL2_fields s1 s h).2.2.2.2.2.1
theorem eraseL2_l2_setIndex_mask (s1 s : State) (h : s1.eraseL2 = s.eraseL2) :
    s1.l2_setIndex_mask = s.l2_setIndex_mask := (eraseL2_fields s1 s h).2.2.2.2.2.2

theorem incl_icache_step (cfg : Config) (s s1 : State) (addr r : Nat) (hb : cfg.Bits32)
    (hv : cfg.Valid) (h0 : cfg.l2cacheSets ≠ 0) (hinc : TRUE = cfg.inclusive)
    (ha : addr < 2 ^ 32) (hs : Shape cfg s) (hm : ∃ m, L2Model cfg s m)
    (hinclI : LevelIncl s s.icache s.i_setIndex_bits)
    (hinclD : LevelIncl s s.dcache s.d_setIndex_bits)
    (hacc : icache_access cfg s addr = some (r, s1)) :
    Shape cfg s1 ∧ (∃ m, L2Model cfg s1 m) ∧
      LevelIncl s1 s1.icache s1.i_setIndex_bits ∧ LevelIncl s1 s1.dcache s1.d_setIndex_bits := by
  have hshape : Shape cfg s1 := by
    obtain ⟨r', s1', h', hs1⟩ := icache_access_total cfg s addr hs
    rw [hacc] at h'; cases h'; exact hs1
  refine ⟨hshape, ?_⟩
  by_cases hE : cfg.icacheSets = 0
  · rw [icache_access_disabled cfg s addr hE] at hacc
    obtain ⟨r', s1', h', _, hm1, _, _, hI1, hD1⟩ :=
      incl_l2_step cfg s addr hb hv h0 hinc ha hs hm hinclI hinclD
    rw [hacc] at h'; cases h'
    exact ⟨hm1, hI1, hD1⟩
  · obtain ⟨row, hrow, hc⟩ := icache_access_cases cfg s addr hs hE
    rcases hc with ⟨b, _, _, _, h⟩ | ⟨_, p, s3, row2, a, hl2, hs3, hrow3, _, h⟩
    · rw [hacc] at h; cases h
      obtain ⟨m, hm⟩ := hm
      exact ⟨⟨m, l2Model_congr cfg s _ m hm rfl rfl rfl⟩,
        levelIncl_touch s _ s.icache _ _ _ row hinclI rfl rfl rfl hrow,
        levelIncl_congr s _ s.dcache _ hinclD rfl rfl rfl⟩
    · rw [hacc] at h; cases h
      have hs2 : Shape cfg { s with icacheRefs := (s.icacheRefs + 1) % 2 ^ 64,
                                    icacheMisses := (s.icacheMisses + 1) % 2 ^ 64 } :=
        shape_counters cfg s hs _ _ _ _ _ _ _ _ _
      obtain ⟨m, hm⟩ := hm
      obtain ⟨p', s3', h', _, ⟨m3, hm3⟩, hframe, hin3, hI3, hD3⟩ :=
        incl_l2_step cfg _ addr hb hv h0 hinc ha hs2
          ⟨m, l2Model_congr cfg s _ m hm rfl rfl rfl⟩
          (levelIncl_congr s _ s.icache _ hinclI rfl rfl rfl)
          (levelIncl_congr s _ s.dcache _ hinclD rfl rfl rfl)
      rw [hl2] at h'; cases h'
      have ebo : s3.blockOffset_bits = s.blockOffset_bits := (eraseL2_blockOffset_bits _ _ hframe :)
      have eb : s3.i_setIndex_bits = s.i_setIndex_bits := (eraseL2_i_setIndex_bits _ _ hframe :)
      have em : s3.i_setIndex_mask = s.i_setIndex_mask := (eraseL2_i_setIndex_mask _ _ hframe :)
      obtain ⟨_, hmask, _⟩ := level_geom _ _ _ _ hv.2.2.1 hE (hs3.i_bits hE) hs3.i_mask
      refine ⟨⟨m3, l2Model_congr cfg s3 _ m3 hm3 rfl rfl rfl⟩, ?_,
        levelIncl_congr s3 _ s3.dcache _ hD3 rfl rfl rfl⟩
      have hfill := levelIncl_fill s3
        { s3 with icachePenalties := (s3.icachePenalties + p) % 2 ^ 64,
                  icache := s3.icache.set (iIndex s addr)
                    (if 0 < a then allocList (iTag s addr) false row2
                     else row2.map (replaceWay cfg.icacheAssoc (iTag s addr))),
                  icache_set_avail :=
                    if 0 < a then s3.icache_set_avail.set (iIndex s addr)
                      (allocAvail false row2 a)
                    else s3.icache_set_avail }
        s3.icache s3.i_setIndex_bits s3.i_setIndex_mask s3.blockOffset_bits addr row2
        (if 0 < a then allocList (iTag s addr) false row2
         else row2.map (replaceWay cfg.icacheAssoc (iTag s addr)))
        hI3 (by rw [ebo]; exact hin3) rfl rfl rfl hmask
        (by rw [ebo, em]; exact hrow3)
        (by
          intro x hx
          rw [eb, ebo]
          exact holds_fill_sub _ _ _ _ _ hx)
      rw [ebo, em] at hfill
      exact hfill

theorem incl_dcache_step (cfg : Config) (s s1 : State) (addr r : Nat) (hb : cfg.Bits32)
    (hv : cfg.Valid) (h0 : cfg.l2cacheSets ≠ 0) (hinc : TRUE = cfg.inclusive)
    (ha : addr < 2 ^ 32) (hs : Shape cfg s) (hm : ∃ m, L2Model cfg s m)
    (hinclI : LevelIncl s s.icache s.i_setIndex_bits)
    (hinclD : LevelIncl s s.dcache s.d_setIndex_bits)
    (hacc : dcache_access cfg s addr = some (r, s1)) :
    Shape cfg s1 ∧ (∃ m, L2Model cfg s1 m) ∧
      LevelIncl s1 s1.icache s1.i_setIndex_bits ∧ LevelIncl s1 s1.dcache s1.d_setIndex_bits := by
  have hshape : Shape cfg s1 := by
    obtain ⟨r', s1', h', hs1⟩ := dcache_access_total cfg s addr hs
    rw [hacc] at h'; cases h'; exact hs1
  refine ⟨hshape, ?_⟩
  by_cases hE : cfg.dcacheSets = 0
  · rw [dcache_access_disabled cfg s addr hE] at hacc
    obtain ⟨r', s1', h', _, hm1, _, _, hI1, hD1⟩ :=
      incl_l2_step cfg s addr hb hv h0 hinc ha hs hm hinclI hinclD
    rw [hacc] at h'; cases h'
    exact ⟨hm1, hI1, hD1⟩
  · obtain ⟨row, hrow, hc⟩ := dcache_access_cases cfg s addr hs hE
    rcases hc with ⟨b, _, _, _, h⟩ | ⟨_, p, s3, row2, a, hl2, hs3, hrow3, _, h⟩
    · rw [hacc] at h; cases h
      obtain ⟨m, hm⟩ := hm
      exact ⟨⟨m, l2Model_congr cfg s _ m hm rfl rfl rfl⟩,
        levelIncl_congr s _ s.icache _ hinclI rfl rfl rfl,
        levelIncl_touch s _ s.dcache _ _ _ row hinclD rfl rfl rfl hrow⟩
    · rw [hacc] at h; cases h
      have hs2 : Shape cfg { s with dcacheRefs := (s.dcacheRefs + 1) % 2 ^ 64,
                                    dcacheMisses := (s.dcacheMisses + 1) % 2 ^ 64 } :=
        shape_counters cfg s hs _ _ _ _ _ _ _ _ _
      obtain ⟨m, hm⟩ := hm
      obtain ⟨p', s3', h', _, ⟨m3, hm3⟩, hframe, hin3, hI3, hD3⟩ :=
        incl_l2_step cfg _ addr hb hv h0 hinc ha hs2
          ⟨m, l2Model_congr cfg s _ m hm rfl rfl rfl⟩
          (levelIncl_congr s _ s.icache _ hinclI rfl rfl rfl)
          (levelIncl_congr s _ s.dcache _ hinclD rfl rfl rfl)
      rw [hl2] at h'; cases h'
      have ebo : s3.blockOffset_bits = s.blockOffset_bits := (eraseL2_blockOffset_bits _ _ hframe :)
      have eb : s3.d_setIndex_bits = s.d_setIndex_bits := (eraseL2_d_setIndex_bits _ _ hframe :)
      have em : s3.d_setIndex_mask = s.d_setIndex_mask := (eraseL2_d_setIndex_mask _ _ hframe :)
      obtain ⟨_, hmask, _⟩ := level_geom _ _ _ _ hv.2.2.2.1 hE (hs3.d_bits hE) hs3.d_mask
      refine ⟨⟨m3, l2Model_congr cfg s3 _ m3 hm3 rfl rfl rfl⟩,
        levelIncl_congr s3 _ s3.icache _ hI3 rfl rfl rfl, ?_⟩
      have hfill := levelIncl_fill s3
        { s3 with dcachePenalties := (s3.dcachePenalties + p) % 2 ^ 64,
                  dcache := s3.dcache.set (dIndex s addr)
                    (if 0 < a then allocList (dTag s addr) false row2
                     else row2.map (replaceWay cfg.dcacheAssoc (dTag s addr))),
                  dcache_set_avail :=
                    if 0 < a then s3.dcache_set_avail.set (dIndex s addr)
                      (allocAvail false row2 a)
                    else s3.dcache_set_avail }
        s3.dcache s3.d_setIndex_bits s3.d_setIndex_mask s3.blockOffset_bits addr row2
        (if 0 < a then allocList (dTag s addr) false row2
         else row2.map (replaceWay cfg.dcacheAssoc (dTag s addr)))
        hD3 (by rw [ebo]; exact hin3) rfl rfl rfl hmask
        (by rw [ebo, em]; exact hrow3)
        (by
          intro x hx
          rw [eb, ebo]
          exact holds_fill_sub _ _ _ _ _ hx)
      rw [ebo, em] at hfill
      exact hfill


/-- A step of the driver keeps the invariant of an inclusive hierarchy. -/
theorem incl_step (cfg : Config) (s s1 : State) (c : Access) (r : Nat) (hb : cfg.Bits32)
    (hv : cfg.Valid) (h0 : cfg.l2cacheSets ≠ 0) (hinc : TRUE = cfg.inclusive)
    (ha : c.addr < 2 ^ 32) (hs : Shape cfg s) (hm : ∃ m, L2Model cfg s m)
    (hinclI : LevelIncl s s.icache s.i_setIndex_bits)
    (hinclD : LevelIncl s s.dcache s.d_setIndex_bits)
    (hacc : step cfg s c = some (r, s1)) :
    Shape cfg s1 ∧ (∃ m, L2Model cfg s1 m) ∧
      LevelIncl s1 s1.icache s1.i_setIndex_bits ∧ LevelIncl s1 s1.dcache s1.d_setIndex_bits := by
  cases c with
  | instr a => exact incl_icache_step cfg s s1 a r hb hv h0 hinc ha hs hm hinclI hinclD hacc
  | data a => exact incl_dcache_step cfg s s1 a r hb hv h0 hinc ha hs hm hinclI hinclD hacc

theorem replicate_empty_not_holds (n : Nat) (t : Nat) :
    ¬ Holds (List.replicate n emptyBlock) t := by
  rintro ⟨b, hb, hv, _⟩
  rw [List.eq_of_mem_replicate hb] at hv
  cases hv

theorem setRel_init (A : Nat) : SetRel A (List.replicate A emptyBlock) A [] := by
  refine ⟨by simp, ?_, by simp, List.nodup_nil, ?_⟩
  · rw [List.countP_replicate]
    simp [emptyBlock]
  · intro i t
    constructor
    · rintro ⟨b, hb, hv, _⟩
      rw [List.eq_of_mem_replicate hb] at hv
      cases hv
    · intro h; simp at h

/-- After `init_cache` every L2 set matches the empty LRU list. -/
theorem init_l2Model (cfg : Config) (s : State) (h : init_cache cfg = some s) :
    L2Model cfg s (fun _ => []) := by
  obtain ⟨bo, ib, db, lb, _, _, _, _, rfl⟩ := init_cache_some cfg s h
  intro i row a hr ha
  have h1 : row = List.replicate cfg.l2cacheAssoc emptyBlock :=
    List.eq_of_mem_replicate (List.getElem?_mem hr)
  have h2 : a = cfg.l2cacheAssoc := List.eq_of_mem_replicate (List.getElem?_mem ha)
  subst h1; subst h2
  exact ⟨setRel_init _, fun t ht => by cases ht⟩

theorem init_levelIncl (cfg : Config) (s : State) (h : init_cache cfg = some s) :
    LevelIncl s s.icache s.i_setIndex_bits ∧ LevelIncl s s.dcache s.d_setIndex_bits := by
  obtain ⟨bo, ib, db, lb, _, _, _, _, rfl⟩ := init_cache_some cfg s h
  constructor
  · intro i r b hr hb hv
    rw [List.eq_of_mem_replicate (List.getElem?_mem hr)] at hb
    rw [List.eq_of_mem_replicate hb] at hv
    cases hv
  · intro i r b hr hb hv
    rw [List.eq_of_mem_replicate (List.getElem?_mem hr)] at hb
    rw [List.eq_of_mem_replicate hb] at hv
    cases hv

/-- Every reachable state of an inclusive hierarchy with L2 enabled satisfies the
invariant. -/
theorem reachable_incl (cfg : Config) (hv : cfg.Valid) (h0 : cfg.l2cacheSets ≠ 0)
    (hinc : TRUE = cfg.inclusive) (s : State) (hr : Reachable cfg s) :
    Shape cfg s ∧ (∃ m, L2Model cfg s m) ∧
      LevelIncl s s.icache s.i_setIndex_bits ∧ LevelIncl s s.dcache s.d_setIndex_bits := by
  induction hr with
  | init s h =>
    exact ⟨init_shape cfg s hv.1 h, ⟨_, init_l2Model cfg s h⟩, init_levelIncl cfg s h⟩
  | step s s1 c r _ ha hstep ih =>
    obtain ⟨hs, hm, hI, hD⟩ := ih
    exact incl_step cfg s s1 c r hv.1 hv h0 hinc ha hs hm hI hD hstep

/-! ## The reference LRU list and the history of a set -/

theorem filter_take_of_not_mem (t : Nat) :
    ∀ (R : List Nat) (n : Nat), t ∉ R.take n →
      (R.filter (fun x => decide (x ≠ t))).take n = R.take n := by
  intro R
  induction R with
  | nil => intro n _; simp
  | cons x xs ih =>
    intro n h
    cases n with
    | zero => simp
    | succ n =>
      rw [List.take_succ_cons] at h
      have hx : x ≠ t := fun e => h (by rw [e]; exact List.mem_cons_self _ _)
      have hxs : t ∉ xs.take n := fun hm => h (List.mem_cons_of_mem _ hm)
      rw [List.filter_cons_of_pos (by simpa using hx), List.take_succ_cons, List.take_succ_cons,
        ih n hxs]

theorem erase_take_of_mem (t : Nat) :
    ∀ (R : List Nat) (n : Nat), R.Nodup → t ∈ R.take (n + 1) →
      (R.take (n + 1)).erase t = (R.filter (fun x => decide (x ≠ t))).take n := by
  intro R
  induction R with
  | nil => intro n _ h; simp at h
  | cons x xs ih =>
    intro n hn h
    rw [List.take_succ_cons] at h ⊢
    obtain ⟨hx, hxs⟩ := List.nodup_cons.1 hn
    by_cases e : x = t
    · subst e
      have hf : xs.filter (fun y => decide (y ≠ x)) = xs := by
        rw [List.filter_eq_self]
        intro y hy
        have : y ≠ x := fun e => hx (e ▸ hy)
        simpa using this
      rw [List.erase_cons_head, List.filter_cons_of_neg (by simp), hf]
    · have hmem : t ∈ xs.take n := by
        rcases List.mem_cons.1 h with h1 | h1
        · exact absurd h1.symm e
        · exact h1
      cases n with
      | zero => simp at hmem
      | succ n =>
        rw [List.erase_cons_tail (by simpa using e),
          List.filter_cons_of_pos (by simpa using e), List.take_succ_cons, ih n hxs hmem]

theorem recentDistinct_nodup (h : List Nat) : (recentDistinct h).Nodup := by
  induction h with
  | nil => exact List.nodup_nil
  | cons t h ih =>
    unfold recentDistinct
    refine List.nodup_cons.2 ⟨?_, ih.filter _⟩
    intro hm
    have := (List.mem_filter.1 hm).2
    simp at this

theorem recentDistinct_subset (h : List Nat) (x : Nat) (hx : x ∈ recentDistinct h) : x ∈ h := by
  induction h with
  | nil => simp [recentDistinct] at hx
  | cons t h ih =>
    unfold recentDistinct at hx
    rcases List.mem_cons.1 hx with e | hm
    · rw [e]; exact List.mem_cons_self _ _
    · exact List.mem_cons_of_mem _ (ih (List.mem_filter.1 hm).1)

/-- One access on the first `A` entries of the recency list of a history is the
first `A` entries of the recency list of the extended history. -/
theorem lruRef_recent (A : Nat) (hA : 1 ≤ A) (h : List Nat) (t : Nat) :
    (lruRefAccess A ((recentDistinct h).take A) t).2 = (recentDistinct (t :: h)).take A := by
  obtain ⟨n, rfl⟩ : ∃ n, A = n + 1 := ⟨A - 1, by omega⟩
  have hn := recentDistinct_nodup h
  show _ = (t :: (recentDistinct h).filter (fun x => decide (x ≠ t))).take (n + 1)
  rw [List.take_succ_cons]
  by_cases hm : t ∈ (recentDistinct h).take (n + 1)
  · rw [lruRef_hit _ _ _ hm, erase_take_of_mem t _ n hn hm]
  · rw [lruRef_miss _ _ _ hm, List.take_succ_cons, List.take_take,
      Nat.min_eq_left (Nat.le_succ n),
      filter_take_of_not_mem t _ n
        (fun h1 => hm (List.take_subset_take_left _ (Nat.le_succ n) h1))]

theorem lruRefList_snoc (A : Nat) (ts : List Nat) (t : Nat) :
    lruRefList A (ts ++ [t]) = (lruRefAccess A (lruRefList A ts) t).2 := by
  unfold lruRefList
  rw [List.foldl_append]
  rfl

/-- The reference LRU list holds the `A` most recently used distinct tags. -/
theorem lruRefList_eq (A : Nat) (hA : 1 ≤ A) (ts : List Nat) :
    lruRefList A ts = (recentDistinct ts.reverse).take A := by
  induction ts using List.reverseRecOn with
  | nil => simp [lruRefList, recentDistinct]
  | append_singleton ts t ih =>
    rw [lruRefList_snoc, ih, lruRef_recent A hA, List.reverse_append]
    rfl

theorem setTags_snoc (s : State) (idx : Nat) (addrs : List Nat) (a : Nat) :
    setTags s idx (addrs ++ [a])
      = setTags s idx addrs ++ (if l2Index s a = idx then [l2Tag s a] else []) := by
  unfold setTags
  rw [List.filter_append, List.map_append]
  by_cases h : l2Index s a = idx
  · simp [h]
  · simp [h]

theorem l2Index_congr (s1 s : State) (a : Nat) (h : s1.eraseL2 = s.eraseL2) :
    l2Index s1 a = l2Index s a := by
  unfold l2Index
  rw [eraseL2_blockOffset_bits s1 s h, eraseL2_l2_setIndex_mask s1 s h]

theorem l2Tag_congr (s1 s : State) (a : Nat) (h : s1.eraseL2 = s.eraseL2) :
    l2Tag s1 a = l2Tag s a := by
  unfold l2Tag
  rw [eraseL2_blockOffset_bits s1 s h, eraseL2_l2_setIndex_bits s1 s h]

/-- The model after one more access of the history. -/
theorem model_snoc (A : Nat) (s0 : State) (hist : List Nat) (a : Nat) :
    Function.update (fun i => lruRefList A (setTags s0 i hist)) (l2Index s0 a)
        (lruRefAccess A (lruRefList A (setTags s0 (l2Index s0 a) hist)) (l2Tag s0 a)).2
      = fun i => lruRefList A (setTags s0 i (hist ++ [a])) := by
  funext i
  by_cases hi : i = l2Index s0 a
  · subst hi
    rw [Function.update_same, setTags_snoc, if_pos rfl, lruRefList_snoc]
  · rw [Function.update_noteq hi, setTags_snoc, if_neg (fun e => hi e.symm)]
    simp

/-- A sequence of `l2cache_access` calls runs to completion, and every L2 set then
matches the reference LRU list of the accesses that fell into it. -/
theorem l2run_model (cfg : Config) (s0 : State) (h0 : cfg.l2cacheSets ≠ 0)
    (hA1 : 1 ≤ cfg.l2cacheAssoc) (hA : cfg.l2cacheAssoc < 2 ^ 32) :
    ∀ (addrs hist : List Nat) (s : State), (∀ x ∈ addrs, x < 2 ^ 32) → Shape cfg s →
      s.eraseL2 = s0.eraseL2 →
      L2Model cfg s (fun i => lruRefList cfg.l2cacheAssoc (setTags s0 i hist)) →
      ∃ s1, l2run cfg s addrs = some s1 ∧ Shape cfg s1 ∧ s1.eraseL2 = s0.eraseL2 ∧
        L2Model cfg s1 (fun i => lruRefList cfg.l2cacheAssoc (setTags s0 i (hist ++ addrs))) := by
  intro addrs
  induction addrs with
  | nil =>
    intro hist s _ hs hf hm
    exact ⟨s, rfl, hs, hf, by simpa using hm⟩
  | cons a rest ih =>
    intro hist s hlt hs hf hm
    obtain ⟨r, s1, hacc, hs1, _, hm1, _, _⟩ := l2_model_step cfg s a _ hs h0 hA1 hA
      (hlt a (List.mem_cons_self _ _)) hm
    have hf1 : s1.eraseL2 = s0.eraseL2 := (l2cache_access_frame cfg s a r s1 hs hacc).trans hf
    rw [l2Index_congr s s0 a hf, l2Tag_congr s s0 a hf, model_snoc] at hm1
    obtain ⟨s2, h2, hs2, hf2, hm2⟩ := ih (hist ++ [a]) s1
      (fun x hx => hlt x (List.mem_cons_of_mem _ hx)) hs1 hf1 hm1
    refine ⟨s2, ?_, hs2, hf2, by simpa using hm2⟩
    simp only [l2run, hacc]
    exact h2

/-! ## Hits and misses of a sequence of L2 accesses -/

theorem l2_lru_char (cfg : Config) (hb : cfg.Bits32)
    (hv : LevelValid cfg.l2cacheSets cfg.l2cacheAssoc) (h0 : cfg.l2cacheSets ≠ 0)
    (s0 : State) (hinit : init_cache cfg = some s0) (pre : List Nat)
    (hpre : ∀ x ∈ pre, x < 2 ^ 32) (a : Nat) (ha : a < 2 ^ 32) :
    ∃ s r s1, l2run cfg s0 pre = some s ∧ l2cache_access cfg s a = some (r, s1) ∧
      (l2Tag s0 a ∈ lruRefList cfg.l2cacheAssoc (setTags s0 (l2Index s0 a) pre) →
        r = cfg.l2cacheHitTime ∧ s1.l2cacheMisses = s.l2cacheMisses) ∧
      (l2Tag s0 a ∉ lruRefList cfg.l2cacheAssoc (setTags s0 (l2Index s0 a) pre) →
        r = (cfg.l2cacheHitTime + cfg.memspeed) % 2 ^ 32 ∧
        s1.l2cacheMisses = (s.l2cacheMisses + 1) % 2 ^ 64) ∧
      Shape cfg s1 ∧
      L2Model cfg s1 (fun i => lruRefList cfg.l2cacheAssoc (setTags s0 i (pre ++ [a]))) := by
  have hs0 := init_shape cfg s0 hb hinit
  obtain ⟨_, _, hA1⟩ := level_geom _ _ _ _ hv h0 (hs0.l2_bits h0) hs0.l2_mask
  have hA : cfg.l2cacheAssoc < 2 ^ 32 := hb.2.2.2.2.2.2.2.1
  obtain ⟨s, hrun, hs, hf, hm⟩ := l2run_model cfg s0 h0 hA1 hA pre [] s0 hpre hs0 rfl
    (by
      have := init_l2Model cfg s0 hinit
      intro i row a1 hr hav
      have h1 := this i row a1 hr hav
      simpa [setTags, lruRefList] using h1)
  rw [List.nil_append] at hm
  obtain ⟨r, s1, hacc, hs1, _, hm1, hhit, hmiss⟩ := l2_model_step cfg s a _ hs h0 hA1 hA ha hm
  rw [l2Index_congr s s0 a hf, l2Tag_congr s s0 a hf] at hm1 hhit hmiss
  rw [model_snoc] at hm1
  exact ⟨s, r, s1, hrun, hacc, hhit, hmiss, hs1, hm1⟩

/-- The tags a well-shaped L2 state holds in a set are those of the LRU list of the
set. -/
theorem model_holds (cfg : Config) (s : State) (m : Nat → List Nat) (hs : Shape cfg s)
    (hm : L2Model cfg s m) (i : Nat) (row : List cacheBlock) (hrow : s.l2cache[i]? = some row)
    (t : Nat) : Holds row t ↔ t ∈ m i := by
  have hi : i < s.l2cache_set_avail.length := by
    rw [hs.l2_av, ← hs.l2_len]; exact getElem?_lt _ _ _ hrow
  exact setRel_holds_iff _ _ _ _ (hm i row _ hrow (List.getElem?_eq_getElem hi)).1 t

/-! ## The cyclic pattern -/

theorem mem_take_backwards (f : Nat → Nat) :
    ∀ (n k x : Nat), x ∈ (backwards f n).take k → ∃ j, j < n ∧ n ≤ j + k ∧ x = f j := by
  intro n
  induction n with
  | zero => intro k x h; simp [backwards] at h
  | succ n ih =>
    intro k x h
    cases k with
    | zero => simp at h
    | succ k =>
      rw [backwards, List.take_succ_cons] at h
      rcases List.mem_cons.1 h with e | hm
      · exact ⟨n, by omega, by omega, e⟩
      · obtain ⟨j, h1, h2, h3⟩ := ih k x hm
        exact ⟨j, by omega, by omega, h3⟩

theorem nodup_take_backwards (f : Nat → Nat) (L : Nat)
    (hwin : ∀ i j, i < j → j < i + L → f i ≠ f j) :
    ∀ (n k : Nat), k ≤ L → ((backwards f n).take k).Nodup := by
  intro n
  induction n with
  | zero => intro k _; simp [backwards]
  | succ n ih =>
    intro k hk
    cases k with
    | zero => simp
    | succ k =>
      rw [backwards, List.take_succ_cons]
      refine List.nodup_cons.2 ⟨?_, ih k (by omega)⟩
      intro hm
      obtain ⟨j, h1, h2, h3⟩ := mem_take_backwards f n k _ hm
      exact hwin j n h1 (by omega) h3.symm

theorem recent_take_of_nodup :
    ∀ (A : Nat) (h : List Nat), (h.take A).Nodup → (recentDistinct h).take A = h.take A := by
  intro A
  induction A with
  | zero => intro h _; simp
  | succ A ih =>
    intro h hn
    cases h with
    | nil => simp [recentDistinct]
    | cons t h =>
      rw [List.take_succ_cons] at hn
      obtain ⟨hnot, hn1⟩ := List.nodup_cons.1 hn
      have e := ih h hn1
      show (t :: (recentDistinct h).filter (fun x => decide (x ≠ t))).take (A + 1) = _
      rw [List.take_succ_cons, List.take_succ_cons,
        filter_take_of_not_mem t _ A (by rw [e]; exact hnot), e]

theorem mod_window (L i j : Nat) (h1 : i < j) (h2 : j < i + L) : i % L ≠ j % L := by
  intro e
  have h3 : (j - i) % L = 0 := Nat.sub_mod_eq_zero_of_mod_eq e.symm
  have h4 : (j - i) % L = j - i := Nat.mod_eq_of_lt (by omega)
  omega

theorem setTags_cyclic (s : State) (idx : Nat) (ts : List Nat)
    (hset : ∀ x ∈ ts, l2Index s x = idx) (hpos : 0 < ts.length) (n : Nat) :
    (setTags s idx (cyclic ts n)).reverse
      = backwards (fun i => l2Tag s (ts.getD (i % ts.length) 0)) n := by
  induction n with
  | zero => simp [setTags, cyclic, backwards]
  | succ n ih =>
    have hc : cyclic ts (n + 1) = cyclic ts n ++ [ts.getD (n % ts.length) 0] := by
      unfold cyclic
      rw [List.range_succ, List.map_append]
      rfl
    have hmem : ts.getD (n % ts.length) 0 ∈ ts := by
      have hlt : n % ts.length < ts.length := Nat.mod_lt _ hpos
      rw [List.getD_eq_getElem _ _ hlt]
      exact List.getElem_mem hlt
    rw [hc, setTags_snoc, if_pos (hset _ hmem), List.reverse_append, ih]
    rfl

theorem cyclic_lt (ts : List Nat) (hlt : ∀ x ∈ ts, x < 2 ^ 32) (n : Nat) :
    ∀ x ∈ cyclic ts n, x < 2 ^ 32 := by
  intro x hx
  unfold cyclic at hx
  obtain ⟨i, _, rfl⟩ := List.mem_map.1 hx
  by_cases hpos : 0 < ts.length
  · have h1 : i % ts.length < ts.length := Nat.mod_lt _ hpos
    rw [List.getD_eq_getElem _ _ h1]
    exact hlt _ (List.getElem_mem h1)
  · have : ts = [] := List.eq_nil_of_length_eq_zero (by omega)
    subst this
    simp

/-! ## Statistics that an access leaves alone -/

theorem icache_access_stats (cfg : Config) (s s1 : State) (addr r : Nat) (hs : Shape cfg s)
    (h : icache_access cfg s addr = some (r, s1)) :
    (s1.dcacheRefs = s.dcacheRefs ∧ s1.dcacheMisses = s.dcacheMisses ∧
      s1.dcachePenalties = s.dcachePenalties) ∧
    (cfg.icacheSets = 0 → s1.icacheRefs = s.icacheRefs ∧ s1.icacheMisses = s.icacheMisses ∧
      s1.icachePenalties = s.icachePenalties) ∧
    (cfg.l2cacheSets = 0 → s1.l2cacheRefs = s.l2cacheRefs ∧ s1.l2cacheMisses = s.l2cacheMisses ∧
      s1.l2cachePenalties = s.l2cachePenalties) := by
  by_cases hE : cfg.icacheSets = 0
  · rw [icache_access_disabled cfg s addr hE] at h
    obtain ⟨e1, e2, e3, e4, e5, e6⟩ :=
      eraseL2_counters s1 s (l2cache_access_frame cfg s addr r s1 hs h)
    refine ⟨⟨e4, e5, e6⟩, fun _ => ⟨e1, e2, e3⟩, ?_⟩
    intro h2
    rw [l2cache_access_disabled cfg s addr h2] at h
    cases h
    exact ⟨rfl, rfl, rfl⟩
  · obtain ⟨row, _, hc⟩ := icache_access_cases cfg s addr hs hE
    rcases hc with ⟨b, _, _, _, h'⟩ | ⟨_, p, s3, row2, a, hl2, hs3, _, _, h'⟩
    · rw [h] at h'; cases h'
      exact ⟨⟨rfl, rfl, rfl⟩, fun e => absurd e hE, fun _ => ⟨rfl, rfl, rfl⟩⟩
    · rw [h] at h'; cases h'
      have hs2 : Shape cfg { s with icacheRefs := (s.icacheRefs + 1) % 2 ^ 64,
                                    icacheMisses := (s.icacheMisses + 1) % 2 ^ 64 } :=
        shape_counters cfg s hs _ _ _ _ _ _ _ _ _
      obtain ⟨_, _, _, e4, e5, e6⟩ :=
        eraseL2_counters s3 _ (l2cache_access_frame cfg _ addr p s3 hs2 hl2)
      refine ⟨⟨e4, e5, e6⟩, fun e => absurd e hE, ?_⟩
      intro h2
      rw [l2cache_access_disabled cfg _ addr h2] at hl2
      cases hl2
      exact ⟨rfl, rfl, rfl⟩

theorem dcache_access_stats (cfg : Config) (s s1 : State) (addr r : Nat) (hs : Shape cfg s)
    (h : dcache_access cfg s addr = some (r, s1)) :
    (s1.icacheRefs = s.icacheRefs ∧ s1.icacheMisses = s.icacheMisses ∧
      s1.icachePenalties = s.icachePenalties) ∧
    (cfg.dcacheSets = 0 → s1.dcacheRefs = s.dcacheRefs ∧ s1.dcacheMisses = s.dcacheMisses ∧
      s1.dcachePenalties = s.dcachePenalties) ∧
    (cfg.l2cacheSets = 0 → s1.l2cacheRefs = s.l2cacheRefs ∧ s1.l2cacheMisses = s.l2cacheMisses ∧
      s1.l2cachePenalties = s.l2cachePenalties) := by
  by_cases hE : cfg.dcacheSets = 0
  · rw [dcache_access_disabled cfg s addr hE] at h
    obtain ⟨e1, e2, e3, e4, e5, e6⟩ :=
      eraseL2_counters s1 s (l2cache_access_frame cfg s addr r s1 hs h)
    refine ⟨⟨e1, e2, e3⟩, fun _ => ⟨e4, e5, e6⟩, ?_⟩
    intro h2
    rw [l2cache_access_disabled cfg s addr h2] at h
    cases h
    exact ⟨rfl, rfl, rfl⟩
  · obtain ⟨row, _, hc⟩ := dcache_access_cases cfg s addr hs hE
    rcases hc with ⟨b, _, _, _, h'⟩ | ⟨_, p, s3, row2, a, hl2, hs3, _, _, h'⟩
    · rw [h] at h'; cases h'
      exact ⟨⟨rfl, rfl, rfl⟩, fun e => absurd e hE, fun _ => ⟨rfl, rfl, rfl⟩⟩
    · rw [h] at h'; cases h'
      have hs2 : Shape cfg { s with dcacheRefs := (s.dcacheRefs + 1) % 2 ^ 64,
                                    dcacheMisses := (s.dcacheMisses + 1) % 2 ^ 64 } :=
        shape_counters cfg s hs _ _ _ _ _ _ _ _ _
      obtain ⟨e1, e2, e3, _, _, _⟩ :=
        eraseL2_counters s3 _ (l2cache_access_frame cfg _ addr p s3 hs2 hl2)
      refine ⟨⟨e1, e2, e3⟩, fun e => absurd e hE, ?_⟩
      intro h2
      rw [l2cache_access_disabled cfg _ addr h2] at hl2
      cases hl2
      exact ⟨rfl, rfl, rfl⟩

/-- The statistics of a disabled level are zero in every reachable state. -/
theorem reachable_disabled_stats (cfg : Config) (hb : cfg.Bits32) (s : State)
    (hr : Reachable cfg s) :
    (cfg.icacheSets = 0 → s.icacheRefs = 0 ∧ s.icacheMisses = 0 ∧ s.icachePenalties = 0) ∧
    (cfg.dcacheSets = 0 → s.dcacheRefs = 0 ∧ s.dcacheMisses = 0 ∧ s.dcachePenalties = 0) ∧
    (cfg.l2cacheSets = 0 → s.l2cacheRefs = 0 ∧ s.l2cacheMisses = 0 ∧ s.l2cachePenalties = 0) := by
  induction hr with
  | init s h =>
    obtain ⟨bo, ib, db, lb, _, _, _, _, rfl⟩ := init_cache_some cfg s h
    exact ⟨fun _ => ⟨rfl, rfl, rfl⟩, fun _ => ⟨rfl, rfl, rfl⟩, fun _ => ⟨rfl, rfl, rfl⟩⟩
  | step s s1 c r hr1 _ hstep ih =>
    have hs := reachable_shape cfg hb s hr1
    obtain ⟨ihI, ihD, ihL⟩ := ih
    cases c with
    | instr a =>
      obtain ⟨⟨d1, d2, d3⟩, hi, hl⟩ := icache_access_stats cfg s s1 a r hs hstep
      refine ⟨fun e => ?_, fun e => ?_, fun e => ?_⟩
      · obtain ⟨a1, a2, a3⟩ := hi e
        obtain ⟨b1, b2, b3⟩ := ihI e
        exact ⟨a1.trans b1, a2.trans b2, a3.trans b3⟩
      · obtain ⟨b1, b2, b3⟩ := ihD e
        exact ⟨d1.trans b1, d2.trans b2, d3.trans b3⟩
      · obtain ⟨a1, a2, a3⟩ := hl e
        obtain ⟨b1, b2, b3⟩ := ihL e
        exact ⟨a1.trans b1, a2.trans b2, a3.trans b3⟩
    | data a =>
      obtain ⟨⟨d1, d2, d3⟩, hd, hl⟩ := dcache_access_stats cfg s s1 a r hs hstep
      refine ⟨fun e => ?_, fun e => ?_, fun e => ?_⟩
      · obtain ⟨b1, b2, b3⟩ := ihI e
        exact ⟨d1.trans b1, d2.trans b2, d3.trans b3⟩
      · obtain ⟨a1, a2, a3⟩ := hd e
        obtain ⟨b1, b2, b3⟩ := ihD e
        exact ⟨a1.trans b1, a2.trans b2, a3.trans b3⟩
      · obtain ⟨a1, a2, a3⟩ := hl e
        obtain ⟨b1, b2, b3⟩ := ihL e
        exact ⟨a1.trans b1, a2.trans b2, a3.trans b3⟩

/-! ## Latency of an L2 access and of an L1 miss -/

/-- What `l2cache_access` returns with L2 enabled: the hit time on a hit, the hit
time plus the memory latency on a miss. -/
theorem l2cache_access_latency (cfg : Config) (s : State) (addr : Nat) (hs : Shape cfg s)
    (h0 : cfg.l2cacheSets ≠ 0) :
    ∃ r s1, l2cache_access cfg s addr = some (r, s1) ∧
      (L2Hit s addr → r = cfg.l2cacheHitTime) ∧
      (¬ L2Hit s addr → r = (cfg.l2cacheHitTime + cfg.memspeed) % 2 ^ 32) := by
  obtain ⟨row, a, r, s1, hrow, _, hacc, _, _, hc⟩ := l2cache_access_cases cfg s addr hs h0
  refine ⟨r, s1, hacc, ?_, ?_⟩
  · rintro ⟨row', hrow', hh⟩
    rw [hrow] at hrow'; cases hrow'
    rcases hc with ⟨_, _, _, _, e, _⟩ | ⟨hn, _⟩ | ⟨hn, _⟩
    · exact e
    · exact absurd hh hn
    · exact absurd hh hn
  · intro hn
    rcases hc with ⟨b, hb, hv, ht, _, _⟩ | ⟨_, _, e, _⟩ | ⟨_, _, e, _⟩
    · exact absurd ⟨row, hrow, b, hb, hv, ht⟩ hn
    · exact e
    · exact e

/-- Latency and statistics of `icache_access` with the I-cache and L2 enabled. -/
theorem icache_access_latency (cfg : Config) (s : State) (addr : Nat) (hs : Shape cfg s)
    (hE : cfg.icacheSets ≠ 0) (hL : cfg.l2cacheSets ≠ 0) :
    ∃ r s1, icache_access cfg s addr = some (r, s1) ∧
      (IHit s addr → r = cfg.icacheHitTime ∧ s1.icacheMisses = s.icacheMisses ∧
        s1.icachePenalties = s.icachePenalties) ∧
      (¬ IHit s addr → L2Hit s addr →
        r = (cfg.icacheHitTime + cfg.l2cacheHitTime) % 2 ^ 32 ∧
        s1.icacheMisses = (s.icacheMisses + 1) % 2 ^ 64 ∧
        s1.icachePenalties = (s.icachePenalties + cfg.l2cacheHitTime) % 2 ^ 64) ∧
      (¬ IHit s addr → ¬ L2Hit s addr →
        r = (cfg.icacheHitTime + cfg.l2cacheHitTime + cfg.memspeed) % 2 ^ 32 ∧
        s1.icacheMisses = (s.icacheMisses + 1) % 2 ^ 64 ∧
        s1.icachePenalties
          = (s.icachePenalties + (cfg.l2cacheHitTime + cfg.memspeed) % 2 ^ 32) % 2 ^ 64) := by
  obtain ⟨row, hrow, hc⟩ := icache_access_cases cfg s addr hs hE
  rcases hc with ⟨b, hb, hv, ht, h⟩ | ⟨hmiss, p, s3, row2, a, hl2, hs3, _, _, h⟩
  · have hhit : IHit s addr := ⟨row, hrow, b, hb, hv, ht⟩
    exact ⟨_, _, h, fun _ => ⟨rfl, rfl, rfl⟩, fun hn => absurd hhit hn,
      fun hn => absurd hhit hn⟩
  · have hnot : ¬ IHit s addr := by
      rintro ⟨row', hrow', hh⟩
      rw [hrow] at hrow'; cases hrow'
      exact hmiss hh
    have hs2 : Shape cfg { s with icacheRefs := (s.icacheRefs + 1) % 2 ^ 64,
                                  icacheMisses := (s.icacheMisses + 1) % 2 ^ 64 } :=
      shape_counters cfg s hs _ _ _ _ _ _ _ _ _
    obtain ⟨p', s3', hl2', hp1, hp2⟩ := l2cache_access_latency cfg _ addr hs2 hL
    rw [hl2] at hl2'; cases hl2'
    obtain ⟨_, e2, e3, _, _, _⟩ :=
      eraseL2_counters s3 _ (l2cache_access_frame cfg _ addr p s3 hs2 hl2)
    have em : s3.icacheMisses = (s.icacheMisses + 1) % 2 ^ 64 := e2
    have ep : s3.icachePenalties = s.icachePenalties := e3
    refine ⟨_, _, h, fun hh => absurd hh hnot, ?_, ?_⟩
    · intro _ hl2hit
      have : p = cfg.l2cacheHitTime := hp1 hl2hit
      subst this
      exact ⟨rfl, em, by show (s3.icachePenalties + _) % 2 ^ 64 = _; rw [ep]⟩
    · intro _ hl2miss
      have : p = (cfg.l2cacheHitTime + cfg.memspeed) % 2 ^ 32 := hp2 hl2miss
      subst this
      refine ⟨?_, em, by show (s3.icachePenalties + _) % 2 ^ 64 = _; rw [ep]⟩
      omega

/-- Latency and statistics of `dcache_access` with the D-cache and L2 enabled. -/
theorem dcache_access_latency (cfg : Config) (s : State) (addr : Nat) (hs : Shape cfg s)
    (hE : cfg.dcacheSets ≠ 0) (hL : cfg.l2cacheSets ≠ 0) :
    ∃ r s1, dcache_access cfg s addr = some (r, s1) ∧
      (DHit s addr → r = cfg.dcacheHitTime ∧ s1.dcacheMisses = s.dcacheMisses ∧
        s1.dcachePenalties = s.dcachePenalties) ∧
      (¬ DHit s addr → L2Hit s addr →
        r = (cfg.dcacheHitTime + cfg.l2cacheHitTime) % 2 ^ 32 ∧
        s1.dcacheMisses = (s.dcacheMisses + 1) % 2 ^ 64 ∧
        s1.dcachePenalties = (s.dcachePenalties + cfg.l2cacheHitTime) % 2 ^ 64) ∧
      (¬ DHit s addr → ¬ L2Hit s addr →
        r = (cfg.dcacheHitTime + cfg.l2cacheHitTime + cfg.memspeed) % 2 ^ 32 ∧
        s1.dcacheMisses = (s.dcacheMisses + 1) % 2 ^ 64 ∧
        s1.dcachePenalties
          = (s.dcachePenalties + (cfg.l2cacheHitTime + cfg.memspeed) % 2 ^ 32) % 2 ^ 64) := by
  obtain ⟨row, hrow, hc⟩ := dcache_access_cases cfg s addr hs hE
  rcases hc with ⟨b, hb, hv, ht, h⟩ | ⟨hmiss, p, s3, row2, a, hl2, hs3, _, _, h⟩
  · have hhit : DHit s addr := ⟨row, hrow, b, hb, hv, ht⟩
    exact ⟨_, _, h, fun _ => ⟨rfl, rfl, rfl⟩, fun hn => absurd hhit hn,
      fun hn => absurd hhit hn⟩
  · have hnot : ¬ DHit s addr := by
      rintro ⟨row', hrow', hh⟩
      rw [hrow] at hrow'; cases hrow'
      exact hmiss hh
    have hs2 : Shape cfg { s with dcacheRefs := (s.dcacheRefs + 1) % 2 ^ 64,
                                  dcacheMisses := (s.dcacheMisses + 1) % 2 ^ 64 } :=
      shape_counters cfg s hs _ _ _ _ _ _ _ _ _
    obtain ⟨p', s3', hl2', hp1, hp2⟩ := l2cache_access_latency cfg _ addr hs2 hL
    rw [hl2] at hl2'; cases hl2'
    obtain ⟨_, _, _, _, e2, e3⟩ :=
      eraseL2_counters s3 _ (l2cache_access_frame cfg _ addr p s3 hs2 hl2)
    have em : s3.dcacheMisses = (s.dcacheMisses + 1) % 2 ^ 64 := e2
    have ep : s3.dcachePenalties = s.dcachePenalties := e3
    refine ⟨_, _, h, fun hh => absurd hh hnot, ?_, ?_⟩
    · intro _ hl2hit
      have : p = cfg.l2cacheHitTime := hp1 hl2hit
      subst this
      exact ⟨rfl, em, by show (s3.dcachePenalties + _) % 2 ^ 64 = _; rw [ep]⟩
    · intro _ hl2miss
      have : p = (cfg.l2cacheHitTime + cfg.memspeed) % 2 ^ 32 := hp2 hl2miss
      subst this
      refine ⟨?_, em, by show (s3.dcachePenalties + _) % 2 ^ 64 = _; rw [ep]⟩
      omega

/-! ## Concrete runs -/

/-- A run from the initial state ends in a reachable state. -/
theorem reachable_of_run (cfg : Config) (calls : List Access) :
    ∀ (s : State) (rs : List Nat) (s1 : State), Reachable cfg s →
      (∀ c ∈ calls, c.addr < 2 ^ 32) → run cfg s calls = some (rs, s1) → Reachable cfg s1 := by
  induction calls with
  | nil =>
    intro s rs s1 hr _ h
    simp only [run, Option.some.injEq, Prod.mk.injEq] at h
    rw [← h.2]; exact hr
  | cons c cs ih =>
    intro s rs s1 hr hlt h
    simp only [run] at h
    cases hstep : step cfg s c with
    | none => rw [hstep] at h; cases h
    | some p =>
      obtain ⟨r, s2⟩ := p
      rw [hstep] at h
      simp only at h
      cases hrun : run cfg s2 cs with
      | none => rw [hrun] at h; cases h
      | some q =>
        obtain ⟨rs2, s3⟩ := q
        rw [hrun] at h
        simp only [Option.some.injEq, Prod.mk.injEq] at h
        rw [← h.2]
        exact ih s2 rs2 s3
          (Reachable.step s s2 c r hr (hlt c (List.mem_cons_self _ _)) hstep)
          (fun c1 hc1 => hlt c1 (List.mem_cons_of_mem _ hc1)) hrun

theorem scenarioCfg_valid : scenarioCfg.Valid :=
  ⟨by unfold Config.Bits32; decide, ⟨2, by decide, rfl⟩,
    Or.inr ⟨⟨0, by decide, rfl⟩, by decide⟩, Or.inr ⟨⟨0, by decide, rfl⟩, by decide⟩,
    Or.inr ⟨⟨0, by decide, rfl⟩, by decide⟩⟩

theorem inclusiveCfg_valid : inclusiveCfg.Valid :=
  ⟨by unfold Config.Bits32; decide, ⟨2, by decide, rfl⟩,
    Or.inr ⟨⟨0, by decide, rfl⟩, by decide⟩, Or.inr ⟨⟨0, by decide, rfl⟩, by decide⟩,
    Or.inr ⟨⟨0, by decide, rfl⟩, by decide⟩⟩

theorem evictCfg_valid : evictCfg.Valid :=
  ⟨by unfold Config.Bits32; decide, ⟨2, by decide, rfl⟩,
    Or.inr ⟨⟨0, by decide, rfl⟩, by decide⟩, Or.inr ⟨⟨0, by decide, rfl⟩, by decide⟩,
    Or.inr ⟨⟨2, by decide, rfl⟩, by decide⟩⟩

/-! ## The claims of the specification -/

/-- C1. Inclusion invariant: for every valid configuration with all three levels
enabled and `inclusive = TRUE` (and the shift amounts `setIndexBits +
blockOffsetBits` of the three levels below 32, where C defines the shifts), in
every state reachable from `init_cache` by `icache_access` / `dcache_access` calls,
every valid way of the I-cache and of the D-cache has its block in L2: with
`b = (tag << setIndexBits_L1) | setIndex_L1`, the L2 set `b & l2_setIndex_mask` has
a valid way with tag `b >> l2_setIndex_bits`. -/
theorem inclusion_invariant (cfg : Config) (hv : cfg.Valid) (hen : cfg.AllEnabled)
    (hinc : cfg.inclusive = TRUE) (s : State) (hr : Reachable cfg s)
    (_hshift : s.i_setIndex_bits + s.blockOffset_bits < 32 ∧
      s.d_setIndex_bits + s.blockOffset_bits < 32 ∧
      s.l2_setIndex_bits + s.blockOffset_bits < 32) : Inclusion s := by
  obtain ⟨_, _, hI, hD⟩ := reachable_incl cfg hv hen.2.2 hinc.symm s hr
  exact ⟨hI, hD⟩

/-- Witness for C1: the inclusive scenario of the spec, after the instruction
accesses 0x00 and 0x10. -/
theorem inclusion_invariant_witness :
    ∃ s0 rs s, init_cache inclusiveCfg = some s0 ∧
      run inclusiveCfg s0 [Access.instr 0x00, Access.instr 0x10] = some (rs, s) ∧
      Inclusion s :=
  ⟨_, _, _, rfl, rfl,
    inclusion_invariant inclusiveCfg inclusiveCfg_valid
      ⟨by decide, by decide, by decide⟩ rfl _
      (reachable_of_run inclusiveCfg [Access.instr 0x00, Access.instr 0x10] _ _ _
        (Reachable.init _ rfl) (by decide) rfl)
      ⟨by decide, by decide, by decide⟩⟩

/-- C2, evaluated at the failing input.  On the valid inclusive configuration
`evictCfg`, after the instruction accesses 0x00, 0x10, 0x04, 0x08 the only I-cache
set has two valid ways with `LRU_val` 2 and 1: the rank property is broken. -/
theorem rank_invariant_broken :
    evictCfg.Valid ∧ ∃ s0 rs s, init_cache evictCfg = some s0 ∧
      run evictCfg s0 [Access.instr 0x00, Access.instr 0x10, Access.instr 0x04,
        Access.instr 0x08] = some (rs, s) ∧
      s.icache = [[{ valid := true, LRU_val := 2, tag := 4 },
                   { valid := true, LRU_val := 1, tag := 1 }]] ∧
      ∃ row ∈ s.icache, ¬ RankOK row :=
  ⟨evictCfg_valid, _, _, _, rfl, rfl, rfl, _, List.mem_cons_self _ _, by decide⟩

/-- C3, evaluated at the failing input.  On the valid inclusive configuration
`evictCfg`, after the instruction accesses 0x00, 0x10, 0x04, two calls in a row of
`icache_access` on 0x08 both miss: `icacheMisses` is 4 after the first call and 5
after the second. -/
theorem repeated_access_misses :
    evictCfg.Valid ∧ ∃ s0 rs s r1 s1 r2 s2, init_cache evictCfg = some s0 ∧
      run evictCfg s0 [Access.instr 0x00, Access.instr 0x10, Access.instr 0x04]
        = some (rs, s) ∧
      icache_access evictCfg s 0x08 = some (r1, s1) ∧
      icache_access evictCfg s1 0x08 = some (r2, s2) ∧
      s1.icacheMisses = 4 ∧ s2.icacheMisses = 5 :=
  ⟨evictCfg_valid, _, _, _, _, _, _, _, rfl, rfl, rfl, rfl, rfl, rfl⟩

/-- C4. True LRU for L2: with L2 enabled (power-of-two set count, associativity
`A ≥ 1`, and the shift amounts `setIndexBits + blockOffsetBits` below 32, where C
defines the shifts), after any sequence `pre` of `l2cache_access` calls from the initial state a
further call on `a` returns, and it is a hit (`l2cacheMisses` unchanged, result
`l2cacheHitTime`) exactly when the tag of `a` is among the `A` most recently
accessed distinct tags of its set; a miss returns `l2cacheHitTime + memspeed` and
increments `l2cacheMisses`.  The hit flag is that of the reference LRU list of
capacity `A`, which holds those `A` tags, and afterwards every set holds exactly
the tags of its reference list. -/
theorem l2_true_lru (cfg : Config) (hb : cfg.Bits32) (h0 : cfg.l2cacheSets ≠ 0)
    (hv : LevelValid cfg.l2cacheSets cfg.l2cacheAssoc) (s0 : State)
    (hinit : init_cache cfg = some s0)
    (_hshift : s0.i_setIndex_bits + s0.blockOffset_bits < 32 ∧
      s0.d_setIndex_bits + s0.blockOffset_bits < 32 ∧
      s0.l2_setIndex_bits + s0.blockOffset_bits < 32)
    (pre : List Nat) (hpre : ∀ x ∈ pre, x < 2 ^ 32)
    (a : Nat) (ha : a < 2 ^ 32) :
    ∃ s r s1, l2run cfg s0 pre = some s ∧ l2cache_access cfg s a = some (r, s1) ∧
      ((r = cfg.l2cacheHitTime ∧ s1.l2cacheMisses = s.l2cacheMisses) ↔
        l2Tag s0 a ∈
          (recentDistinct (setTags s0 (l2Index s0 a) pre).reverse).take cfg.l2cacheAssoc) ∧
      (l2Tag s0 a ∉
          (recentDistinct (setTags s0 (l2Index s0 a) pre).reverse).take cfg.l2cacheAssoc →
        r = (cfg.l2cacheHitTime + cfg.memspeed) % 2 ^ 32 ∧
        s1.l2cacheMisses = (s.l2cacheMisses + 1) % 2 ^ 64) ∧
      ((r = cfg.l2cacheHitTime ∧ s1.l2cacheMisses = s.l2cacheMisses) ↔
        (lruRefAccess cfg.l2cacheAssoc
          (lruRefList cfg.l2cacheAssoc (setTags s0 (l2Index s0 a) pre)) (l2Tag s0 a)).1 = true) ∧
      (∀ i, lruRefList cfg.l2cacheAssoc (setTags s0 i (pre ++ [a]))
        = (recentDistinct (setTags s0 i (pre ++ [a])).reverse).take cfg.l2cacheAssoc) ∧
      (∀ (i : Nat) (row : List cacheBlock), s1.l2cache[i]? = some row →
        ∀ t, Holds row t ↔ t ∈ lruRefList cfg.l2cacheAssoc (setTags s0 i (pre ++ [a]))) := by
  have hs0 := init_shape cfg s0 hb hinit
  obtain ⟨_, _, hA1⟩ := level_geom _ _ _ _ hv h0 (hs0.l2_bits h0) hs0.l2_mask
  obtain ⟨s, r, s1, hrun, hacc, hhit, hmiss, hs1, hm1⟩ :=
    l2_lru_char cfg hb hv h0 s0 hinit pre hpre a ha
  rw [lruRefList_eq _ hA1] at hhit hmiss
  have hiff : (r = cfg.l2cacheHitTime ∧ s1.l2cacheMisses = s.l2cacheMisses) ↔
      l2Tag s0 a ∈
        (recentDistinct (setTags s0 (l2Index s0 a) pre).reverse).take cfg.l2cacheAssoc := by
    constructor
    · rintro ⟨_, hsame⟩
      by_contra hn
      have h2 := (hmiss hn).2
      rw [hsame] at h2
      omega
    · exact hhit
  refine ⟨s, r, s1, hrun, hacc, hiff, hmiss, ?_, fun i => lruRefList_eq _ hA1 _, ?_⟩
  · rw [hiff, lruRefList_eq _ hA1]
    unfold lruRefAccess
    split_ifs with h
    · simp [h]
    · simp [h]
  · intro i row hrow t
    exact model_holds cfg s1 _ hs1 hm1 i row hrow t

/-- Witness for C4: the L2 of the spec scenario, accesses 0x00, 0x04, then 0x00
again, which hits. -/
theorem l2_true_lru_witness :
    ∃ s r s1, l2run scenarioCfg scenarioInit [0x00, 0x04] = some s ∧
      l2cache_access scenarioCfg s 0x00 = some (r, s1) ∧
      r = scenarioCfg.l2cacheHitTime ∧ s1.l2cacheMisses = s.l2cacheMisses := by
  obtain ⟨s, r, s1, hrun, hacc, hiff, _⟩ :=
    l2_true_lru scenarioCfg scenarioCfg_valid.1 (by decide) scenarioCfg_valid.2.2.2.2
      scenarioInit rfl ⟨by decide, by decide, by decide⟩ [0x00, 0x04] (by decide) 0x00
      (by decide)
  exact ⟨s, r, s1, hrun, hacc, (hiff.2 (by decide)).1, (hiff.2 (by decide)).2⟩

/-- C5. LRU thrashing: for every associativity `A ≥ 1` and every `A + 1` 32-bit
addresses `ts` with pairwise distinct tags that all map to one L2 set, after the
first `n` accesses of the cyclic pattern `t0, t1, …, tA, t0, …` from the initial
state, the next access of the pattern is a miss: `l2cacheMisses` is incremented and
the call returns `l2cacheHitTime + memspeed`.  This holds for every `n`, so in
particular for every access after the first full cycle. -/
theorem l2_lru_thrashing (cfg : Config) (hb : cfg.Bits32) (h0 : cfg.l2cacheSets ≠ 0)
    (hv : LevelValid cfg.l2cacheSets cfg.l2cacheAssoc) (s0 : State)
    (hinit : init_cache cfg = some s0) (ts : List Nat)
    (hlen : ts.length = cfg.l2cacheAssoc + 1) (hlt : ∀ x ∈ ts, x < 2 ^ 32)
    (hset : ∀ x ∈ ts, ∀ y ∈ ts, l2Index s0 x = l2Index s0 y)
    (htags : (ts.map (l2Tag s0)).Nodup) (n : Nat) :
    ∃ s r s1, l2run cfg s0 (cyclic ts n) = some s ∧
      l2cache_access cfg s (ts.getD (n % ts.length) 0) = some (r, s1) ∧
      r = (cfg.l2cacheHitTime + cfg.memspeed) % 2 ^ 32 ∧
      s1.l2cacheMisses = (s.l2cacheMisses + 1) % 2 ^ 64 := by
  have hs0 := init_shape cfg s0 hb hinit
  obtain ⟨_, _, hA1⟩ := level_geom _ _ _ _ hv h0 (hs0.l2_bits h0) hs0.l2_mask
  have hpos : 0 < ts.length := by omega
  have hidx : ∀ i, i % ts.length < ts.length := fun i => Nat.mod_lt _ hpos
  have hmem : ∀ i, ts.getD (i % ts.length) 0 ∈ ts := by
    intro i
    rw [List.getD_eq_getElem _ _ (hidx i)]
    exact List.getElem_mem (hidx i)
  obtain ⟨s, r, s1, hrun, hacc, _, hmiss, _, _⟩ :=
    l2_lru_char cfg hb hv h0 s0 hinit (cyclic ts n) (cyclic_lt ts hlt n)
      (ts.getD (n % ts.length) 0) (hlt _ (hmem n))
  refine ⟨s, r, s1, hrun, hacc, hmiss ?_⟩
  -- the tag is not among the `A` most recent distinct tags of the set
  have hwin : ∀ i j, i < j → j < i + ts.length →
      l2Tag s0 (ts.getD (i % ts.length) 0) ≠ l2Tag s0 (ts.getD (j % ts.length) 0) := by
    intro i j hij hj e
    have hne := mod_window ts.length i j hij hj
    rw [List.getD_eq_getElem _ _ (hidx i), List.getD_eq_getElem _ _ (hidx j)] at e
    have hi' : i % ts.length < (ts.map (l2Tag s0)).length := by simpa using hidx i
    have hj' : j % ts.length < (ts.map (l2Tag s0)).length := by simpa using hidx j
    have e' : (ts.map (l2Tag s0))[i % ts.length] = (ts.map (l2Tag s0))[j % ts.length] := by
      simpa using e
    exact hne ((htags.getElem_inj_iff).1 e')
  rw [lruRefList_eq _ hA1,
    setTags_cyclic s0 _ ts (fun x hx => hset x hx _ (hmem n)) hpos n,
    recent_take_of_nodup _ _
      (nodup_take_backwards _ ts.length hwin n cfg.l2cacheAssoc (by omega))]
  intro hm
  obtain ⟨j, h1, h2, h3⟩ := mem_take_backwards _ n cfg.l2cacheAssoc _ hm
  exact hwin j n h1 (by omega) h3.symm

/-- Witness for C5: the L2 of the spec scenario (associativity 2) and the three
addresses 0x00, 0x04, 0x08, after four accesses of the cyclic pattern. -/
theorem l2_lru_thrashing_witness :
    ∃ s r s1, l2run scenarioCfg scenarioInit (cyclic [0x00, 0x04, 0x08] 4) = some s ∧
      l2cache_access scenarioCfg s ([0x00, 0x04, 0x08].getD (4 % [0x00, 0x04, 0x08].length) 0)
        = some (r, s1) ∧
      r = (scenarioCfg.l2cacheHitTime + scenarioCfg.memspeed) % 2 ^ 32 ∧
      s1.l2cacheMisses = (s.l2cacheMisses + 1) % 2 ^ 64 :=
  l2_lru_thrashing scenarioCfg scenarioCfg_valid.1 (by decide) scenarioCfg_valid.2.2.2.2
    scenarioInit rfl [0x00, 0x04, 0x08] rfl (by decide) (by decide) (by decide) 4

/-- C6. A disabled level is a pure pass-through.  If `icacheSets = 0`, then
`icache_access` is `l2cache_access` on every state and address (same value, same
resulting state), and `icacheRefs`, `icacheMisses`, `icachePenalties` are 0 in every
reachable state; symmetrically for `dcacheSets = 0` and `dcache_access`; and if
`l2cacheSets = 0`, then `l2cache_access` returns `memspeed` and the unchanged state,
and `l2cacheRefs`, `l2cacheMisses`, `l2cachePenalties` are 0 in every reachable
state. -/
theorem disabled_level_passthrough (cfg : Config) (hb : cfg.Bits32) :
    (cfg.icacheSets = 0 →
      (∀ s a, icache_access cfg s a = l2cache_access cfg s a) ∧
      (∀ s, Reachable cfg s →
        s.icacheRefs = 0 ∧ s.icacheMisses = 0 ∧ s.icachePenalties = 0)) ∧
    (cfg.dcacheSets = 0 →
      (∀ s a, dcache_access cfg s a = l2cache_access cfg s a) ∧
      (∀ s, Reachable cfg s →
        s.dcacheRefs = 0 ∧ s.dcacheMisses = 0 ∧ s.dcachePenalties = 0)) ∧
    (cfg.l2cacheSets = 0 →
      (∀ s a, l2cache_access cfg s a = some (cfg.memspeed, s)) ∧
      (∀ s, Reachable cfg s →
        s.l2cacheRefs = 0 ∧ s.l2cacheMisses = 0 ∧ s.l2cachePenalties = 0)) :=
  ⟨fun h => ⟨fun s a => icache_access_disabled cfg s a h,
      fun s hr => (reachable_disabled_stats cfg hb s hr).1 h⟩,
   fun h => ⟨fun s a => dcache_access_disabled cfg s a h,
      fun s hr => (reachable_disabled_stats cfg hb s hr).2.1 h⟩,
   fun h => ⟨fun s a => l2cache_access_disabled cfg s a h,
      fun s hr => (reachable_disabled_stats cfg hb s hr).2.2 h⟩⟩

/-- Witness for C6: a configuration with the I-cache and L2 disabled, after an
instruction access and two data accesses. -/
theorem disabled_level_passthrough_witness :
    ∃ s0 rs s, init_cache bypassCfg = some s0 ∧
      run bypassCfg s0 [Access.instr 0x00, Access.data 0x04, Access.data 0x04] = some (rs, s) ∧
      rs = [100, 101, 1] ∧
      (s.icacheRefs = 0 ∧ s.icacheMisses = 0 ∧ s.icachePenalties = 0) ∧
      (s.l2cacheRefs = 0 ∧ s.l2cacheMisses = 0 ∧ s.l2cachePenalties = 0) :=
  ⟨_, _, _, rfl, rfl, rfl,
    ((disabled_level_passthrough bypassCfg (by unfold Config.Bits32; decide)).1 rfl).2 _
      (reachable_of_run bypassCfg
        [Access.instr 0x00, Access.data 0x04, Access.data 0x04] _ _ _
        (Reachable.init _ rfl) (by decide) rfl),
    ((disabled_level_passthrough bypassCfg (by unfold Config.Bits32; decide)).2.2 rfl).2 _
      (reachable_of_run bypassCfg
        [Access.instr 0x00, Access.data 0x04, Access.data 0x04] _ _ _
        (Reachable.init _ rfl) (by decide) rfl)⟩

/-- C7. Latency composition: with all three levels enabled and validly configured
(and the shift amounts `setIndexBits + blockOffsetBits` below 32, where C defines
the shifts), in every reachable state and for every 32-bit address,
`icache_access` returns
`icacheHitTime` on an I-cache hit, `icacheHitTime + l2cacheHitTime` when the I-cache
misses and L2 hits, and `icacheHitTime + l2cacheHitTime + memspeed` when both miss
(modulo `2^32`); on an I-cache miss `icacheMisses` grows by 1 and `icachePenalties`
by the value L2 returned.  The same holds for `dcache_access`. -/
theorem latency_composition (cfg : Config) (hv : cfg.Valid) (hen : cfg.AllEnabled)
    (s : State) (hr : Reachable cfg s)
    (_hshift : s.i_setIndex_bits + s.blockOffset_bits < 32 ∧
      s.d_setIndex_bits + s.blockOffset_bits < 32 ∧
      s.l2_setIndex_bits + s.blockOffset_bits < 32)
    (addr : Nat) (_ha : addr < 2 ^ 32) :
    (∃ r s1, icache_access cfg s addr = some (r, s1) ∧
      (IHit s addr → r = cfg.icacheHitTime ∧ s1.icacheMisses = s.icacheMisses ∧
        s1.icachePenalties = s.icachePenalties) ∧
      (¬ IHit s addr → L2Hit s addr →
        r = (cfg.icacheHitTime + cfg.l2cacheHitTime) % 2 ^ 32 ∧
        s1.icacheMisses = (s.icacheMisses + 1) % 2 ^ 64 ∧
        s1.icachePenalties = (s.icachePenalties + cfg.l2cacheHitTime) % 2 ^ 64) ∧
      (¬ IHit s addr → ¬ L2Hit s addr →
        r = (cfg.icacheHitTime + cfg.l2cacheHitTime + cfg.memspeed) % 2 ^ 32 ∧
        s1.icacheMisses = (s.icacheMisses + 1) % 2 ^ 64 ∧
        s1.icachePenalties
          = (s.icachePenalties + (cfg.l2cacheHitTime + cfg.memspeed) % 2 ^ 32) % 2 ^ 64)) ∧
    (∃ r s1, dcache_access cfg s addr = some (r, s1) ∧
      (DHit s addr → r = cfg.dcacheHitTime ∧ s1.dcacheMisses = s.dcacheMisses ∧
        s1.dcachePenalties = s.dcachePenalties) ∧
      (¬ DHit s addr → L2Hit s addr →
        r = (cfg.dcacheHitTime + cfg.l2cacheHitTime) % 2 ^ 32 ∧
        s1.dcacheMisses = (s.dcacheMisses + 1) % 2 ^ 64 ∧
        s1.dcachePenalties = (s.dcachePenalties + cfg.l2cacheHitTime) % 2 ^ 64) ∧
      (¬ DHit s addr → ¬ L2Hit s addr →
        r = (cfg.dcacheHitTime + cfg.l2cacheHitTime + cfg.memspeed) % 2 ^ 32 ∧
        s1.dcacheMisses = (s.dcacheMisses + 1) % 2 ^ 64 ∧
        s1.dcachePenalties
          = (s.dcachePenalties + (cfg.l2cacheHitTime + cfg.memspeed) % 2 ^ 32) % 2 ^ 64)) :=
  ⟨icache_access_latency cfg s addr (reachable_shape cfg hv.1 s hr) hen.1 hen.2.2,
   dcache_access_latency cfg s addr (reachable_shape cfg hv.1 s hr) hen.2.1 hen.2.2⟩

/-- Witness for C7: the spec scenario, a first instruction access of 0x00, which
misses in the I-cache and in L2 and takes 1 + 10 + 100 cycles. -/
theorem latency_composition_witness :
    ∃ r s1, icache_access scenarioCfg scenarioInit 0x00 = some (r, s1) ∧ r = 111 ∧
      (¬ IHit scenarioInit 0x00 → ¬ L2Hit scenarioInit 0x00 →
        r = (scenarioCfg.icacheHitTime + scenarioCfg.l2cacheHitTime + scenarioCfg.memspeed)
              % 2 ^ 32 ∧
        s1.icacheMisses = (scenarioInit.icacheMisses + 1) % 2 ^ 64 ∧
        s1.icachePenalties = (scenarioInit.icachePenalties
          + (scenarioCfg.l2cacheHitTime + scenarioCfg.memspeed) % 2 ^ 32) % 2 ^ 64) := by
  obtain ⟨⟨r, s1, hacc, _, _, h3⟩, _⟩ :=
    latency_composition scenarioCfg scenarioCfg_valid ⟨by decide, by decide, by decide⟩
      scenarioInit (Reachable.init _ rfl) ⟨by decide, by decide, by decide⟩ 0x00 (by decide)
  have e : icache_access scenarioCfg scenarioInit 0x00 = some (111, _) := rfl
  rw [e] at hacc
  cases hacc
  exact ⟨_, _, e, rfl, h3⟩

/-- C8 as stated fails: in the spec scenario the three instruction accesses 0x00,
0x04, 0x00 do not return 101, 101 and 1. -/
theorem scenario_latency_not_101 :
    ¬ ∃ s0 s, init_cache scenarioCfg = some s0 ∧
      run scenarioCfg s0 [Access.instr 0x00, Access.instr 0x04, Access.instr 0x00]
        = some ([101, 101, 1], s) := by
  rintro ⟨s0, s, h0, h⟩
  have key : ((init_cache scenarioCfg).bind (fun s0 =>
      run scenarioCfg s0 [Access.instr 0x00, Access.instr 0x04, Access.instr 0x00])).map
      Prod.fst = some [111, 111, 1] := rfl
  rw [h0] at key
  simp only [Option.some_bind, h, Option.map_some'] at key
  exact absurd key (by decide)

/-- C8, amended.  In the spec scenario (every level 1 set of associativity 2, block
size 4, hit times 1 / 1 / 10, memory latency 100, not inclusive) the instruction
accesses 0x00, 0x04, 0x00 return 111, 111 and 1: the two misses also miss in the
enabled L2 and cost 1 + 10 + 100; they fill the only I-cache set with tags 0 and 1,
and the third access hits (`icacheMisses = 2`, `icacheRefs = 3`). -/
theorem scenario_latency :
    ∃ s0 s, init_cache scenarioCfg = some s0 ∧
      run scenarioCfg s0 [Access.instr 0x00, Access.instr 0x04, Access.instr 0x00]
        = some ([111, 111, 1], s) ∧
      s.icacheMisses = 2 ∧ s.icacheRefs = 3 ∧
      s.icache = [[{ valid := true, LRU_val := 0, tag := 0 },
                   { valid := true, LRU_val := 1, tag := 1 }]] :=
  ⟨_, _, rfl, rfl, rfl, rfl, rfl⟩

/-- C9 as stated fails: `invalidCfg` has set counts and a block size that are not
powers of two, an enabled level of associativity 0 and hit times and memory latency
0, and `init_cache` builds a state for it. -/
theorem init_cache_accepts_invalid :
    invalidCfg.Bits32 ∧ invalidCfg.Rejectable ∧
      ∃ s, init_cache invalidCfg = some s ∧ s.icache = [[], [], []] ∧
        s.blockOffset_bits = 3 ∧ s.l2cache.length = 5 :=
  ⟨by unfold Config.Bits32; decide, Or.inr (Or.inr (Or.inr (Or.inr (Or.inl ⟨by decide, rfl⟩)))),
    _, rfl, rfl, rfl, rfl⟩

/-- C9, amended.  The function `init_cache` validates nothing and reports no failure: for
every configuration of 32-bit values with `blocksize ≥ 1` it returns and builds
the hierarchy with the configured dimensions, whether or not the sizes are powers
of two, the associativities positive, or the hit times and memory latency
nonzero. -/
theorem init_cache_no_validation (cfg : Config) (hb : cfg.Bits32) (h0 : 0 < cfg.blocksize) :
    ∃ s, init_cache cfg = some s ∧ Shape cfg s := by
  obtain ⟨s, hs⟩ := init_cache_isSome cfg hb h0
  exact ⟨s, hs, init_shape cfg s hb hs⟩

/-- Witness for C9 (amended): the invalid configuration `invalidCfg`. -/
theorem init_cache_no_validation_witness :
    invalidCfg.Rejectable ∧ ∃ s, init_cache invalidCfg = some s ∧ Shape invalidCfg s :=
  ⟨Or.inr (Or.inr (Or.inr (Or.inr (Or.inl ⟨by decide, rfl⟩)))),
    init_cache_no_validation invalidCfg (by unfold Config.Bits32; decide) (by decide)⟩

/-- C10. Accesses cannot fault: for every valid configuration, every reachable state
and every 32-bit address (with the shift amounts `setIndexBits + blockOffsetBits`
below 32, where C defines the shifts), the set index computed by `icache_access`,
`dcache_access`, `l2cache_access` and by `evict_L1` is below the set count of the
level, every array has its allocated dimensions (every set has `assoc` ways, so
the way indices `j < assoc` are in bounds), and each of the four functions
returns. -/
theorem access_cannot_fault (cfg : Config) (hv : cfg.Valid) (s : State)
    (hr : Reachable cfg s)
    (_hshift : s.i_setIndex_bits + s.blockOffset_bits < 32 ∧
      s.d_setIndex_bits + s.blockOffset_bits < 32 ∧
      s.l2_setIndex_bits + s.blockOffset_bits < 32)
    (addr : Nat) (_ha : addr < 2 ^ 32) :
    (cfg.icacheSets ≠ 0 → iIndex s addr < cfg.icacheSets) ∧
    (cfg.dcacheSets ≠ 0 → dIndex s addr < cfg.dcacheSets) ∧
    (cfg.l2cacheSets ≠ 0 → l2Index s addr < cfg.l2cacheSets) ∧
    (∀ T S, (cfg.icacheSets ≠ 0 →
        evictOrigin s T S &&& s.i_setIndex_mask < cfg.icacheSets) ∧
      (cfg.dcacheSets ≠ 0 → evictOrigin s T S &&& s.d_setIndex_mask < cfg.dcacheSets)) ∧
    Shape cfg s ∧
    (∃ r s1, icache_access cfg s addr = some (r, s1)) ∧
    (∃ r s1, dcache_access cfg s addr = some (r, s1)) ∧
    (∃ r s1, l2cache_access cfg s addr = some (r, s1)) ∧
    (∀ T S, ∃ s1, evict_L1 cfg s T S = some s1) := by
  have hs := reachable_shape cfg hv.1 s hr
  refine ⟨?_, ?_, ?_, ?_, hs, ?_, ?_, ?_, ?_⟩
  · intro h; unfold iIndex; rw [hs.i_mask]; exact and_mask_lt _ _ h
  · intro h; unfold dIndex; rw [hs.d_mask]; exact and_mask_lt _ _ h
  · intro h; unfold l2Index; rw [hs.l2_mask]; exact and_mask_lt _ _ h
  · intro T S
    exact ⟨fun h => by rw [hs.i_mask]; exact and_mask_lt _ _ h,
      fun h => by rw [hs.d_mask]; exact and_mask_lt _ _ h⟩
  · obtain ⟨r, s1, h, _⟩ := icache_access_total cfg s addr hs
    exact ⟨r, s1, h⟩
  · obtain ⟨r, s1, h, _⟩ := dcache_access_total cfg s addr hs
    exact ⟨r, s1, h⟩
  · obtain ⟨r, s1, h, _⟩ := l2cache_access_total cfg s addr hs
    exact ⟨r, s1, h⟩
  · intro T S
    obtain ⟨s1, h, _⟩ := evict_L1_spec cfg s T S hs
    exact ⟨s1, h⟩

/-- Witness for C10: the inclusive configuration `evictCfg`, in the state after the
instruction accesses 0x00, 0x10, 0x04, 0x08, for the address `0xFFFFFFFF`. -/
theorem access_cannot_fault_witness :
    (∃ r s1, icache_access evictCfg evictState 0xFFFFFFFF = some (r, s1)) ∧
    (∃ r s1, dcache_access evictCfg evictState 0xFFFFFFFF = some (r, s1)) ∧
    (∃ r s1, l2cache_access evictCfg evictState 0xFFFFFFFF = some (r, s1)) ∧
    (∀ T S, ∃ s1, evict_L1 evictCfg evictState T S = some s1) :=
  (access_cannot_fault evictCfg evictCfg_valid evictState
    (reachable_of_run evictCfg
      [Access.instr 0x00, Access.instr 0x10, Access.instr 0x04, Access.instr 0x08] _ _
      evictState (Reachable.init _ rfl) (by decide) rfl)
    ⟨by decide, by decide, by decide⟩ 0xFFFFFFFF (by decide)).2.2.2.2.2

/-! ## Lemmas for the frame, invalidation, insertion and statistics claims -/

theorem scenarioInit_shape : Shape scenarioCfg scenarioInit :=
  ⟨rfl, rfl, by decide, rfl, rfl, fun _ => rfl, rfl, by decide, rfl, rfl, fun _ => rfl,
    rfl, by decide, rfl, rfl, fun _ => rfl⟩

theorem evictState_shape : Shape evictCfg evictState :=
  ⟨rfl, rfl, by decide, rfl, rfl, fun _ => rfl, rfl, by decide, rfl, rfl, fun _ => rfl,
    rfl, by decide, rfl, rfl, fun _ => rfl⟩

theorem matchState_shape : Shape evictCfg matchState :=
  ⟨rfl, rfl, by decide, rfl, rfl, fun _ => rfl, rfl, by decide, rfl, rfl, fun _ => rfl,
    rfl, by decide, rfl, rfl, fun _ => rfl⟩

theorem INTlog2Loop_floor :
    ∀ (fuel n cnt : Nat), 1 ≤ n → n < 2 ^ fuel →
      ∃ c, INTlog2Loop fuel n cnt = some (cnt + c) ∧ 2 ^ c ≤ n ∧ n < 2 ^ (c + 1) := by
  intro fuel
  induction fuel with
  | zero => intro n cnt h1 h2; simp at h2; omega
  | succ fuel ih =>
    intro n cnt h1 h2
    by_cases hn : n = 1
    · refine ⟨0, ?_, ?_, ?_⟩
      · simp [INTlog2Loop, hn]
      · simp [hn]
      · simp [hn]
    · have h3 : 1 ≤ n / 2 := by omega
      have h4 : n / 2 < 2 ^ fuel := by
        rw [pow_succ] at h2
        omega
      obtain ⟨c, hc, hlo, hhi⟩ := ih (n / 2) (cnt + 1) h3 h4
      refine ⟨c + 1, ?_, ?_, ?_⟩
      · simp only [INTlog2Loop, if_pos hn]
        rw [hc]
        congr 1
        omega
      · rw [pow_succ]; omega
      · rw [pow_succ]
        rw [pow_succ] at hhi
        omega

theorem log_unique (n c c1 : Nat) (h1 : 2 ^ c ≤ n) (h2 : n < 2 ^ (c + 1))
    (h3 : 2 ^ c1 ≤ n) (h4 : n < 2 ^ (c1 + 1)) : c1 = c := by
  have a1 : 2 ^ c < 2 ^ (c1 + 1) := lt_of_le_of_lt h1 h4
  have a2 : 2 ^ c1 < 2 ^ (c + 1) := lt_of_le_of_lt h3 h2
  have b1 := (Nat.pow_lt_pow_iff_right (by norm_num : 1 < 2)).mp a1
  have b2 := (Nat.pow_lt_pow_iff_right (by norm_num : 1 < 2)).mp a2
  omega

theorem init_geometry (cfg : Config) (hv : cfg.Valid) (s : State) (hinit : init_cache cfg = some s) :
    2 ^ s.blockOffset_bits = cfg.blocksize ∧
    (cfg.icacheSets ≠ 0 →
      2 ^ s.i_setIndex_bits = cfg.icacheSets ∧ cfg.icacheSets = s.i_setIndex_mask + 1) ∧
    (cfg.dcacheSets ≠ 0 →
      2 ^ s.d_setIndex_bits = cfg.dcacheSets ∧ cfg.dcacheSets = s.d_setIndex_mask + 1) ∧
    (cfg.l2cacheSets ≠ 0 →
      2 ^ s.l2_setIndex_bits = cfg.l2cacheSets ∧ cfg.l2cacheSets = s.l2_setIndex_mask + 1) := by
  have hs := init_shape cfg s hv.1 hinit
  obtain ⟨hb, ⟨k, hk, hbs⟩, hi, hd, hl⟩ := hv
  refine ⟨?_, ?_, ?_, ?_⟩
  · have h1 := hs.bo_bits
    rw [hbs, INTlog2_pow2 k hk] at h1
    injection h1 with h1
    rw [← h1, hbs]
  · intro h0
    obtain ⟨g1, g2, _⟩ := level_geom _ _ _ _ hi h0 (hs.i_bits h0) hs.i_mask
    have hp : 0 < 2 ^ s.i_setIndex_bits := Nat.pow_pos (by norm_num)
    exact ⟨g1.symm, by rw [g2, g1]; omega⟩
  · intro h0
    obtain ⟨g1, g2, _⟩ := level_geom _ _ _ _ hd h0 (hs.d_bits h0) hs.d_mask
    have hp : 0 < 2 ^ s.d_setIndex_bits := Nat.pow_pos (by norm_num)
    exact ⟨g1.symm, by rw [g2, g1]; omega⟩
  · intro h0
    obtain ⟨g1, g2, _⟩ := level_geom _ _ _ _ hl h0 (hs.l2_bits h0) hs.l2_mask
    have hp : 0 < 2 ^ s.l2_setIndex_bits := Nat.pow_pos (by norm_num)
    exact ⟨g1.symm, by rw [g2, g1]; omega⟩

theorem origin_round_trip (cfg : Config) (hv : cfg.Valid) (h0 : cfg.l2cacheSets ≠ 0) (s : State)
    (hs : Shape cfg s) (a : Nat) (ha : a < 2 ^ 32) :
    evictOrigin s (l2Tag s a) (l2Index s a) = a >>> s.blockOffset_bits ∧
    ((l2Tag s a) <<< s.l2_setIndex_bits) ||| (l2Index s a) = a >>> s.blockOffset_bits := by
  obtain ⟨_, g2, _⟩ := level_geom _ _ _ _ hv.2.2.2.2 h0 (hs.l2_bits h0) hs.l2_mask
  have hT : (a >>> s.blockOffset_bits) >>> s.l2_setIndex_bits = l2Tag s a := by
    rw [shiftRight_shiftRight]; rfl
  have hS : (a >>> s.blockOffset_bits) &&& (2 ^ s.l2_setIndex_bits - 1) = l2Index s a := by
    unfold l2Index; rw [g2]
  refine ⟨?_, ?_⟩
  · exact origin_eq _ _ _ _ hS hT (tag_shift_lt a _ _ ha)
  · rw [← hT, ← hS]
    exact split_or _ _

theorem forLoop_rel {σ : Type} (body : Nat → σ → Option σ) (R : σ → σ → Prop)
    (hrefl : ∀ st, R st st) (htrans : ∀ a b c, R a b → R b c → R a c)
    (hbody : ∀ j st st1, body j st = some st1 → R st st1) :
    ∀ (n j : Nat) (st st1 : σ), forLoop body n j st = some st1 → R st st1 := by
  intro n
  induction n with
  | zero =>
    intro j st st1 h
    simp [forLoop] at h
    subst h
    exact hrefl _
  | succ n ih =>
    intro j st st1 h
    cases hb : body j st with
    | none => simp [forLoop, hb] at h
    | some st2 =>
      rw [forLoop_succ body n j st st2 hb] at h
      exact htrans _ _ _ (hbody j st st2 hb) (ih _ _ _ h)

/-- Without inclusion the body of the replacement loop writes nothing of L1. -/
theorem l2replaceBody_noninclusive (cfg : Config) (tag idx j : Nat) (s s1 : State)
    (hinc : TRUE ≠ cfg.inclusive) (h : l2replaceBody cfg tag idx j s = some s1) :
    s1.icache = s.icache ∧ s1.dcache = s.dcache ∧
    s1.icache_set_avail = s.icache_set_avail ∧ s1.dcache_set_avail = s.dcache_set_avail := by
  unfold l2replaceBody at h
  simp only [if_neg hinc] at h
  split at h
  · simp at h
  · split at h
    · simp at h
    · split at h
      · simp only [Option.some.injEq] at h
        subst h
        exact ⟨rfl, rfl, rfl, rfl⟩
      · split at h
        · simp at h
        · split at h
          · simp at h
          · simp only [Option.some.injEq] at h
            subst h
            exact ⟨rfl, rfl, rfl, rfl⟩

theorem l2replaceLoop_noninclusive (cfg : Config) (tag idx : Nat) (hinc : TRUE ≠ cfg.inclusive)
    (n j : Nat) (s s1 : State) (h : forLoop (l2replaceBody cfg tag idx) n j s = some s1) :
    s1.icache = s.icache ∧ s1.dcache = s.dcache ∧
    s1.icache_set_avail = s.icache_set_avail ∧ s1.dcache_set_avail = s.dcache_set_avail := by
  refine forLoop_rel (l2replaceBody cfg tag idx)
    (fun s s1 => s1.icache = s.icache ∧ s1.dcache = s.dcache ∧
      s1.icache_set_avail = s.icache_set_avail ∧ s1.dcache_set_avail = s.dcache_set_avail)
    (fun _ => ⟨rfl, rfl, rfl, rfl⟩) ?_ ?_ n j s s1 h
  · rintro a b c ⟨h1, h2, h3, h4⟩ ⟨g1, g2, g3, g4⟩
    exact ⟨g1.trans h1, g2.trans h2, g3.trans h3, g4.trans h4⟩
  · intro j st st1 hb
    exact l2replaceBody_noninclusive cfg tag idx j st st1 hinc hb

theorem l2cache_access_noninclusive (cfg : Config) (s : State) (addr r : Nat) (s1 : State)
    (hinc : TRUE ≠ cfg.inclusive) (h : l2cache_access cfg s addr = some (r, s1)) :
    s1.icache = s.icache ∧ s1.dcache = s.dcache ∧
    s1.icache_set_avail = s.icache_set_avail ∧ s1.dcache_set_avail = s.dcache_set_avail := by
  unfold l2cache_access at h
  split at h
  · simp only [Option.some.injEq, Prod.mk.injEq] at h
    obtain ⟨_, h⟩ := h
    subst h
    exact ⟨rfl, rfl, rfl, rfl⟩
  · simp only at h
    split at h
    · simp at h
    · split at h
      · simp at h
      · simp only [Option.some.injEq, Prod.mk.injEq] at h
        obtain ⟨_, h⟩ := h
        subst h
        exact ⟨rfl, rfl, rfl, rfl⟩
      · split at h
        · simp at h
        · split at h
          · split at h
            · simp at h
            · simp only [Option.some.injEq, Prod.mk.injEq] at h
              obtain ⟨_, h⟩ := h
              subst h
              exact ⟨rfl, rfl, rfl, rfl⟩
          · split at h
            · simp at h
            · rename_i s4 hloop
              simp only [Option.some.injEq, Prod.mk.injEq] at h
              obtain ⟨_, h⟩ := h
              subst h
              have hl := l2replaceLoop_noninclusive cfg _ _ hinc _ _ _ _ hloop
              exact hl

theorem pump_step10 (a : Nat) (c : State) :
    ∃ r s1, step evictCfg (pumpState false a c) (Access.data 0x10) = some (r, s1) ∧
      s1 = pumpState true ((a + 1) % 2 ^ 32) s1 := by
  have e1 : 4 &&& 3 = 0 := by decide
  simp [step, dcache_access, l2cache_access, evict_L1, pumpState, evictLevel, forLoop, evictBody,
    evictInner, evictCfg, lookupLoop, touchBody, allocBody, l2replaceBody, replaceBody, TRUE,
    emptyBlock, e1]
  exact ⟨_, _, ⟨rfl, rfl⟩, rfl⟩

theorem pump_step00 (a : Nat) (c : State) :
    ∃ r s1, step evictCfg (pumpState true a c) (Access.data 0x00) = some (r, s1) ∧
      s1 = pumpState false ((a + 1) % 2 ^ 32) s1 := by
  have e1 : 4 &&& 3 = 0 := by decide
  simp [step, dcache_access, l2cache_access, evict_L1, pumpState, evictLevel, forLoop, evictBody,
    evictInner, evictCfg, lookupLoop, touchBody, allocBody, l2replaceBody, replaceBody, TRUE,
    emptyBlock, e1]
  exact ⟨_, _, ⟨rfl, rfl⟩, rfl⟩

theorem pump_final (c : State) :
    ∃ r s1, step evictCfg (pumpState true (2 ^ 32 - 1) c) (Access.instr 0x00) = some (r, s1) ∧
      s1.icache = [[{ valid := true, LRU_val := 0, tag := 0 },
                    { valid := true, LRU_val := 0, tag := 0 }]] := by
  have e1 : 4 &&& 3 = 0 := by decide
  simp [step, icache_access, l2cache_access, evict_L1, pumpState, evictLevel, forLoop, evictBody,
    evictInner, evictCfg, lookupLoop, touchBody, allocBody, l2replaceBody, replaceBody, TRUE,
    emptyBlock, e1]
  exact ⟨_, _, ⟨rfl, rfl⟩, rfl⟩

theorem run_cons_some (cfg : Config) (s s1 s2 : State) (c : Access) (cs : List Access)
    (r : Nat) (rs : List Nat) (h1 : step cfg s c = some (r, s1))
    (h2 : run cfg s1 cs = some (rs, s2)) : run cfg s (c :: cs) = some (r :: rs, s2) := by
  simp only [run, h1, h2]

theorem run_append_some (cfg : Config) :
    ∀ (l1 l2 : List Access) (s s1 s2 : State) (rs1 rs2 : List Nat),
      run cfg s l1 = some (rs1, s1) → run cfg s1 l2 = some (rs2, s2) →
      run cfg s (l1 ++ l2) = some (rs1 ++ rs2, s2) := by
  intro l1
  induction l1 with
  | nil =>
    intro l2 s s1 s2 rs1 rs2 h1 h2
    simp only [run, Option.some.injEq, Prod.mk.injEq] at h1
    rw [← h1.1, h1.2]
    simpa using h2
  | cons c l1 ih =>
    intro l2 s s1 s2 rs1 rs2 h1 h2
    cases hstep : step cfg s c with
    | none => simp [run, hstep] at h1
    | some p =>
      obtain ⟨r, sa⟩ := p
      cases hr : run cfg sa l1 with
      | none => simp [run, hstep, hr] at h1
      | some q =>
        obtain ⟨rsa, sb⟩ := q
        simp only [run, hstep, hr, Option.some.injEq, Prod.mk.injEq] at h1
        have h3 := ih l2 sa sb s2 rsa rs2 hr (by rw [h1.2]; exact h2)
        rw [List.cons_append, ← h1.1, List.cons_append]
        exact run_cons_some cfg s sa s2 c (l1 ++ l2) r (rsa ++ rs2) hstep h3

theorem pumpCalls_addr (n : Nat) : ∀ c ∈ pumpCalls n, c.addr < 2 ^ 32 := by
  induction n with
  | zero => intro c hc; cases hc
  | succ n ih =>
    intro c hc
    simp only [pumpCalls, List.mem_cons] at hc
    rcases hc with e | e | hc
    · rw [e]; decide
    · rw [e]; decide
    · exact ih c hc

theorem pump_run (n : Nat) :
    ∀ (a : Nat) (c : State),
      ∃ rs c1, run evictCfg (pumpState false (a % 2 ^ 32) c) (pumpCalls n)
        = some (rs, pumpState false ((a + 2 * n) % 2 ^ 32) c1) := by
  induction n with
  | zero => intro a c; exact ⟨[], c, rfl⟩
  | succ n ih =>
    intro a c
    obtain ⟨r1, s1, hstep1, hs1⟩ := pump_step10 (a % 2 ^ 32) c
    rw [hs1] at hstep1
    obtain ⟨r2, s2, hstep2, hs2⟩ := pump_step00 ((a % 2 ^ 32 + 1) % 2 ^ 32) s1
    have e : ((a % 2 ^ 32 + 1) % 2 ^ 32 + 1) % 2 ^ 32 = (a + 2) % 2 ^ 32 := by
      omega
    rw [hs2, e] at hstep2
    obtain ⟨rs, c1, hrun⟩ := ih (a + 2) s2
    have e2 : a + 2 + 2 * n = a + 2 * (n + 1) := by omega
    rw [e2] at hrun
    exact ⟨r1 :: r2 :: rs, c1,
      run_cons_some _ _ _ _ _ _ _ _ hstep1 (run_cons_some _ _ _ _ _ _ _ _ hstep2 hrun)⟩

theorem pump_dup (n : Nat) (hn : (4 + 2 * n) % 2 ^ 32 = 2 ^ 32 - 2) :
    ∃ s0 rs s, init_cache evictCfg = some s0 ∧
      run evictCfg s0 ([Access.data 0x00, Access.instr 0x10, Access.data 0x00]
        ++ (pumpCalls n ++ [Access.data 0x10, Access.instr 0x00])) = some (rs, s) ∧
      Reachable evictCfg s ∧
      s.icache = [[{ valid := true, LRU_val := 0, tag := 0 },
                   { valid := true, LRU_val := 0, tag := 0 }]] := by
  obtain ⟨s0, rs3, s3, h0, hrun3, hp⟩ : ∃ s0 rs s3, init_cache evictCfg = some s0 ∧
      run evictCfg s0 [Access.data 0x00, Access.instr 0x10, Access.data 0x00] = some (rs, s3) ∧
      s3 = pumpState false (4 % 2 ^ 32) s3 := ⟨_, _, _, rfl, rfl, rfl⟩
  obtain ⟨rsp, c1, hrunp⟩ := pump_run n 4 s3
  rw [← hp, hn] at hrunp
  obtain ⟨r4, s4, hstep4, hs4⟩ := pump_step10 (2 ^ 32 - 2) c1
  have e2 : (2 ^ 32 - 2 + 1) % 2 ^ 32 = 2 ^ 32 - 1 := by norm_num
  rw [e2] at hs4
  rw [hs4] at hstep4
  obtain ⟨r5, s5, hstep5, hs5⟩ := pump_final s4
  have hlast : run evictCfg (pumpState false (2 ^ 32 - 2) c1)
      [Access.data 0x10, Access.instr 0x00] = some ([r4, r5], s5) :=
    run_cons_some _ _ _ _ _ _ _ _ hstep4 (run_cons_some _ _ _ _ _ _ _ _ hstep5 rfl)
  have hall := run_append_some evictCfg _ _ _ _ _ _ _ hrun3
    (run_append_some evictCfg _ _ _ _ _ _ _ hrunp hlast)
  have hreach : Reachable evictCfg s5 := by
    refine reachable_of_run evictCfg _ s0 _ s5 (Reachable.init _ h0) ?_ hall
    have ha : ∀ c ∈ [Access.data 0x00, Access.instr 0x10, Access.data 0x00], c.addr < 2 ^ 32 := by
      decide
    have hb : ∀ c ∈ [Access.data 0x10, Access.instr 0x00], c.addr < 2 ^ 32 := by decide
    intro c hc
    rcases List.mem_append.1 hc with hc | hc
    · exact ha c hc
    · rcases List.mem_append.1 hc with hc | hc
      · exact pumpCalls_addr n c hc
      · exact hb c hc
  exact ⟨s0, _, s5, h0, hall, hreach, hs5⟩

theorem allocList_true (tag : Nat) (post : List cacheBlock) :
    allocList tag true post = post.map ageWay := by
  induction post with
  | nil => rfl
  | cons b rest ih => simp [allocList, ih]

theorem allocList_split (tag : Nat) (pre post : List cacheBlock) (b : cacheBlock)
    (hpre : ∀ x ∈ pre, x.valid = true) (hb : b.valid = false) :
    allocList tag false (pre ++ b :: post) = pre.map ageWay ++ newWay tag :: post.map ageWay := by
  induction pre with
  | nil => simp [allocList, hb, allocList_true]
  | cons x rest ih =>
    have hx : x.valid = true := hpre x (List.mem_cons_self _ _)
    have hrest : ∀ y ∈ rest, y.valid = true := fun y hy => hpre y (List.mem_cons_of_mem _ hy)
    simp [allocList, hx, ih hrest]

theorem first_invalid_split (row : List cacheBlock) (h : ∃ b ∈ row, b.valid = false) :
    ∃ pre b post, row = pre ++ b :: post ∧ (∀ x ∈ pre, x.valid = true) ∧ b.valid = false := by
  induction row with
  | nil => obtain ⟨b, hb, _⟩ := h; cases hb
  | cons x rest ih =>
    by_cases hx : x.valid = false
    · exact ⟨[], x, rest, rfl, fun y hy => absurd hy (List.not_mem_nil y), hx⟩
    · have hx1 : x.valid = true := by simpa using hx
      obtain ⟨b, hb, hv⟩ := h
      rcases List.mem_cons.1 hb with e | hb1
      · subst e; exact absurd hv hx
      · obtain ⟨pre, b1, post, e, hpre, hb1v⟩ := ih ⟨b, hb1, hv⟩
        refine ⟨x :: pre, b1, post, by rw [e]; rfl, ?_, hb1v⟩
        intro y hy
        rcases List.mem_cons.1 hy with e1 | hy1
        · subst e1; exact hx1
        · exact hpre y hy1

theorem allocAvail_of_invalid (row : List cacheBlock) (a : Nat) (h : ∃ b ∈ row, b.valid = false) :
    allocAvail false row a = (a + 2 ^ 32 - 1) % 2 ^ 32 := by
  unfold allocAvail
  rw [if_pos ⟨rfl, h⟩]

theorem not_holds_of_not_IHit (s : State) (addr : Nat) (row : List cacheBlock)
    (hrow : s.icache[iIndex s addr]? = some row) (h : ¬ IHit s addr) :
    ¬ Holds row (iTag s addr) := fun hh => h ⟨row, hrow, hh⟩

theorem not_holds_of_not_DHit (s : State) (addr : Nat) (row : List cacheBlock)
    (hrow : s.dcache[dIndex s addr]? = some row) (h : ¬ DHit s addr) :
    ¬ Holds row (dTag s addr) := fun hh => h ⟨row, hrow, hh⟩

theorem not_holds_of_not_L2Hit (s : State) (addr : Nat) (row : List cacheBlock)
    (hrow : s.l2cache[l2Index s addr]? = some row) (h : ¬ L2Hit s addr) :
    ¬ Holds row (l2Tag s addr) := fun hh => h ⟨row, hrow, hh⟩

theorem forLoop_add {σ : Type} (body : Nat → σ → Option σ) :
    ∀ (n m j : Nat) (st : σ),
      forLoop body (n + m) j st
        = match forLoop body n j st with
          | none => none
          | some st1 => forLoop body m (j + n) st1 := by
  intro n
  induction n with
  | zero => intro m j st; simp [forLoop]
  | succ n ih =>
    intro m j st
    have e : n + 1 + m = (n + m) + 1 := by omega
    rw [e]
    cases hb : body j st with
    | none => simp [forLoop, hb]
    | some st2 =>
      rw [forLoop_succ body _ j st st2 hb, forLoop_succ body _ j st st2 hb, ih]
      have e2 : j + 1 + n = j + (n + 1) := by omega
      rw [e2]

theorem evict_L1_l2cache (cfg : Config) (s sE : State) (T S : Nat)
    (h : evict_L1 cfg s T S = some sE) : sE.l2cache = s.l2cache := by
  unfold evict_L1 at h
  simp only at h
  split at h
  · simp at h
  · split at h
    · simp at h
    · simp only [Option.some.injEq] at h
      subst h
      rfl

theorem evict_L1_with_l2cache (cfg : Config) (s sE : State) (T S : Nat)
    (Z : List (List cacheBlock)) (h : evict_L1 cfg s T S = some sE) :
    evict_L1 cfg { s with l2cache := Z } T S = some { sE with l2cache := Z } := by
  unfold evict_L1 at h ⊢
  simp only at h ⊢
  split at h
  · simp at h
  · rename_i li hli
    split at h
    · simp at h
    · rename_i ld hld
      simp only [Option.some.injEq] at h
      subst h
      rfl

/-- The ways of `mid` only age when none of them has the oldest rank. -/
theorem l2replaceLoop_aging (cfg : Config) (tag idx : Nat) :
    ∀ (mid pre rest : List cacheBlock) (s : State),
      (∀ x ∈ mid, (cfg.l2cacheAssoc + 2 ^ 32 - 1) % 2 ^ 32 ≠ x.LRU_val) →
      s.l2cache[idx]? = some (pre ++ mid ++ rest) →
      forLoop (l2replaceBody cfg tag idx) mid.length pre.length s
        = some { s with l2cache := s.l2cache.set idx (pre ++ mid.map ageWay ++ rest) } := by
  intro mid
  induction mid with
  | nil =>
    intro pre rest s _ hrow
    simp only [List.length_nil, forLoop, List.map_nil, List.append_nil]
    simp only [List.append_nil] at hrow
    rw [set_self_of_getElem? _ _ _ hrow]
  | cons b mid ih =>
    intro pre rest s hmid hrow
    have hidx : idx < s.l2cache.length := getElem?_lt _ _ _ hrow
    have hrow1 : s.l2cache[idx]? = some (pre ++ b :: (mid ++ rest)) := by
      rw [hrow]; simp
    have hget : (pre ++ b :: (mid ++ rest))[pre.length]? = some b := getElem?_append_cons _ _ _
    have hlru := hmid b (List.mem_cons_self _ _)
    have hbody : l2replaceBody cfg tag idx pre.length s
        = some { s with l2cache := s.l2cache.set idx (pre ++ ageWay b :: (mid ++ rest)) } := by
      unfold l2replaceBody
      simp only [hrow1, hget, ne_eq, hlru, not_false_eq_true, if_true, set_append_cons]
      rfl
    rw [List.length_cons, forLoop_succ _ _ _ _ _ hbody]
    have h2 := ih (pre ++ [ageWay b]) rest
      { s with l2cache := s.l2cache.set idx (pre ++ ageWay b :: (mid ++ rest)) }
      (fun x hx => hmid x (List.mem_cons_of_mem _ hx))
      (by
        show (s.l2cache.set idx (pre ++ ageWay b :: (mid ++ rest)))[idx]? = _
        rw [List.getElem?_set_self hidx]
        simp)
    simp only [List.length_append, List.length_singleton] at h2
    rw [h2]
    simp [List.set_set]

theorem l2replaceLoop_one (cfg : Config) (tag idx : Nat) (P Q : List cacheBlock) (b : cacheBlock)
    (s : State) (hs : Shape cfg s) (hrow : s.l2cache[idx]? = some (P ++ b :: Q))
    (hb : (cfg.l2cacheAssoc + 2 ^ 32 - 1) % 2 ^ 32 = b.LRU_val)
    (hP : ∀ x ∈ P, (cfg.l2cacheAssoc + 2 ^ 32 - 1) % 2 ^ 32 ≠ x.LRU_val)
    (hQ : ∀ x ∈ Q, (cfg.l2cacheAssoc + 2 ^ 32 - 1) % 2 ^ 32 ≠ x.LRU_val) :
    ∃ sE, (if TRUE = cfg.inclusive then evict_L1 cfg s b.tag idx else some s) = some sE ∧
      forLoop (l2replaceBody cfg tag idx) (P ++ b :: Q).length 0 s
        = some { sE with l2cache :=
            s.l2cache.set idx (P.map ageWay ++ newWay tag :: Q.map ageWay) } := by
  have hidx : idx < s.l2cache.length := getElem?_lt _ _ _ hrow
  -- the state after the ways of `P`
  have h1 := l2replaceLoop_aging cfg tag idx P [] (b :: Q) s hP (by simpa using hrow)
  simp only [List.length_nil, List.nil_append] at h1
  have hE : ∃ sE, (if TRUE = cfg.inclusive then evict_L1 cfg s b.tag idx else some s) = some sE := by
    by_cases hinc : TRUE = cfg.inclusive
    · rw [if_pos hinc]
      obtain ⟨sE, h, _⟩ := evict_L1_spec cfg s b.tag idx hs
      exact ⟨sE, h⟩
    · rw [if_neg hinc]; exact ⟨s, rfl⟩
  obtain ⟨sE, hsE⟩ := hE
  have hl2E : sE.l2cache = s.l2cache := by
    by_cases hinc : TRUE = cfg.inclusive
    · rw [if_pos hinc] at hsE; exact evict_L1_l2cache cfg s sE _ _ hsE
    · rw [if_neg hinc] at hsE
      rw [← Option.some.inj hsE]
  refine ⟨sE, hsE, ?_⟩
  have hlen : (P ++ b :: Q).length = P.length + (1 + Q.length) := by simp; omega
  rw [hlen, forLoop_add, h1]
  simp only [Nat.zero_add]
  -- the replaced way
  have hE1 : (if TRUE = cfg.inclusive
      then evict_L1 cfg { s with l2cache := s.l2cache.set idx (P.map ageWay ++ b :: Q) } b.tag idx
      else some { s with l2cache := s.l2cache.set idx (P.map ageWay ++ b :: Q) })
      = some { sE with l2cache := s.l2cache.set idx (P.map ageWay ++ b :: Q) } := by
    by_cases hinc : TRUE = cfg.inclusive
    · rw [if_pos hinc] at hsE ⊢
      exact evict_L1_with_l2cache cfg s sE _ _ _ hsE
    · rw [if_neg hinc] at hsE ⊢
      rw [← Option.some.inj hsE]
  have hget : (P.map ageWay ++ b :: Q)[P.length]? = some b := by
    have := getElem?_append_cons (P.map ageWay) Q b
    simpa using this
  have hset : (P.map ageWay ++ b :: Q).set P.length { valid := true, LRU_val := 0, tag := tag }
      = P.map ageWay ++ newWay tag :: Q := by
    have h := set_append_cons (P.map ageWay) Q b (newWay tag)
    rw [List.length_map] at h
    exact h
  have hbody : l2replaceBody cfg tag idx P.length
      { s with l2cache := s.l2cache.set idx (P.map ageWay ++ b :: Q) }
      = some { sE with l2cache := s.l2cache.set idx (P.map ageWay ++ newWay tag :: Q) } := by
    unfold l2replaceBody
    simp only [List.getElem?_set_self hidx, hget, hb, ne_eq, not_true_eq_false, if_false, hE1,
      hset, List.set_set]
  have h3 := l2replaceLoop_aging cfg tag idx Q (P.map ageWay ++ [newWay tag]) []
    { sE with l2cache := s.l2cache.set idx (P.map ageWay ++ newWay tag :: Q) } hQ
    (by
      show (s.l2cache.set idx (P.map ageWay ++ newWay tag :: Q))[idx]? = _
      rw [List.getElem?_set_self hidx]
      simp)
  simp only [List.length_append, List.length_map, List.length_singleton, List.append_nil] at h3
  have e1 : 1 + Q.length = Q.length + 1 := by omega
  rw [e1, forLoop_succ _ _ _ _ _ hbody, h3]
  simp [List.set_set]

theorem rank_full_split (A : Nat) (row : List cacheBlock) (hA1 : 1 ≤ A) (hl : row.length = A)
    (hvalid : ∀ b ∈ row, b.valid = true) (hrank : RankOK row) :
    ∃ pre b post, row = pre ++ b :: post ∧ b.LRU_val = A - 1 ∧
      ∀ x ∈ pre ++ post, x.LRU_val < A - 1 := by
  have hfil : row.filter (fun b => b.valid) = row :=
    List.filter_eq_self.2 (fun b hb => hvalid b hb)
  unfold RankOK at hrank
  rw [hfil, hl] at hrank
  have hmem : A - 1 ∈ row.map (fun b => b.LRU_val) :=
    hrank.symm.subset (List.mem_range.2 (by omega))
  obtain ⟨b, hb, hbl⟩ := List.mem_map.1 hmem
  obtain ⟨pre, post, e⟩ := List.append_of_mem hb
  refine ⟨pre, b, post, e, hbl, ?_⟩
  have hnd : (row.map (fun b => b.LRU_val)).Nodup := hrank.symm.nodup_iff.1 (List.nodup_range A)
  rw [e] at hnd hrank
  simp only [List.map_append, List.map_cons] at hnd
  have hnd2 := List.nodup_middle.1 hnd
  rw [List.nodup_cons] at hnd2
  intro x hx
  have hxr : x ∈ pre ++ b :: post := by
    rcases List.mem_append.1 hx with h | h
    · exact List.mem_append_left _ h
    · exact List.mem_append_right _ (List.mem_cons_of_mem _ h)
  have hlt : x.LRU_val < A :=
    List.mem_range.1 (hrank.subset (List.mem_map_of_mem _ hxr))
  have hne : x.LRU_val ≠ b.LRU_val := by
    intro heq
    apply hnd2.1
    rw [← heq, ← List.map_append]
    exact List.mem_map_of_mem _ hx
  omega

theorem closeGap_valid (r : Nat) (b : cacheBlock) : (closeGap r b).valid = b.valid := by
  unfold closeGap; split_ifs <;> rfl

theorem closeGap_tag (r : Nat) (b : cacheBlock) : (closeGap r b).tag = b.tag := by
  unfold closeGap; split_ifs <;> rfl

theorem closeGap_rank (r : Nat) (b : cacheBlock) :
    (closeGap r b).LRU_val
      = if b.LRU_val > r then (b.LRU_val + 2 ^ 32 - 1) % 2 ^ 32 else b.LRU_val := by
  unfold closeGap; split_ifs <;> rfl

theorem closeGap_self (r : Nat) (b : cacheBlock) (h : b.LRU_val ≤ r) : closeGap r b = b := by
  unfold closeGap; rw [if_neg (by omega)]

theorem evictInner_eq (j r : Nat) (pre post : List cacheBlock) (b bj : cacheBlock)
    (hj : (pre ++ b :: post)[j]? = some bj) (hr : bj.LRU_val = r) :
    evictInner j pre.length (pre ++ b :: post) = some (pre ++ closeGap r b :: post) := by
  unfold evictInner
  rw [getElem?_append_cons, hj]
  simp only [hr]
  unfold closeGap
  split_ifs
  · rw [set_append_cons]
  · rfl

theorem evictInnerLoop_eq (j r : Nat) :
    ∀ (post pre : List cacheBlock),
      (∃ bj, (pre ++ post)[j]? = some bj ∧ bj.LRU_val = r) →
      forLoop (evictInner j) post.length pre.length (pre ++ post)
        = some (pre ++ post.map (closeGap r)) := by
  intro post
  induction post with
  | nil => intro pre _; simp [forLoop]
  | cons b post ih =>
    intro pre hj
    obtain ⟨bj, hbj, hr⟩ := hj
    rw [List.length_cons, forLoop_succ _ _ _ _ _ (evictInner_eq j r pre post b bj hbj hr)]
    have hj2 : ∃ bj, ((pre ++ [closeGap r b]) ++ post)[j]? = some bj ∧ bj.LRU_val = r := by
      by_cases hjk : j = pre.length
      · subst hjk
        rw [getElem?_append_cons] at hbj
        have e : b = bj := Option.some.inj hbj
        subst e
        refine ⟨b, ?_, hr⟩
        rw [List.append_assoc, List.singleton_append, closeGap_self r b (by omega)]
        exact getElem?_append_cons _ _ _
      · refine ⟨bj, ?_, hr⟩
        rw [List.append_assoc, List.singleton_append, ← set_append_cons pre post b (closeGap r b),
          List.getElem?_set_ne (fun h => hjk h.symm)]
        exact hbj
    have h2 := ih (pre ++ [closeGap r b]) hj2
    simp only [List.length_append, List.length_singleton] at h2
    rw [List.append_assoc, List.singleton_append] at h2
    rw [h2]
    simp

theorem evictBody_match (A t i a : Nat) (pre post : List cacheBlock) (b : cacheBlock)
    (av : List Nat) (hl : (pre ++ b :: post).length = A) (ht : t = b.tag)
    (hav : av[i]? = some a) :
    evictBody A t i pre.length (pre ++ b :: post, av)
      = some (pre.map (closeGap b.LRU_val)
                ++ { valid := false, LRU_val := (A + 2 ^ 32 - 1) % 2 ^ 32, tag := b.tag }
                  :: post.map (closeGap b.LRU_val),
              av.set i ((a + 1) % 2 ^ 32)) := by
  unfold evictBody
  simp only [getElem?_append_cons, ht, if_true, set_append_cons]
  have hloop := evictInnerLoop_eq pre.length b.LRU_val
    (pre ++ { b with valid := false } :: post) []
    ⟨{ b with valid := false }, by
      rw [List.nil_append]; exact getElem?_append_cons _ _ _, rfl⟩
  simp only [List.nil_append, List.length_nil] at hloop
  have hl2 : (pre ++ { b with valid := false } :: post).length = A := by
    rw [← hl]; simp
  rw [hl2] at hloop
  rw [hloop]
  simp only [List.map_append, List.map_cons]
  have hself : closeGap b.LRU_val { b with valid := false } = { b with valid := false } :=
    closeGap_self _ _ (le_refl _)
  rw [hself]
  have hget : (pre.map (closeGap b.LRU_val) ++ { b with valid := false }
      :: post.map (closeGap b.LRU_val))[pre.length]? = some { b with valid := false } := by
    have := getElem?_append_cons (pre.map (closeGap b.LRU_val)) (post.map (closeGap b.LRU_val))
      { b with valid := false }
    rw [List.length_map] at this
    exact this
  have hset : ∀ c, (pre.map (closeGap b.LRU_val) ++ { b with valid := false }
      :: post.map (closeGap b.LRU_val)).set pre.length c
      = pre.map (closeGap b.LRU_val) ++ c :: post.map (closeGap b.LRU_val) := by
    intro c
    have := set_append_cons (pre.map (closeGap b.LRU_val)) (post.map (closeGap b.LRU_val))
      { b with valid := false } c
    rw [List.length_map] at this
    exact this
  simp only [hget, hav, hset]

theorem evictBody_nomatch (A t i : Nat) (pre post : List cacheBlock) (b : cacheBlock)
    (av : List Nat) (ht : t ≠ b.tag) :
    evictBody A t i pre.length (pre ++ b :: post, av) = some (pre ++ b :: post, av) := by
  unfold evictBody
  simp only [getElem?_append_cons, ht, if_false]

theorem evictLoop_nomatch (A t i : Nat) (av : List Nat) :
    ∀ (mid pre rest : List cacheBlock), (∀ x ∈ mid, t ≠ x.tag) →
      forLoop (evictBody A t i) mid.length pre.length (pre ++ mid ++ rest, av)
        = some (pre ++ mid ++ rest, av) := by
  intro mid
  induction mid with
  | nil => intro pre rest _; simp [forLoop]
  | cons b mid ih =>
    intro pre rest hmid
    have hb : evictBody A t i pre.length (pre ++ (b :: mid) ++ rest, av)
        = some (pre ++ (b :: mid) ++ rest, av) := by
      have := evictBody_nomatch A t i pre (mid ++ rest) b av (hmid b (List.mem_cons_self _ _))
      simpa using this
    rw [List.length_cons, forLoop_succ _ _ _ _ _ hb]
    have h2 := ih (pre ++ [b]) rest (fun x hx => hmid x (List.mem_cons_of_mem _ hx))
    simp only [List.length_append, List.length_singleton] at h2
    have e : pre ++ [b] ++ mid ++ rest = pre ++ b :: mid ++ rest := by simp
    rw [e] at h2
    exact h2

theorem evictLoop_one (A t i a : Nat) (P Q : List cacheBlock) (b : cacheBlock) (av : List Nat)
    (hl : (P ++ b :: Q).length = A) (ht : t = b.tag) (hav : av[i]? = some a)
    (hP : ∀ x ∈ P, t ≠ x.tag) (hQ : ∀ x ∈ Q, t ≠ x.tag) :
    forLoop (evictBody A t i) A 0 (P ++ b :: Q, av)
      = some (P.map (closeGap b.LRU_val)
                ++ { valid := false, LRU_val := (A + 2 ^ 32 - 1) % 2 ^ 32, tag := b.tag }
                  :: Q.map (closeGap b.LRU_val),
              av.set i ((a + 1) % 2 ^ 32)) := by
  have hlen : P.length + (1 + Q.length) = A := by rw [← hl]; simp; omega
  have h1 := evictLoop_nomatch A t i av P [] (b :: Q) hP
  simp only [List.nil_append, List.length_nil] at h1
  suffices h : forLoop (evictBody A t i) (P.length + (1 + Q.length)) 0 (P ++ b :: Q, av)
      = some (P.map (closeGap b.LRU_val)
                ++ { valid := false, LRU_val := (A + 2 ^ 32 - 1) % 2 ^ 32, tag := b.tag }
                  :: Q.map (closeGap b.LRU_val),
              av.set i ((a + 1) % 2 ^ 32)) by
    rwa [hlen] at h
  rw [forLoop_add, h1]
  simp only [Nat.zero_add]
  have e1 : 1 + Q.length = Q.length + 1 := by omega
  rw [e1, forLoop_succ _ _ _ _ _ (evictBody_match A t i a P Q b av hl ht hav)]
  have h3 := evictLoop_nomatch A t i (av.set i ((a + 1) % 2 ^ 32))
    (Q.map (closeGap b.LRU_val))
    (P.map (closeGap b.LRU_val)
      ++ [{ valid := false, LRU_val := (A + 2 ^ 32 - 1) % 2 ^ 32, tag := b.tag }]) []
    (fun x hx => by
      obtain ⟨y, hy, e⟩ := List.mem_map.1 hx
      rw [← e, closeGap_tag]
      exact hQ y hy)
  simp only [List.length_append, List.length_map, List.length_singleton, List.append_nil,
    List.append_assoc, List.singleton_append] at h3
  exact h3

theorem evictLevel_one (sets A mask bits o a : Nat) (cache : List (List cacheBlock))
    (av : List Nat) (P Q : List cacheBlock) (b : cacheBlock) (h0 : sets ≠ 0)
    (hrow : cache[o &&& mask]? = some (P ++ b :: Q)) (hl : (P ++ b :: Q).length = A)
    (hav : av[o &&& mask]? = some a) (ht : b.tag = o >>> bits)
    (hothers : ∀ x ∈ P ++ Q, x.tag ≠ o >>> bits) :
    evictLevel sets A mask bits o cache av
      = some (cache.set (o &&& mask)
                (P.map (closeGap b.LRU_val)
                  ++ { valid := false, LRU_val := (A + 2 ^ 32 - 1) % 2 ^ 32, tag := b.tag }
                    :: Q.map (closeGap b.LRU_val)),
              av.set (o &&& mask) ((a + 1) % 2 ^ 32)) := by
  unfold evictLevel
  rw [if_pos (Nat.pos_of_ne_zero h0)]
  simp only [hrow]
  rw [evictLoop_one A (o >>> bits) (o &&& mask) a P Q b av hl ht.symm hav
    (fun x hx => fun e => hothers x (List.mem_append_left _ hx) e.symm)
    (fun x hx => fun e => hothers x (List.mem_append_right _ hx) e.symm)]

theorem shift_perm (r k : Nat) (L : List Nat) (h : (r :: L).Perm (List.range k)) :
    (L.map (fun x => if x > r then x - 1 else x)).Perm (List.range (k - 1)) := by
  have hnd : (r :: L).Nodup := h.symm.nodup_iff.1 (List.nodup_range k)
  rw [List.nodup_cons] at hnd
  have hmem : ∀ x, x ∈ L ↔ (x < k ∧ x ≠ r) := by
    intro x
    constructor
    · intro hx
      refine ⟨List.mem_range.1 (h.subset (List.mem_cons_of_mem _ hx)), ?_⟩
      intro e; subst e; exact hnd.1 hx
    · rintro ⟨hx, hne⟩
      have := h.symm.subset (List.mem_range.2 hx)
      rcases List.mem_cons.1 this with e | hm
      · exact absurd e hne
      · exact hm
  have hr : r < k := List.mem_range.1 (h.subset (List.mem_cons_self _ _))
  rw [List.perm_ext_iff_of_nodup _ (List.nodup_range _)]
  · intro y
    rw [List.mem_map, List.mem_range]
    constructor
    · rintro ⟨x, hx, e⟩
      obtain ⟨h1, h2⟩ := (hmem x).1 hx
      split_ifs at e <;> omega
    · intro hy
      by_cases hyr : y < r
      · exact ⟨y, (hmem y).2 ⟨by omega, by omega⟩, by rw [if_neg (by omega)]⟩
      · exact ⟨y + 1, (hmem (y + 1)).2 ⟨by omega, by omega⟩, by rw [if_pos (by omega)]; omega⟩
  · refine List.Nodup.map_on ?_ hnd.2
    intro x hx y hy e
    obtain ⟨_, h2⟩ := (hmem x).1 hx
    obtain ⟨_, h4⟩ := (hmem y).1 hy
    split_ifs at e <;> omega

theorem filter_valid_closeGap (r : Nat) (l : List cacheBlock) :
    (l.map (closeGap r)).filter (fun b => b.valid)
      = (l.filter (fun b => b.valid)).map (closeGap r) := by
  induction l with
  | nil => rfl
  | cons x l ih =>
    simp only [List.map_cons, List.filter_cons, closeGap_valid]
    split_ifs
    · rw [List.map_cons, ih]
    · exact ih

/-- The rank property survives the invalidation of a valid way. -/
theorem rankOK_evict (A : Nat) (hA : A < 2 ^ 32) (P Q : List cacheBlock) (b : cacheBlock)
    (v : Nat) (hl : (P ++ b :: Q).length = A) (hb : b.valid = true) (hrank : RankOK (P ++ b :: Q)) :
    RankOK (P.map (closeGap b.LRU_val) ++ { valid := false, LRU_val := v, tag := b.tag }
      :: Q.map (closeGap b.LRU_val)) := by
  unfold RankOK at hrank ⊢
  have hfil : (P ++ b :: Q).filter (fun b => b.valid)
      = P.filter (fun b => b.valid) ++ b :: Q.filter (fun b => b.valid) := by
    rw [List.filter_append, List.filter_cons, if_pos (by simpa using hb)]
  have hfil2 : (P.map (closeGap b.LRU_val) ++ { valid := false, LRU_val := v, tag := b.tag }
      :: Q.map (closeGap b.LRU_val)).filter (fun b => b.valid)
      = (P.filter (fun b => b.valid) ++ Q.filter (fun b => b.valid)).map (closeGap b.LRU_val) := by
    rw [List.filter_append, List.filter_cons, if_neg (by simp), filter_valid_closeGap,
      filter_valid_closeGap, List.map_append]
  rw [hfil] at hrank
  rw [hfil2]
  simp only [List.map_append, List.map_cons, List.length_append, List.length_cons,
    List.length_map] at hrank ⊢
  have hperm : (b.LRU_val :: ((P.filter (fun b => b.valid)).map (fun b => b.LRU_val)
      ++ (Q.filter (fun b => b.valid)).map (fun b => b.LRU_val))).Perm
      (List.range ((P.filter (fun b => b.valid)).length
        + ((Q.filter (fun b => b.valid)).length + 1))) :=
    List.perm_middle.symm.trans hrank
  have hk : (P.filter (fun b => b.valid)).length + ((Q.filter (fun b => b.valid)).length + 1)
      ≤ A := by
    have h1 := List.length_filter_le (fun b : cacheBlock => b.valid) P
    have h2 := List.length_filter_le (fun b : cacheBlock => b.valid) Q
    simp only [List.length_append, List.length_cons] at hl
    omega
  have hsh := shift_perm _ _ _ hperm
  have hcongr : ∀ (l : List cacheBlock),
      (∀ x ∈ l, x.LRU_val < 2 ^ 32) →
      (l.map (closeGap b.LRU_val)).map (fun b => b.LRU_val)
        = (l.map (fun b => b.LRU_val)).map (fun x => if x > b.LRU_val then x - 1 else x) := by
    intro l hlt
    rw [List.map_map, List.map_map]
    apply List.map_congr_left
    intro x hx
    have := hlt x hx
    simp only [Function.comp, closeGap_rank]
    split_ifs <;> omega
  have hltP : ∀ x ∈ P.filter (fun b => b.valid), x.LRU_val < 2 ^ 32 := by
    intro x hx
    have : x.LRU_val ∈ b.LRU_val :: ((P.filter (fun b => b.valid)).map (fun b => b.LRU_val)
        ++ (Q.filter (fun b => b.valid)).map (fun b => b.LRU_val)) :=
      List.mem_cons_of_mem _ (List.mem_append_left _ (List.mem_map_of_mem _ hx))
    have := List.mem_range.1 (hperm.subset this)
    omega
  have hltQ : ∀ x ∈ Q.filter (fun b => b.valid), x.LRU_val < 2 ^ 32 := by
    intro x hx
    have : x.LRU_val ∈ b.LRU_val :: ((P.filter (fun b => b.valid)).map (fun b => b.LRU_val)
        ++ (Q.filter (fun b => b.valid)).map (fun b => b.LRU_val)) :=
      List.mem_cons_of_mem _ (List.mem_append_right _ (List.mem_map_of_mem _ hx))
    have := List.mem_range.1 (hperm.subset this)
    omega
  rw [hcongr _ hltP, hcongr _ hltQ, ← List.map_append]
  have e : (P.filter (fun b => b.valid)).length + ((Q.filter (fun b => b.valid)).length + 1) - 1
      = (P.filter (fun b => b.valid)).length + (Q.filter (fun b => b.valid)).length := by omega
  rw [e] at hsh
  exact hsh

theorem closeGap_facts (r : Nat) (x : cacheBlock) :
    (closeGap r x).valid = x.valid ∧ (closeGap r x).tag = x.tag ∧
    (r < x.LRU_val → x.LRU_val < 2 ^ 32 → (closeGap r x).LRU_val = x.LRU_val - 1) ∧
    (x.LRU_val ≤ r → (closeGap r x).LRU_val = x.LRU_val) := by
  refine ⟨closeGap_valid r x, closeGap_tag r x, ?_, ?_⟩
  · intro h1 h2
    rw [closeGap_rank, if_pos h1]
    omega
  · intro h1
    rw [closeGap_rank, if_neg (by omega)]

theorem level_assoc (cfg_sets cfg_assoc : Nat) (hv : LevelValid cfg_sets cfg_assoc)
    (h0 : cfg_sets ≠ 0) (hA : cfg_assoc < 2 ^ 32) :
    (cfg_assoc + 2 ^ 32 - 1) % 2 ^ 32 = cfg_assoc - 1 := by
  rcases hv with h | h
  · exact absurd h h0
  · have := h.2
    omega

theorem l2cache_access_counters (cfg : Config) (s : State) (addr r : Nat) (s1 : State)
    (hs : Shape cfg s) (h0 : cfg.l2cacheSets ≠ 0) (hacc : l2cache_access cfg s addr = some (r, s1)) :
    s1.l2cacheRefs = (s.l2cacheRefs + 1) % 2 ^ 64 ∧
    ((s1.l2cacheMisses = s.l2cacheMisses ∧ s1.l2cachePenalties = s.l2cachePenalties) ∨
      (s1.l2cacheMisses = (s.l2cacheMisses + 1) % 2 ^ 64 ∧
        s1.l2cachePenalties = (s.l2cachePenalties + cfg.memspeed) % 2 ^ 64)) ∧
    s1.icacheRefs = s.icacheRefs ∧ s1.icacheMisses = s.icacheMisses ∧
    s1.icachePenalties = s.icachePenalties ∧
    s1.dcacheRefs = s.dcacheRefs ∧ s1.dcacheMisses = s.dcacheMisses ∧
    s1.dcachePenalties = s.dcachePenalties := by
  obtain ⟨c1, c2, c3, c4, c5, c6⟩ :=
    eraseL2_counters s1 s (l2cache_access_frame cfg s addr r s1 hs hacc)
  obtain ⟨row, a, r1, s2, _, _, hacc2, _, _, hcase⟩ := l2cache_access_cases cfg s addr hs h0
  rw [hacc] at hacc2
  have e : s1 = s2 := (Prod.mk.inj (Option.some.inj hacc2)).2
  subst e
  refine ⟨?_, ?_, c1, c2, c3, c4, c5, c6⟩
  · rcases hcase with ⟨b, _, _, _, _, hs1⟩ | ⟨_, _, _, hs1⟩ | ⟨_, _, _, hs1, _⟩
    · rw [hs1]
    · rw [hs1]
    · exact (eraseL1_counters _ _ hs1).2.2.2.2.2.2.1
  · rcases hcase with ⟨b, _, _, _, _, hs1⟩ | ⟨_, _, _, hs1⟩ | ⟨_, _, _, hs1, _⟩
    · left; rw [hs1]; exact ⟨rfl, rfl⟩
    · right; rw [hs1]; exact ⟨rfl, rfl⟩
    · right
      exact ⟨(eraseL1_counters _ _ hs1).2.2.2.2.2.2.2.1, (eraseL1_counters _ _ hs1).2.2.2.2.2.2.2.2⟩

theorem stats_after_l2 (cfg : Config) (n : Nat) (s s1 : State) (addr r : Nat)
    (iR iM dR dM : Nat)
    (hs : Shape cfg s) (h0 : cfg.l2cacheSets ≠ 0)
    (hacc : l2cache_access cfg s addr = some (r, s1))
    (hiR : s.icacheRefs = iR) (hiM : s.icacheMisses = iM) (hdR : s.dcacheRefs = dR)
    (hdM : s.dcacheMisses = dM)
    (h1 : s.l2cacheRefs + 1 = iM + dM) (h2 : iM ≤ iR) (h3 : dM ≤ dR)
    (h4 : s.l2cacheMisses ≤ s.l2cacheRefs) (h5 : iR + dR = n + 1)
    (h6 : s.l2cachePenalties = s.l2cacheMisses * cfg.memspeed)
    (hn : n + 1 < 2 ^ 64) (hp : (n + 1) * cfg.memspeed < 2 ^ 64) :
    StatsOK cfg (n + 1) s1 := by
  obtain ⟨k1, k2, c1, c2, _, c4, c5, _⟩ := l2cache_access_counters cfg s addr r s1 hs h0 hacc
  have hle : (s.l2cacheMisses + 1) * cfg.memspeed ≤ (n + 1) * cfg.memspeed :=
    Nat.mul_le_mul_right _ (by omega)
  have hsum : s.l2cachePenalties + cfg.memspeed = (s.l2cacheMisses + 1) * cfg.memspeed := by
    rw [h6, Nat.succ_mul]
  have m1 : (s.l2cacheRefs + 1) % 2 ^ 64 = s.l2cacheRefs + 1 := Nat.mod_eq_of_lt (by omega)
  have m2 : (s.l2cacheMisses + 1) % 2 ^ 64 = s.l2cacheMisses + 1 := Nat.mod_eq_of_lt (by omega)
  have m3 : (s.l2cachePenalties + cfg.memspeed) % 2 ^ 64
      = (s.l2cacheMisses + 1) * cfg.memspeed := by
    rw [hsum]; exact Nat.mod_eq_of_lt (lt_of_le_of_lt hle hp)
  unfold StatsOK
  rw [k1, m1, c1, c2, c4, c5, hiR, hiM, hdR, hdM]
  rcases k2 with ⟨k3, k4⟩ | ⟨k3, k4⟩
  · rw [k3, k4]
    exact ⟨h1, h2, h3, by omega, h5, h6⟩
  · rw [k3, k4, m2, m3]
    exact ⟨h1, h2, h3, by omega, h5, rfl⟩

theorem stats_icache_step (cfg : Config) (n : Nat) (s s1 : State) (addr r : Nat)
    (hs : Shape cfg s) (hen : cfg.AllEnabled) (hst : StatsOK cfg n s)
    (hn : n + 1 < 2 ^ 64) (hp : (n + 1) * cfg.memspeed < 2 ^ 64)
    (hacc : icache_access cfg s addr = some (r, s1)) : StatsOK cfg (n + 1) s1 := by
  obtain ⟨h1, h2, h3, h4, h5, h6⟩ := hst
  have mR : (s.icacheRefs + 1) % 2 ^ 64 = s.icacheRefs + 1 := Nat.mod_eq_of_lt (by omega)
  have mM : (s.icacheMisses + 1) % 2 ^ 64 = s.icacheMisses + 1 := Nat.mod_eq_of_lt (by omega)
  obtain ⟨row, _, hcase⟩ := icache_access_cases cfg s addr hs hen.1
  rcases hcase with ⟨b, _, _, _, hacc2⟩ | ⟨_, p, s3, row2, a, hl2, _, _, _, hacc2⟩
  · rw [hacc] at hacc2
    have e := (Prod.mk.inj (Option.some.inj hacc2)).2
    rw [e]
    exact ⟨h1, by show s.icacheMisses ≤ (s.icacheRefs + 1) % 2 ^ 64; omega, h3, h4,
      by show (s.icacheRefs + 1) % 2 ^ 64 + s.dcacheRefs = n + 1; omega, h6⟩
  · rw [hacc] at hacc2
    have e := (Prod.mk.inj (Option.some.inj hacc2)).2
    rw [e]
    have hs' : Shape cfg { s with icacheRefs := (s.icacheRefs + 1) % 2 ^ 64,
                                  icacheMisses := (s.icacheMisses + 1) % 2 ^ 64 } :=
      shape_counters cfg s hs _ _ _ _ _ _ _ _ _
    have h := stats_after_l2 cfg n _ s3 addr p (s.icacheRefs + 1) (s.icacheMisses + 1)
      s.dcacheRefs s.dcacheMisses hs' hen.2.2 hl2 mR mM rfl rfl
      (by show s.l2cacheRefs + 1 = _; omega) (by omega) h3 h4 (by omega) h6 hn hp
    exact h

theorem stats_dcache_step (cfg : Config) (n : Nat) (s s1 : State) (addr r : Nat)
    (hs : Shape cfg s) (hen : cfg.AllEnabled) (hst : StatsOK cfg n s)
    (hn : n + 1 < 2 ^ 64) (hp : (n + 1) * cfg.memspeed < 2 ^ 64)
    (hacc : dcache_access cfg s addr = some (r, s1)) : StatsOK cfg (n + 1) s1 := by
  obtain ⟨h1, h2, h3, h4, h5, h6⟩ := hst
  have mR : (s.dcacheRefs + 1) % 2 ^ 64 = s.dcacheRefs + 1 := Nat.mod_eq_of_lt (by omega)
  have mM : (s.dcacheMisses + 1) % 2 ^ 64 = s.dcacheMisses + 1 := Nat.mod_eq_of_lt (by omega)
  obtain ⟨row, _, hcase⟩ := dcache_access_cases cfg s addr hs hen.2.1
  rcases hcase with ⟨b, _, _, _, hacc2⟩ | ⟨_, p, s3, row2, a, hl2, _, _, _, hacc2⟩
  · rw [hacc] at hacc2
    have e := (Prod.mk.inj (Option.some.inj hacc2)).2
    rw [e]
    exact ⟨h1, h2, by show s.dcacheMisses ≤ (s.dcacheRefs + 1) % 2 ^ 64; omega, h4,
      by show s.icacheRefs + (s.dcacheRefs + 1) % 2 ^ 64 = n + 1; omega, h6⟩
  · rw [hacc] at hacc2
    have e := (Prod.mk.inj (Option.some.inj hacc2)).2
    rw [e]
    have hs' : Shape cfg { s with dcacheRefs := (s.dcacheRefs + 1) % 2 ^ 64,
                                  dcacheMisses := (s.dcacheMisses + 1) % 2 ^ 64 } :=
      shape_counters cfg s hs _ _ _ _ _ _ _ _ _
    have h := stats_after_l2 cfg n _ s3 addr p s.icacheRefs s.icacheMisses
      (s.dcacheRefs + 1) (s.dcacheMisses + 1) hs' hen.2.2 hl2 rfl rfl mR mM
      (by show s.l2cacheRefs + 1 = _; omega) h2 (by omega) h4 (by omega) h6 hn hp
    exact h

theorem stats_run (cfg : Config) (hen : cfg.AllEnabled) (calls : List Access) :
    ∀ (n : Nat) (s : State) (rs : List Nat) (s1 : State), Shape cfg s → StatsOK cfg n s →
      n + calls.length < 2 ^ 64 → (n + calls.length) * cfg.memspeed < 2 ^ 64 →
      run cfg s calls = some (rs, s1) → StatsOK cfg (n + calls.length) s1 := by
  induction calls with
  | nil =>
    intro n s rs s1 _ hst _ _ hrun
    simp only [run, Option.some.injEq, Prod.mk.injEq] at hrun
    rw [← hrun.2]
    exact hst
  | cons c calls ih =>
    intro n s rs s1 hs hst hn hp hrun
    simp only [List.length_cons] at hn hp ⊢
    obtain ⟨r, s2, hstep, hs2⟩ := step_total cfg s c hs
    have hle : (n + 1) * cfg.memspeed ≤ (n + (calls.length + 1)) * cfg.memspeed :=
      Nat.mul_le_mul_right _ (by omega)
    have hst2 : StatsOK cfg (n + 1) s2 := by
      cases c with
      | instr a => exact stats_icache_step cfg n s s2 a r hs hen hst (by omega) (by omega) hstep
      | data a => exact stats_dcache_step cfg n s s2 a r hs hen hst (by omega) (by omega) hstep
    simp only [run, hstep] at hrun
    cases hr : run cfg s2 calls with
    | none => simp [hr] at hrun
    | some p =>
      obtain ⟨rs2, s3⟩ := p
      simp only [hr, Option.some.injEq, Prod.mk.injEq] at hrun
      rw [← hrun.2]
      have e : n + (calls.length + 1) = n + 1 + calls.length := by omega
      rw [e] at hp ⊢
      exact ih (n + 1) s2 rs2 s3 hs2 hst2 (by omega) hp hr

theorem scenarioInit_l2_miss : ¬ L2Hit scenarioInit 0x00 := by
  rintro ⟨row, hrow, b, hb, hv, _⟩
  have e : scenarioInit.l2cache[l2Index scenarioInit 0x00]? = some [emptyBlock, emptyBlock] := rfl
  rw [e] at hrow
  rw [← Option.some.inj hrow] at hb
  simp only [List.mem_cons, List.mem_singleton, List.not_mem_nil, or_false, or_self] at hb
  rw [hb] at hv
  cases hv

theorem evictState_l2_miss : ¬ L2Hit evictState 0x00 := by
  rintro ⟨row, hrow, b, hb, _, ht⟩
  have e : evictState.l2cache[l2Index evictState 0x00]?
      = some [{ valid := true, LRU_val := 0, tag := 1 }] := rfl
  rw [e] at hrow
  rw [← Option.some.inj hrow] at hb
  simp only [List.mem_singleton] at hb
  rw [hb] at ht
  revert ht
  decide

theorem scenarioInclCfg_valid : scenarioInclCfg.Valid :=
  ⟨by unfold Config.Bits32; decide, ⟨2, by decide, rfl⟩,
    Or.inr ⟨⟨0, by decide, rfl⟩, by decide⟩, Or.inr ⟨⟨0, by decide, rfl⟩, by decide⟩,
    Or.inr ⟨⟨0, by decide, rfl⟩, by decide⟩⟩

theorem fullState_shape : Shape scenarioCfg fullState :=
  ⟨rfl, rfl, by decide, rfl, rfl, fun _ => rfl, rfl, by decide, rfl, rfl, fun _ => rfl,
    rfl, by decide, rfl, rfl, fun _ => rfl⟩

theorem fullState_shape_incl : Shape scenarioInclCfg fullState :=
  ⟨rfl, rfl, by decide, rfl, rfl, fun _ => rfl, rfl, by decide, rfl, rfl, fun _ => rfl,
    rfl, by decide, rfl, rfl, fun _ => rfl⟩

theorem fullState_l2_miss : ¬ L2Hit fullState 0x08 := by
  rintro ⟨row, hrow, b, hb, _, ht⟩
  have e : fullState.l2cache[l2Index fullState 0x08]?
      = some [{ valid := true, LRU_val := 1, tag := 0 },
              { valid := true, LRU_val := 0, tag := 1 }] := rfl
  rw [e] at hrow
  rw [← Option.some.inj hrow] at hb
  simp only [List.mem_cons, List.mem_singleton, List.not_mem_nil, or_false] at hb
  rcases hb with hb | hb
  · rw [hb] at ht
    revert ht
    decide
  · rw [hb] at ht
    revert ht
    decide

/-! ## The claims of the specification, continued -/

/-- C11. No propagation when the hierarchy is not inclusive: on every state with
the allocated dimensions (and the shift amounts `setIndexBits + blockOffsetBits`
below 32, where C defines the shifts) and every 32-bit address `l2cache_access`
returns; if `inclusive = FALSE` it
leaves every I-cache and D-cache way, both L1 free-way tables and all I-cache /
D-cache statistics unchanged; and whatever `inclusive` is, it changes something
of L1 only on an L2 miss into a set whose free-way count is 0. -/
theorem l2_no_propagation (cfg : Config) (s : State) (hs : Shape cfg s)
    (_hshift : s.i_setIndex_bits + s.blockOffset_bits < 32 ∧
      s.d_setIndex_bits + s.blockOffset_bits < 32 ∧
      s.l2_setIndex_bits + s.blockOffset_bits < 32)
    (addr : Nat) (_ha : addr < 2 ^ 32) :
    ∃ r s1, l2cache_access cfg s addr = some (r, s1) ∧
      (cfg.inclusive = FALSE → L1Same s1 s) ∧
      (¬ L1Same s1 s →
        ¬ L2Hit s addr ∧ s.l2cache_set_avail[l2Index s addr]? = some 0) := by
  by_cases h0 : cfg.l2cacheSets = 0
  · refine ⟨cfg.memspeed, s, l2cache_access_disabled cfg s addr h0, fun _ => ?_, fun h => ?_⟩
    · exact ⟨rfl, rfl, rfl, rfl, rfl, rfl, rfl, rfl, rfl, rfl⟩
    · exact absurd ⟨rfl, rfl, rfl, rfl, rfl, rfl, rfl, rfl, rfl, rfl⟩ h
  · obtain ⟨row, a, r, s1, hrow, hav, hacc, _, _, hcase⟩ := l2cache_access_cases cfg s addr hs h0
    refine ⟨r, s1, hacc, ?_, ?_⟩
    · intro hinc
      have hne : TRUE ≠ cfg.inclusive := by rw [hinc]; decide
      obtain ⟨a1, a2, a3, a4⟩ := l2cache_access_noninclusive cfg s addr r s1 hne hacc
      obtain ⟨c1, c2, c3, c4, c5, c6⟩ :=
        eraseL2_counters s1 s (l2cache_access_frame cfg s addr r s1 hs hacc)
      exact ⟨a1, a2, a3, a4, c1, c2, c3, c4, c5, c6⟩
    · intro hne
      rcases hcase with ⟨b, _, _, _, _, hs1⟩ | ⟨_, _, _, hs1⟩ | ⟨hmiss, ha, _, _, _⟩
      · exact absurd (by rw [hs1]; exact ⟨rfl, rfl, rfl, rfl, rfl, rfl, rfl, rfl, rfl, rfl⟩) hne
      · exact absurd (by rw [hs1]; exact ⟨rfl, rfl, rfl, rfl, rfl, rfl, rfl, rfl, rfl, rfl⟩) hne
      · refine ⟨?_, by rw [hav, ha]⟩
        rintro ⟨row1, hrow1, hh⟩
        rw [hrow] at hrow1
        injection hrow1 with e
        subst e
        exact hmiss hh

/-- Witness for C11, at the full L2 set of `fullState` (reached by the instruction
accesses 0x00, 0x04) and the address 0x08, which misses and replaces way 0.  Not
inclusive: the L2 set changes and nothing of L1 does.  Inclusive: the I-cache
way of block 0 is invalidated, and the access is an L2 miss into a set whose
free-way count is 0. -/
theorem l2_no_propagation_witness :
    (∃ s0 rs, init_cache scenarioCfg = some s0 ∧
      run scenarioCfg s0 [Access.instr 0x00, Access.instr 0x04] = some (rs, fullState)) ∧
    (∃ r s1, l2cache_access scenarioCfg fullState 0x08 = some (r, s1) ∧
      s1.l2cache = [[{ valid := true, LRU_val := 0, tag := 2 },
                     { valid := true, LRU_val := 1, tag := 1 }]] ∧
      L1Same s1 fullState) ∧
    (∃ r s1, l2cache_access scenarioInclCfg fullState 0x08 = some (r, s1) ∧
      s1.icache = [[{ valid := false, LRU_val := 1, tag := 0 },
                    { valid := true, LRU_val := 0, tag := 1 }]] ∧
      ¬ L1Same s1 fullState ∧ ¬ L2Hit fullState 0x08 ∧
      fullState.l2cache_set_avail[l2Index fullState 0x08]? = some 0) := by
  refine ⟨⟨_, _, rfl, rfl⟩, ?_, ?_⟩
  · obtain ⟨r, s1, h, hsame, _⟩ :=
      l2_no_propagation scenarioCfg fullState fullState_shape ⟨by decide, by decide, by decide⟩
        0x08 (by decide)
    have e : l2cache_access scenarioCfg fullState 0x08 = some (110, _) := rfl
    rw [e] at h
    cases h
    exact ⟨_, _, e, rfl, hsame rfl⟩
  · obtain ⟨r, s1, h, _, hch⟩ :=
      l2_no_propagation scenarioInclCfg fullState fullState_shape_incl
        ⟨by decide, by decide, by decide⟩ 0x08 (by decide)
    have e : l2cache_access scenarioInclCfg fullState 0x08 = some (110, _) := rfl
    rw [e] at h
    cases h
    have both : ∀ {p q : Prop}, p → (p → q) → p ∧ q := fun hp f => ⟨hp, f hp⟩
    refine ⟨_, _, e, rfl, both ?_ hch⟩
    intro hh
    exact absurd hh.1 (by decide)

/-- C12. Tag uniqueness fails on the code.  On the valid inclusive configuration
`evictCfg` the run `dcache_access(0x00)`, `icache_access(0x10)`,
`dcache_access(0x00)`, then `2^31 - 3` times the pair `dcache_access(0x10)`,
`dcache_access(0x00)`, then `dcache_access(0x10)`, `icache_access(0x00)` ends in a
(reachable) state whose only I-cache set holds two valid ways with the same
tag 0.  After the first three calls both I-cache ways are invalid with stale
tags and `LRU_val = 1`; every data access of the middle part makes `evict_L1`
count one of them as freed again, so the 32-bit free-way count climbs from 4 to
`2^32 - 1`; the eviction inside the last call wraps it to 0, the full-set
branch runs and overwrites both ways. -/
theorem tag_uniqueness_broken :
    evictCfg.Valid ∧ ∃ s0 rs s, init_cache evictCfg = some s0 ∧
      run evictCfg s0 ([Access.data 0x00, Access.instr 0x10, Access.data 0x00]
        ++ (pumpCalls (2 ^ 31 - 3) ++ [Access.data 0x10, Access.instr 0x00])) = some (rs, s) ∧
      Reachable evictCfg s ∧
      s.icache = [[{ valid := true, LRU_val := 0, tag := 0 },
                   { valid := true, LRU_val := 0, tag := 0 }]] ∧
      ∃ row ∈ s.icache, ¬ TagsUnique row := by
  obtain ⟨s0, rs, s, h0, hrun, hreach, hdup⟩ := pump_dup (2 ^ 31 - 3) (by norm_num)
  refine ⟨evictCfg_valid, s0, rs, s, h0, hrun, hreach, hdup,
    [{ valid := true, LRU_val := 0, tag := 0 }, { valid := true, LRU_val := 0, tag := 0 }],
    ?_, ?_⟩
  · rw [hdup]; exact List.mem_cons_self _ _
  · decide

/-- C13. Address reconstruction round trip: for a 32-bit address `a` and a valid
(power-of-two) geometry with `l2_setIndex_bits + blockOffset_bits < 32` (and the
two L1 shift amounts `i_setIndex_bits + blockOffset_bits` and `d_setIndex_bits +
blockOffset_bits` below 32 as well, so that the tags `icache_access` and
`dcache_access` compute are defined), the value
`origin = (t2 << l2_setIndex_bits) ^ s2` that `evict_L1` computes from the L2
decode `(t2, s2)` of `a` equals `(t2 << l2_setIndex_bits) | s2` and equals
`a >> blockOffset_bits`; hence the set index and tag `evict_L1` derives from it
for the I-cache (and for the D-cache) are the ones `icache_access`
(`dcache_access`) computes for `a`. -/
theorem address_round_trip (cfg : Config) (hv : cfg.Valid) (h0 : cfg.l2cacheSets ≠ 0)
    (s : State) (hs : Shape cfg s) (a : Nat) (ha : a < 2 ^ 32)
    (_hshift : s.i_setIndex_bits + s.blockOffset_bits < 32 ∧
      s.d_setIndex_bits + s.blockOffset_bits < 32 ∧
      s.l2_setIndex_bits + s.blockOffset_bits < 32) :
    evictOrigin s (l2Tag s a) (l2Index s a)
      = ((l2Tag s a) <<< s.l2_setIndex_bits) ||| (l2Index s a) ∧
    evictOrigin s (l2Tag s a) (l2Index s a) = a >>> s.blockOffset_bits ∧
    (evictOrigin s (l2Tag s a) (l2Index s a) &&& s.i_setIndex_mask = iIndex s a ∧
      evictOrigin s (l2Tag s a) (l2Index s a) >>> s.i_setIndex_bits = iTag s a) ∧
    (evictOrigin s (l2Tag s a) (l2Index s a) &&& s.d_setIndex_mask = dIndex s a ∧
      evictOrigin s (l2Tag s a) (l2Index s a) >>> s.d_setIndex_bits = dTag s a) := by
  obtain ⟨h1, h2⟩ := origin_round_trip cfg hv h0 s hs a ha
  refine ⟨by rw [h1, h2], h1, ⟨?_, ?_⟩, ⟨?_, ?_⟩⟩
  · rw [h1]; rfl
  · rw [h1, shiftRight_shiftRight]; rfl
  · rw [h1]; rfl
  · rw [h1, shiftRight_shiftRight]; rfl

theorem address_round_trip_witness :
    evictOrigin evictState (l2Tag evictState 0xABCD) (l2Index evictState 0xABCD)
      = 0xABCD >>> evictState.blockOffset_bits ∧
    evictOrigin evictState (l2Tag evictState 0xABCD) (l2Index evictState 0xABCD) = 0x2AF3 :=
  ⟨(address_round_trip evictCfg evictCfg_valid (by decide) evictState evictState_shape
      0xABCD (by decide) ⟨by decide, by decide, by decide⟩).2.1, by decide⟩

/-- C14. The code does not leave the I-cache alone when no valid way matches.  On
`evictCfg`, after `dcache_access(0x00)` no I-cache way is valid, yet
`evict_L1(0, 0)` (the call that the next access `dcache_access(0x10)` makes)
changes the `LRU_val` of an I-cache way and raises `icache_set_avail` from 2
to 4; the whole access `dcache_access(0x10)` leaves the I-cache in that state. -/
theorem evict_miss_not_noop :
    evictCfg.Valid ∧ ∃ s0 rs s s1 r s2, init_cache evictCfg = some s0 ∧
      run evictCfg s0 [Access.data 0x00] = some (rs, s) ∧
      (∀ row ∈ s.icache, ∀ b ∈ row, b.valid = false) ∧
      s.icache = [[{ valid := false, LRU_val := 0, tag := 0 },
                   { valid := false, LRU_val := 0, tag := 0 }]] ∧
      s.icache_set_avail = [2] ∧
      evict_L1 evictCfg s 0 0 = some s1 ∧
      s1.icache = [[{ valid := false, LRU_val := 0, tag := 0 },
                    { valid := false, LRU_val := 1, tag := 0 }]] ∧
      s1.icache_set_avail = [4] ∧
      dcache_access evictCfg s 0x10 = some (r, s2) ∧
      s2.icache = s1.icache ∧ s2.icache_set_avail = [4] :=
  ⟨evictCfg_valid, _, _, _, _, _, _, rfl, rfl, by decide, rfl, rfl, rfl, rfl, rfl, rfl, rfl, rfl⟩

/-- C15. The free-way count is not exact on the code.  On `evictCfg`, after
`dcache_access(0x00)`, `dcache_access(0x10)` the only I-cache set has 2 ways,
both invalid, and `icache_set_avail` is 4: it differs from the number of
invalid ways and exceeds the associativity. -/
theorem free_count_not_exact :
    evictCfg.Valid ∧ ∃ s0 rs s, init_cache evictCfg = some s0 ∧
      run evictCfg s0 [Access.data 0x00, Access.data 0x10] = some (rs, s) ∧
      s.icache = [[{ valid := false, LRU_val := 0, tag := 0 },
                   { valid := false, LRU_val := 1, tag := 0 }]] ∧
      s.icache_set_avail = [4] ∧
      ∃ row a, s.icache[0]? = some row ∧ s.icache_set_avail[0]? = some a ∧
        a ≠ row.countP (fun b => !b.valid) ∧ evictCfg.icacheAssoc < a :=
  ⟨evictCfg_valid, _, _, _, rfl, rfl, rfl, rfl, _, _, rfl, rfl, by decide, by decide⟩

/-- What `evict_L1` does on a match, in 32-bit arithmetic.  If the targeted I-cache
set satisfies the rank property and exactly one way `b` of it carries the rebuilt
tag, and `b` is valid with rank `r`, then `evict_L1` returns and afterwards `b` is
invalid (with the same tag), every other way keeps its tag and valid bit, has its
`LRU_val` decreased by exactly 1 when it was greater than `r` and unchanged when
it was at most `r`, the free-way count `a` of the set becomes `(a + 1) % 2^32`
(which is `a + 1` only below `2^32 - 1`), no other set or count of the I-cache
changes, and the set again satisfies the rank property; likewise for the
D-cache. -/
theorem evict_on_match (cfg : Config) (hv : cfg.Valid) (s : State) (hs : Shape cfg s) (T S : Nat) :
    (cfg.icacheSets ≠ 0 → ∀ (pre post : List cacheBlock) (b : cacheBlock) (a : Nat),
      s.icache[evictOrigin s T S &&& s.i_setIndex_mask]? = some (pre ++ b :: post) →
      s.icache_set_avail[evictOrigin s T S &&& s.i_setIndex_mask]? = some a →
      RankOK (pre ++ b :: post) →
      b.tag = evictOrigin s T S >>> s.i_setIndex_bits → b.valid = true →
      (∀ x ∈ pre ++ post, x.tag ≠ evictOrigin s T S >>> s.i_setIndex_bits) →
      ∃ s1, evict_L1 cfg s T S = some s1 ∧
        s1.icache = s.icache.set (evictOrigin s T S &&& s.i_setIndex_mask)
          (pre.map (closeGap b.LRU_val)
            ++ { valid := false, LRU_val := cfg.icacheAssoc - 1, tag := b.tag }
              :: post.map (closeGap b.LRU_val)) ∧
        s1.icache_set_avail
          = s.icache_set_avail.set (evictOrigin s T S &&& s.i_setIndex_mask) ((a + 1) % 2 ^ 32) ∧
        RankOK (pre.map (closeGap b.LRU_val)
            ++ { valid := false, LRU_val := cfg.icacheAssoc - 1, tag := b.tag }
              :: post.map (closeGap b.LRU_val)) ∧
        (∀ x : cacheBlock,
          (closeGap b.LRU_val x).valid = x.valid ∧ (closeGap b.LRU_val x).tag = x.tag ∧
          (b.LRU_val < x.LRU_val → x.LRU_val < 2 ^ 32 →
            (closeGap b.LRU_val x).LRU_val = x.LRU_val - 1) ∧
          (x.LRU_val ≤ b.LRU_val → (closeGap b.LRU_val x).LRU_val = x.LRU_val)) ∧
        (a + 1 < 2 ^ 32 → (a + 1) % 2 ^ 32 = a + 1)) ∧
    (cfg.dcacheSets ≠ 0 → ∀ (pre post : List cacheBlock) (b : cacheBlock) (a : Nat),
      s.dcache[evictOrigin s T S &&& s.d_setIndex_mask]? = some (pre ++ b :: post) →
      s.dcache_set_avail[evictOrigin s T S &&& s.d_setIndex_mask]? = some a →
      RankOK (pre ++ b :: post) →
      b.tag = evictOrigin s T S >>> s.d_setIndex_bits → b.valid = true →
      (∀ x ∈ pre ++ post, x.tag ≠ evictOrigin s T S >>> s.d_setIndex_bits) →
      ∃ s1, evict_L1 cfg s T S = some s1 ∧
        s1.dcache = s.dcache.set (evictOrigin s T S &&& s.d_setIndex_mask)
          (pre.map (closeGap b.LRU_val)
            ++ { valid := false, LRU_val := cfg.dcacheAssoc - 1, tag := b.tag }
              :: post.map (closeGap b.LRU_val)) ∧
        s1.dcache_set_avail
          = s.dcache_set_avail.set (evictOrigin s T S &&& s.d_setIndex_mask) ((a + 1) % 2 ^ 32) ∧
        RankOK (pre.map (closeGap b.LRU_val)
            ++ { valid := false, LRU_val := cfg.dcacheAssoc - 1, tag := b.tag }
              :: post.map (closeGap b.LRU_val)) ∧
        (∀ x : cacheBlock,
          (closeGap b.LRU_val x).valid = x.valid ∧ (closeGap b.LRU_val x).tag = x.tag ∧
          (b.LRU_val < x.LRU_val → x.LRU_val < 2 ^ 32 →
            (closeGap b.LRU_val x).LRU_val = x.LRU_val - 1) ∧
          (x.LRU_val ≤ b.LRU_val → (closeGap b.LRU_val x).LRU_val = x.LRU_val)) ∧
        (a + 1 < 2 ^ 32 → (a + 1) % 2 ^ 32 = a + 1)) := by
  obtain ⟨hb32, _, hvi, hvd, _⟩ := hv
  have hAi : cfg.icacheAssoc < 2 ^ 32 := hb32.2.1
  have hAd : cfg.dcacheAssoc < 2 ^ 32 := hb32.2.2.2.2.1
  obtain ⟨ci, avi, hIev, _⟩ := evictLevel_spec cfg.icacheSets cfg.icacheAssoc s.i_setIndex_mask
    s.i_setIndex_bits (evictOrigin s T S) s.icache s.icache_set_avail hs.i_len hs.i_row hs.i_av
    hs.i_mask
  obtain ⟨cd, avd, hDev, _⟩ := evictLevel_spec cfg.dcacheSets cfg.dcacheAssoc s.d_setIndex_mask
    s.d_setIndex_bits (evictOrigin s T S) s.dcache s.dcache_set_avail hs.d_len hs.d_row hs.d_av
    hs.d_mask
  refine ⟨?_, ?_⟩
  · intro h0 pre post b a hrow hav hrank ht hbv hothers
    have hl : (pre ++ b :: post).length = cfg.icacheAssoc := hs.i_row _ (List.getElem?_mem hrow)
    have hone := evictLevel_one cfg.icacheSets cfg.icacheAssoc s.i_setIndex_mask s.i_setIndex_bits
      (evictOrigin s T S) a s.icache s.icache_set_avail pre post b h0 hrow hl hav ht hothers
    rw [level_assoc _ _ hvi h0 hAi] at hone
    refine ⟨{ s with
        icache := s.icache.set (evictOrigin s T S &&& s.i_setIndex_mask)
                    (pre.map (closeGap b.LRU_val)
                      ++ { valid := false, LRU_val := cfg.icacheAssoc - 1, tag := b.tag }
                        :: post.map (closeGap b.LRU_val)),
        icache_set_avail := s.icache_set_avail.set (evictOrigin s T S &&& s.i_setIndex_mask)
                    ((a + 1) % 2 ^ 32),
        dcache := cd, dcache_set_avail := avd }, ?_, rfl, rfl,
      rankOK_evict cfg.icacheAssoc hAi pre post b _ hl hbv hrank,
      fun x => closeGap_facts b.LRU_val x, fun h => Nat.mod_eq_of_lt h⟩
    unfold evict_L1
    unfold evictOrigin at hone hDev
    simp only [hone, hDev]
    rfl
  · intro h0 pre post b a hrow hav hrank ht hbv hothers
    have hl : (pre ++ b :: post).length = cfg.dcacheAssoc := hs.d_row _ (List.getElem?_mem hrow)
    have hone := evictLevel_one cfg.dcacheSets cfg.dcacheAssoc s.d_setIndex_mask s.d_setIndex_bits
      (evictOrigin s T S) a s.dcache s.dcache_set_avail pre post b h0 hrow hl hav ht hothers
    rw [level_assoc _ _ hvd h0 hAd] at hone
    refine ⟨{ s with
        icache := ci, icache_set_avail := avi,
        dcache := s.dcache.set (evictOrigin s T S &&& s.d_setIndex_mask)
                    (pre.map (closeGap b.LRU_val)
                      ++ { valid := false, LRU_val := cfg.dcacheAssoc - 1, tag := b.tag }
                        :: post.map (closeGap b.LRU_val)),
        dcache_set_avail := s.dcache_set_avail.set (evictOrigin s T S &&& s.d_setIndex_mask)
                    ((a + 1) % 2 ^ 32) }, ?_, rfl, rfl,
      rankOK_evict cfg.dcacheAssoc hAd pre post b _ hl hbv hrank,
      fun x => closeGap_facts b.LRU_val x, fun h => Nat.mod_eq_of_lt h⟩
    unfold evict_L1
    unfold evictOrigin at hone hIev
    simp only [hone, hIev]
    rfl

/-- The lemma `evict_on_match` at the state after the instruction access 0x10. -/
theorem evict_on_match_witness :
    (∃ s0 rs, init_cache evictCfg = some s0 ∧
      run evictCfg s0 [Access.instr 0x10] = some (rs, matchState)) ∧
    ∃ s1, evict_L1 evictCfg matchState 1 0 = some s1 ∧
      s1.icache = [[{ valid := false, LRU_val := 1, tag := 4 },
                    { valid := false, LRU_val := 0, tag := 0 }]] ∧
      s1.icache_set_avail = [2] ∧ ∀ row ∈ s1.icache, RankOK row := by
  refine ⟨⟨_, _, rfl, rfl⟩, ?_⟩
  obtain ⟨s1, h1, h2, h3, h4, _⟩ :=
    (evict_on_match evictCfg evictCfg_valid matchState matchState_shape 1 0).1 (by decide)
      [] [{ valid := false, LRU_val := 1, tag := 0 }] { valid := true, LRU_val := 0, tag := 4 } 1
      rfl rfl (by decide) rfl rfl (by decide)
  have h2' : s1.icache = [[{ valid := false, LRU_val := 1, tag := 4 },
      { valid := false, LRU_val := 0, tag := 0 }]] := h2.trans (by decide)
  refine ⟨s1, h1, h2', h3, ?_⟩
  intro row hrow
  rw [h2'] at hrow
  have e : row = [{ valid := false, LRU_val := 1, tag := 4 },
      { valid := false, LRU_val := 0, tag := 0 }] := by simpa using hrow
  rw [e]
  decide

/-- What the insertion into a set that is not full does, in 32-bit arithmetic.  On
a miss in a set whose free-way count `a` is positive and which has an invalid
way, the access fills exactly one way, the lowest-index invalid one (all ways
before it are valid), with the accessed tag, `valid = 1`, `LRU_val = 0`; every
other way keeps its tag and valid bit and its `LRU_val` `v` becomes
`(v + 1) % 2^32` (which is `v + 1` only below `2^32 - 1`); the free-way count is
decremented (by exactly 1, as a 32-bit `a > 0`).  This holds for
`l2cache_access`, and for `icache_access` and `dcache_access` on the set and
free-way count found after their call of `l2cache_access`. -/
theorem insert_not_full (cfg : Config) (s : State) (hs : Shape cfg s) (addr : Nat) :
    (cfg.l2cacheSets ≠ 0 → ¬ L2Hit s addr →
      ∃ row a, s.l2cache[l2Index s addr]? = some row ∧
        s.l2cache_set_avail[l2Index s addr]? = some a ∧
        (0 < a → (∃ b ∈ row, b.valid = false) →
          ∃ pre b post, row = pre ++ b :: post ∧ (∀ x ∈ pre, x.valid = true) ∧
            b.valid = false ∧
            l2cache_access cfg s addr = some ((cfg.l2cacheHitTime + cfg.memspeed) % 2 ^ 32,
              { s with l2cacheRefs := (s.l2cacheRefs + 1) % 2 ^ 64,
                       l2cacheMisses := (s.l2cacheMisses + 1) % 2 ^ 64,
                       l2cachePenalties := (s.l2cachePenalties + cfg.memspeed) % 2 ^ 64,
                       l2cache := s.l2cache.set (l2Index s addr)
                         (pre.map ageWay ++ newWay (l2Tag s addr) :: post.map ageWay),
                       l2cache_set_avail := s.l2cache_set_avail.set (l2Index s addr)
                         ((a + 2 ^ 32 - 1) % 2 ^ 32) }))) ∧
    (cfg.icacheSets ≠ 0 → ¬ IHit s addr →
      ∃ p s3 row2 a,
        l2cache_access cfg { s with icacheRefs := (s.icacheRefs + 1) % 2 ^ 64,
                                    icacheMisses := (s.icacheMisses + 1) % 2 ^ 64 } addr
          = some (p, s3) ∧
        s3.icache[iIndex s addr]? = some row2 ∧
        s3.icache_set_avail[iIndex s addr]? = some a ∧
        (0 < a → (∃ b ∈ row2, b.valid = false) →
          ∃ pre b post, row2 = pre ++ b :: post ∧ (∀ x ∈ pre, x.valid = true) ∧
            b.valid = false ∧
            icache_access cfg s addr = some ((cfg.icacheHitTime + p) % 2 ^ 32,
              { s3 with icachePenalties := (s3.icachePenalties + p) % 2 ^ 64,
                        icache := s3.icache.set (iIndex s addr)
                          (pre.map ageWay ++ newWay (iTag s addr) :: post.map ageWay),
                        icache_set_avail := s3.icache_set_avail.set (iIndex s addr)
                          ((a + 2 ^ 32 - 1) % 2 ^ 32) }))) ∧
    (cfg.dcacheSets ≠ 0 → ¬ DHit s addr →
      ∃ p s3 row2 a,
        l2cache_access cfg { s with dcacheRefs := (s.dcacheRefs + 1) % 2 ^ 64,
                                    dcacheMisses := (s.dcacheMisses + 1) % 2 ^ 64 } addr
          = some (p, s3) ∧
        s3.dcache[dIndex s addr]? = some row2 ∧
        s3.dcache_set_avail[dIndex s addr]? = some a ∧
        (0 < a → (∃ b ∈ row2, b.valid = false) →
          ∃ pre b post, row2 = pre ++ b :: post ∧ (∀ x ∈ pre, x.valid = true) ∧
            b.valid = false ∧
            dcache_access cfg s addr = some ((cfg.dcacheHitTime + p) % 2 ^ 32,
              { s3 with dcachePenalties := (s3.dcachePenalties + p) % 2 ^ 64,
                        dcache := s3.dcache.set (dIndex s addr)
                          (pre.map ageWay ++ newWay (dTag s addr) :: post.map ageWay),
                        dcache_set_avail := s3.dcache_set_avail.set (dIndex s addr)
                          ((a + 2 ^ 32 - 1) % 2 ^ 32) }))) ∧
    (∀ t, newWay t = { valid := true, LRU_val := 0, tag := t }) ∧
    (∀ b : cacheBlock, (ageWay b).valid = b.valid ∧ (ageWay b).tag = b.tag ∧
      (ageWay b).LRU_val = (b.LRU_val + 1) % 2 ^ 32 ∧
      (b.LRU_val + 1 < 2 ^ 32 → (ageWay b).LRU_val = b.LRU_val + 1)) ∧
    (∀ a, 0 < a → a < 2 ^ 32 → (a + 2 ^ 32 - 1) % 2 ^ 32 + 1 = a) := by
  refine ⟨?_, ?_, ?_, fun _ => rfl, ?_, ?_⟩
  · intro h0 hmiss
    obtain ⟨row, a, hrow, hav, hl⟩ := l2_row_exists cfg s hs h0 addr
    refine ⟨row, a, hrow, hav, fun ha hinv => ?_⟩
    obtain ⟨pre, b, post, e, hpre, hb⟩ := first_invalid_split row hinv
    refine ⟨pre, b, post, e, hpre, hb, ?_⟩
    rw [l2cache_access_alloc cfg s addr a row h0 hrow hl hav
      (not_holds_of_not_L2Hit s addr row hrow hmiss) ha, allocAvail_of_invalid row a hinv]
    rw [e, allocList_split _ pre post b hpre hb]
  · intro h0 hmiss
    obtain ⟨row, hrow, hcase⟩ := icache_access_cases cfg s addr hs h0
    rcases hcase with ⟨b, hb, hv, ht, _⟩ | ⟨_, p, s3, row2, a, hl2, _, hrow2, hav2, hacc⟩
    · exact absurd ⟨row, hrow, b, hb, hv, ht⟩ hmiss
    · refine ⟨p, s3, row2, a, hl2, hrow2, hav2, fun ha hinv => ?_⟩
      obtain ⟨pre, b, post, e, hpre, hb⟩ := first_invalid_split row2 hinv
      refine ⟨pre, b, post, e, hpre, hb, ?_⟩
      rw [hacc, if_pos ha, if_pos ha, allocAvail_of_invalid row2 a hinv]
      rw [e, allocList_split _ pre post b hpre hb]
  · intro h0 hmiss
    obtain ⟨row, hrow, hcase⟩ := dcache_access_cases cfg s addr hs h0
    rcases hcase with ⟨b, hb, hv, ht, _⟩ | ⟨_, p, s3, row2, a, hl2, _, hrow2, hav2, hacc⟩
    · exact absurd ⟨row, hrow, b, hb, hv, ht⟩ hmiss
    · refine ⟨p, s3, row2, a, hl2, hrow2, hav2, fun ha hinv => ?_⟩
      obtain ⟨pre, b, post, e, hpre, hb⟩ := first_invalid_split row2 hinv
      refine ⟨pre, b, post, e, hpre, hb, ?_⟩
      rw [hacc, if_pos ha, if_pos ha, allocAvail_of_invalid row2 a hinv]
      rw [e, allocList_split _ pre post b hpre hb]
  · intro b
    refine ⟨rfl, rfl, rfl, fun h => ?_⟩
    show (b.LRU_val + 1) % 2 ^ 32 = b.LRU_val + 1
    exact Nat.mod_eq_of_lt h
  · intro a h1 h2
    omega

/-- The lemma `insert_not_full` at the initial state of the spec scenario. -/
theorem insert_not_full_witness :
    ¬ L2Hit scenarioInit 0x00 ∧
    ∃ pre b post, [emptyBlock, emptyBlock] = pre ++ b :: post ∧
      (∀ x ∈ pre, x.valid = true) ∧ b.valid = false ∧
      ∃ s1, l2cache_access scenarioCfg scenarioInit 0x00 = some (110, s1) ∧
        s1.l2cache = scenarioInit.l2cache.set (l2Index scenarioInit 0x00)
          (pre.map ageWay ++ newWay (l2Tag scenarioInit 0x00) :: post.map ageWay) ∧
        s1.l2cache_set_avail = [1] := by
  refine ⟨scenarioInit_l2_miss, ?_⟩
  obtain ⟨row, a, hrow, hav, h⟩ :=
    (insert_not_full scenarioCfg scenarioInit scenarioInit_shape 0x00).1 (by decide)
      scenarioInit_l2_miss
  have e1 : scenarioInit.l2cache[l2Index scenarioInit 0x00]? = some [emptyBlock, emptyBlock] := rfl
  have e2 : scenarioInit.l2cache_set_avail[l2Index scenarioInit 0x00]? = some 2 := rfl
  rw [e1] at hrow
  rw [e2] at hav
  have hr := Option.some.inj hrow
  have ha := Option.some.inj hav
  subst hr
  subst ha
  obtain ⟨pre, b, post, e, hpre, hb, hacc⟩ := h (by decide) ⟨emptyBlock, by simp, rfl⟩
  exact ⟨pre, b, post, e, hpre, hb, _, hacc, rfl, rfl⟩

/-- C18. Replacement in a full L2 set.  On an L2 miss (of a 32-bit address, with
the shift amounts `setIndexBits + blockOffsetBits` below 32, where C defines the
shifts) in a set with free-way count 0 whose ways are all valid with ranks
exactly `0 … A-1`, `l2cache_access`
overwrites exactly one way, the only way `b` with `LRU_val = A - 1`, with the
accessed tag, `valid = 1`, `LRU_val = 0`; every other way keeps its tag and valid
bit and has `LRU_val` increased by exactly 1; and when `inclusive = TRUE` the
resulting state is that of exactly one call of `evict_L1`, with the old tag of
`b` and the set index, followed by the update of the L2 set (the call comes
before the tag is overwritten); otherwise nothing of L1 changes. -/
theorem replace_full_l2 (cfg : Config) (hv : cfg.Valid) (h0 : cfg.l2cacheSets ≠ 0) (s : State)
    (hs : Shape cfg s)
    (_hshift : s.i_setIndex_bits + s.blockOffset_bits < 32 ∧
      s.d_setIndex_bits + s.blockOffset_bits < 32 ∧
      s.l2_setIndex_bits + s.blockOffset_bits < 32)
    (addr : Nat) (_ha : addr < 2 ^ 32) (row : List cacheBlock)
    (hrow : s.l2cache[l2Index s addr]? = some row)
    (hav : s.l2cache_set_avail[l2Index s addr]? = some 0)
    (hmiss : ¬ L2Hit s addr) (hvalid : ∀ b ∈ row, b.valid = true) (hrank : RankOK row) :
    ∃ pre b post sE, row = pre ++ b :: post ∧ b.LRU_val = cfg.l2cacheAssoc - 1 ∧
      (∀ x ∈ pre ++ post, x.LRU_val ≠ cfg.l2cacheAssoc - 1 ∧
        (ageWay x).LRU_val = x.LRU_val + 1 ∧ (ageWay x).tag = x.tag ∧
        (ageWay x).valid = x.valid) ∧
      (if TRUE = cfg.inclusive
        then evict_L1 cfg { s with l2cacheRefs := (s.l2cacheRefs + 1) % 2 ^ 64,
                                   l2cacheMisses := (s.l2cacheMisses + 1) % 2 ^ 64,
                                   l2cachePenalties := (s.l2cachePenalties + cfg.memspeed) % 2 ^ 64 }
               b.tag (l2Index s addr)
        else some { s with l2cacheRefs := (s.l2cacheRefs + 1) % 2 ^ 64,
                           l2cacheMisses := (s.l2cacheMisses + 1) % 2 ^ 64,
                           l2cachePenalties := (s.l2cachePenalties + cfg.memspeed) % 2 ^ 64 })
        = some sE ∧
      l2cache_access cfg s addr = some ((cfg.l2cacheHitTime + cfg.memspeed) % 2 ^ 32,
        { sE with l2cache := s.l2cache.set (l2Index s addr)
                    (pre.map ageWay ++ newWay (l2Tag s addr) :: post.map ageWay) }) := by
  have hA : cfg.l2cacheAssoc < 2 ^ 32 := hv.1.2.2.2.2.2.2.2.1
  have hA1 : 1 ≤ cfg.l2cacheAssoc := by
    rcases hv.2.2.2.2 with h | h
    · exact absurd h h0
    · exact h.2
  have hl : row.length = cfg.l2cacheAssoc := hs.l2_row _ (List.getElem?_mem hrow)
  obtain ⟨pre, b, post, e, hbl, hothers⟩ := rank_full_split cfg.l2cacheAssoc row hA1 hl hvalid hrank
  have hmod : (cfg.l2cacheAssoc + 2 ^ 32 - 1) % 2 ^ 32 = cfg.l2cacheAssoc - 1 := by omega
  have hs3 : Shape cfg { s with
      l2cacheRefs := (s.l2cacheRefs + 1) % 2 ^ 64,
      l2cacheMisses := (s.l2cacheMisses + 1) % 2 ^ 64,
      l2cachePenalties := (s.l2cachePenalties + cfg.memspeed) % 2 ^ 64 } :=
    shape_counters cfg s hs _ _ _ _ _ _ _ _ _
  obtain ⟨sE, hsE, hloop⟩ := l2replaceLoop_one cfg (l2Tag s addr) (l2Index s addr) pre post b _ hs3
    (by rw [← e]; exact hrow) (by rw [hmod, hbl])
    (fun x hx => by
      have := hothers x (List.mem_append_left _ hx)
      rw [hmod]; omega)
    (fun x hx => by
      have := hothers x (List.mem_append_right _ hx)
      rw [hmod]; omega)
  refine ⟨pre, b, post, sE, e, hbl, ?_, hsE, ?_⟩
  · intro x hx
    have hlt := hothers x hx
    refine ⟨by omega, ?_, rfl, rfl⟩
    show (x.LRU_val + 1) % 2 ^ 32 = x.LRU_val + 1
    exact Nat.mod_eq_of_lt (by omega)
  · have hlook := lookup_miss cfg.l2cacheAssoc (l2Tag s addr) row hl
      (not_holds_of_not_L2Hit s addr row hrow hmiss)
    rw [← e, hl] at hloop
    unfold l2cache_access
    unfold l2Index at hrow hav hloop ⊢
    unfold l2Tag at hlook hloop ⊢
    rw [if_neg (fun h => h0 h.symm)]
    simp only [hrow, hlook, hav, gt_iff_lt, Nat.lt_irrefl, if_false]
    rw [hloop]

/-- Witness for C18, at the full two-way L2 set of `fullState` (reached by the
instruction accesses 0x00, 0x04) on the inclusive configuration
`scenarioInclCfg`, for the address 0x08.  The victim is way 0 (`LRU_val` 1, tag
0), way 1 is aged from 0 to 1, and the single call `evict_L1(0, 0)` invalidates
the I-cache way of block 0. -/
theorem replace_full_l2_witness :
    (∃ s0 rs, init_cache scenarioInclCfg = some s0 ∧
      run scenarioInclCfg s0 [Access.instr 0x00, Access.instr 0x04] = some (rs, fullState)) ∧
    ¬ L2Hit fullState 0x08 ∧
    RankOK [{ valid := true, LRU_val := 1, tag := 0 }, { valid := true, LRU_val := 0, tag := 1 }] ∧
    (∃ pre b post sE,
      [{ valid := true, LRU_val := 1, tag := 0 }, { valid := true, LRU_val := 0, tag := 1 }]
        = pre ++ b :: post ∧ b.LRU_val = 1 ∧
      evict_L1 scenarioInclCfg { fullState with l2cacheRefs := 3, l2cacheMisses := 3,
                                                l2cachePenalties := 300 } b.tag 0 = some sE ∧
      l2cache_access scenarioInclCfg fullState 0x08 = some (110,
        { sE with l2cache := fullState.l2cache.set 0
                    (pre.map ageWay ++ newWay 2 :: post.map ageWay) })) ∧
    ∃ s1, l2cache_access scenarioInclCfg fullState 0x08 = some (110, s1) ∧
      s1.l2cache = [[{ valid := true, LRU_val := 0, tag := 2 },
                     { valid := true, LRU_val := 1, tag := 1 }]] ∧
      s1.icache = [[{ valid := false, LRU_val := 1, tag := 0 },
                    { valid := true, LRU_val := 0, tag := 1 }]] ∧
      s1.icache_set_avail = [1] := by
  refine ⟨⟨_, _, rfl, rfl⟩, fullState_l2_miss, by decide, ?_, ⟨_, rfl, rfl, rfl, rfl⟩⟩
  obtain ⟨pre, b, post, sE, e, hb, _, hE, hacc⟩ :=
    replace_full_l2 scenarioInclCfg scenarioInclCfg_valid (by decide) fullState
      fullState_shape_incl ⟨by decide, by decide, by decide⟩ 0x08 (by decide)
      [{ valid := true, LRU_val := 1, tag := 0 }, { valid := true, LRU_val := 0, tag := 1 }]
      rfl rfl fullState_l2_miss (by decide) (by decide)
  exact ⟨pre, b, post, sE, e, hb, hE, hacc⟩

/-- C19. Statistics conservation.  With all three levels enabled, after
`init_cache` any sequence of `icache_access` / `dcache_access` calls returns,
and as long as no 64-bit counter overflows (the number of calls and the number
of calls times `memspeed` are below `2^64`) the counters satisfy
`l2cacheRefs = icacheMisses + dcacheMisses`, `icacheMisses ≤ icacheRefs`,
`dcacheMisses ≤ dcacheRefs`, `l2cacheMisses ≤ l2cacheRefs`,
`icacheRefs + dcacheRefs` = number of calls, and
`l2cachePenalties = l2cacheMisses * memspeed`. -/
theorem statistics_conservation (cfg : Config) (hb : cfg.Bits32) (hen : cfg.AllEnabled)
    (s0 : State) (hinit : init_cache cfg = some s0) (calls : List Access)
    (hn : calls.length < 2 ^ 64) (hp : calls.length * cfg.memspeed < 2 ^ 64) :
    ∃ rs s, run cfg s0 calls = some (rs, s) ∧
      s.l2cacheRefs = s.icacheMisses + s.dcacheMisses ∧
      s.icacheMisses ≤ s.icacheRefs ∧ s.dcacheMisses ≤ s.dcacheRefs ∧
      s.l2cacheMisses ≤ s.l2cacheRefs ∧
      s.icacheRefs + s.dcacheRefs = calls.length ∧
      s.l2cachePenalties = s.l2cacheMisses * cfg.memspeed := by
  have hs0 := init_shape cfg s0 hb hinit
  obtain ⟨rs, s, hrun, _⟩ := run_total cfg calls s0 hs0
  have h0 : StatsOK cfg 0 s0 := by
    obtain ⟨bo, ib, db, lb, _, _, _, _, e⟩ := init_cache_some cfg s0 hinit
    rw [e]
    exact ⟨rfl, le_refl _, le_refl _, le_refl _, rfl, by simp⟩
  have h := stats_run cfg hen calls 0 s0 rs s hs0 h0 (by omega) (by simpa using hp) hrun
  rw [Nat.zero_add] at h
  exact ⟨rs, s, hrun, h⟩

theorem statistics_conservation_witness :
    ∃ rs s, run scenarioCfg scenarioInit [Access.instr 0x00, Access.data 0x04, Access.instr 0x00]
        = some (rs, s) ∧
      s.l2cacheRefs = s.icacheMisses + s.dcacheMisses ∧
      s.icacheMisses ≤ s.icacheRefs ∧ s.dcacheMisses ≤ s.dcacheRefs ∧
      s.l2cacheMisses ≤ s.l2cacheRefs ∧
      s.icacheRefs + s.dcacheRefs
        = [Access.instr 0x00, Access.data 0x04, Access.instr 0x00].length ∧
      s.l2cachePenalties = s.l2cacheMisses * scenarioCfg.memspeed :=
  statistics_conservation scenarioCfg scenarioCfg_valid.1 ⟨by decide, by decide, by decide⟩
    scenarioInit rfl [Access.instr 0x00, Access.data 0x04, Access.instr 0x00]
    (by decide) (by decide)

/-- C20. `INTlog2` is the integer base-2 logarithm: on every 32-bit `num ≥ 1` it
returns, and the value returned is the only `c` with `2^c ≤ num < 2^(c+1)`; on
`2^k` with `k ≤ 31` it returns `k`; and after `init_cache` on a valid
configuration `2^blockOffset_bits = blocksize` and, for every enabled level,
`2^setIndex_bits = sets = setIndex_mask + 1`. -/
theorem INTlog2_floor_log (cfg : Config) (hv : cfg.Valid) (s : State)
    (hinit : init_cache cfg = some s) :
    (∀ num, 1 ≤ num → num < 2 ^ 32 →
      ∃ c, INTlog2 num = some c ∧ 2 ^ c ≤ num ∧ num < 2 ^ (c + 1) ∧
        ∀ c1, 2 ^ c1 ≤ num → num < 2 ^ (c1 + 1) → c1 = c) ∧
    (∀ k, k < 32 → INTlog2 (2 ^ k) = some k) ∧
    2 ^ s.blockOffset_bits = cfg.blocksize ∧
    (cfg.icacheSets ≠ 0 →
      2 ^ s.i_setIndex_bits = cfg.icacheSets ∧ cfg.icacheSets = s.i_setIndex_mask + 1) ∧
    (cfg.dcacheSets ≠ 0 →
      2 ^ s.d_setIndex_bits = cfg.dcacheSets ∧ cfg.dcacheSets = s.d_setIndex_mask + 1) ∧
    (cfg.l2cacheSets ≠ 0 →
      2 ^ s.l2_setIndex_bits = cfg.l2cacheSets ∧ cfg.l2cacheSets = s.l2_setIndex_mask + 1) := by
  refine ⟨?_, fun k hk => INTlog2_pow2 k hk, init_geometry cfg hv s hinit⟩
  intro num h1 h2
  obtain ⟨c, hc, hlo, hhi⟩ := INTlog2Loop_floor 32 num 0 h1 h2
  refine ⟨c, by simpa [INTlog2] using hc, hlo, hhi, fun c1 h3 h4 => log_unique num c c1 hlo hhi h3 h4⟩

theorem INTlog2_floor_log_witness :
    (∃ c, INTlog2 12 = some c ∧ 2 ^ c ≤ 12 ∧ 12 < 2 ^ (c + 1) ∧
        ∀ c1, 2 ^ c1 ≤ 12 → 12 < 2 ^ (c1 + 1) → c1 = c) ∧
    INTlog2 12 = some 3 ∧
    2 ^ scenarioInit.blockOffset_bits = scenarioCfg.blocksize :=
  ⟨(INTlog2_floor_log scenarioCfg scenarioCfg_valid scenarioInit rfl).1 12 (by decide) (by decide),
    rfl, (INTlog2_floor_log scenarioCfg scenarioCfg_valid scenarioInit rfl).2.2.1⟩

/-! ## Lemmas for the runs on which the 32-bit count and `LRU_val` wrap around -/

theorem count_step1 (c : State) :
    ∃ r s1, step evictCfg (pumpState true (2 ^ 32 - 1) c) (Access.instr 0x04) = some (r, s1) ∧
      s1 = withArrays s1
        [[{ valid := true, LRU_val := 0, tag := 1 }, { valid := false, LRU_val := 2, tag := 0 }]]
        [4294967294]
        [[{ valid := true, LRU_val := 0, tag := 4 }]] [0]
        [[{ valid := true, LRU_val := 0, tag := 1 }], [{ valid := true, LRU_val := 0, tag := 0 }],
          [emptyBlock], [emptyBlock]] [0, 0, 1, 1] := by
  have e1 : 1 &&& 3 = 1 := by decide
  simp [step, icache_access, l2cache_access, evict_L1, pumpState, evictLevel,
    forLoop, evictBody, evictInner, evictCfg, lookupLoop, touchBody, allocBody, l2replaceBody,
    replaceBody, TRUE, emptyBlock, e1]
  exact ⟨_, _, ⟨rfl, rfl⟩, rfl⟩

theorem count_step2 (c : State) :
    ∃ r s1, step evictCfg (withArrays c
        [[{ valid := true, LRU_val := 0, tag := 1 }, { valid := false, LRU_val := 2, tag := 0 }]]
        [4294967294]
        [[{ valid := true, LRU_val := 0, tag := 4 }]] [0]
        [[{ valid := true, LRU_val := 0, tag := 1 }], [{ valid := true, LRU_val := 0, tag := 0 }],
          [emptyBlock], [emptyBlock]] [0, 0, 1, 1]) (Access.data 0x00) = some (r, s1) ∧
      s1 = withArrays s1
        [[{ valid := true, LRU_val := 0, tag := 1 }, { valid := false, LRU_val := 2, tag := 0 }]]
        [4294967294]
        [[{ valid := true, LRU_val := 0, tag := 0 }]] [0]
        [[{ valid := true, LRU_val := 0, tag := 0 }], [{ valid := true, LRU_val := 0, tag := 0 }],
          [emptyBlock], [emptyBlock]] [0, 0, 1, 1] := by
  have e1 : 4 &&& 3 = 0 := by decide
  simp [step, dcache_access, l2cache_access, evict_L1, withArrays, evictLevel,
    forLoop, evictBody, evictInner, evictCfg, lookupLoop, touchBody, allocBody, l2replaceBody,
    replaceBody, TRUE, emptyBlock, e1]
  exact ⟨_, _, ⟨rfl, rfl⟩, rfl⟩

theorem count_step3 (c : State) :
    ∃ r s1, step evictCfg (withArrays c
        [[{ valid := true, LRU_val := 0, tag := 1 }, { valid := false, LRU_val := 2, tag := 0 }]]
        [4294967294]
        [[{ valid := true, LRU_val := 0, tag := 0 }]] [0]
        [[{ valid := true, LRU_val := 0, tag := 0 }], [{ valid := true, LRU_val := 0, tag := 0 }],
          [emptyBlock], [emptyBlock]] [0, 0, 1, 1]) (Access.data 0x10) = some (r, s1) ∧
      s1 = withArrays s1
        [[{ valid := true, LRU_val := 0, tag := 1 }, { valid := false, LRU_val := 1, tag := 0 }]]
        [4294967295]
        [[{ valid := true, LRU_val := 0, tag := 4 }]] [0]
        [[{ valid := true, LRU_val := 0, tag := 1 }], [{ valid := true, LRU_val := 0, tag := 0 }],
          [emptyBlock], [emptyBlock]] [0, 0, 1, 1] := by
  have e1 : 4 &&& 3 = 0 := by decide
  simp [step, dcache_access, l2cache_access, evict_L1, withArrays, evictLevel,
    forLoop, evictBody, evictInner, evictCfg, lookupLoop, touchBody, allocBody, l2replaceBody,
    replaceBody, TRUE, emptyBlock, e1]
  exact ⟨_, _, ⟨rfl, rfl⟩, rfl⟩

theorem count_evict (c : State) :
    ∃ s1, evict_L1 evictCfg (withArrays c
        [[{ valid := true, LRU_val := 0, tag := 1 }, { valid := false, LRU_val := 1, tag := 0 }]]
        [4294967295]
        [[{ valid := true, LRU_val := 0, tag := 4 }]] [0]
        [[{ valid := true, LRU_val := 0, tag := 1 }], [{ valid := true, LRU_val := 0, tag := 0 }],
          [emptyBlock], [emptyBlock]] [0, 0, 1, 1]) 0 1 = some s1 ∧
      s1.icache = [[{ valid := false, LRU_val := 1, tag := 1 },
                    { valid := false, LRU_val := 0, tag := 0 }]] ∧
      s1.icache_set_avail = [0] := by
  simp [evict_L1, withArrays, evictLevel, forLoop, evictBody, evictInner, evictCfg]

theorem count_dup (n : Nat) (hn : (4 + 2 * n) % 2 ^ 32 = 2 ^ 32 - 2) :
    ∃ s0 rs s s1, init_cache evictCfg = some s0 ∧
      run evictCfg s0 ([Access.data 0x00, Access.instr 0x10, Access.data 0x00]
        ++ (pumpCalls n
          ++ [Access.data 0x10, Access.instr 0x04, Access.data 0x00, Access.data 0x10]))
        = some (rs, s) ∧
      Reachable evictCfg s ∧
      s.icache = [[{ valid := true, LRU_val := 0, tag := 1 },
                   { valid := false, LRU_val := 1, tag := 0 }]] ∧
      s.icache_set_avail = [4294967295] ∧
      evictOrigin s 0 1 &&& s.i_setIndex_mask = 0 ∧
      evictOrigin s 0 1 >>> s.i_setIndex_bits = 1 ∧
      evict_L1 evictCfg s 0 1 = some s1 ∧
      s1.icache = [[{ valid := false, LRU_val := 1, tag := 1 },
                    { valid := false, LRU_val := 0, tag := 0 }]] ∧
      s1.icache_set_avail = [0] := by
  obtain ⟨s0, rs3, s3, h0, hrun3, hp⟩ : ∃ s0 rs s3, init_cache evictCfg = some s0 ∧
      run evictCfg s0 [Access.data 0x00, Access.instr 0x10, Access.data 0x00] = some (rs, s3) ∧
      s3 = pumpState false (4 % 2 ^ 32) s3 := ⟨_, _, _, rfl, rfl, rfl⟩
  obtain ⟨rsp, c1, hrunp⟩ := pump_run n 4 s3
  rw [← hp, hn] at hrunp
  obtain ⟨r4, s4, hstep4, hs4⟩ := pump_step10 (2 ^ 32 - 2) c1
  have e2 : (2 ^ 32 - 2 + 1) % 2 ^ 32 = 2 ^ 32 - 1 := by norm_num
  rw [e2] at hs4
  rw [hs4] at hstep4
  obtain ⟨r5, s5, hstep5, hs5⟩ := count_step1 s4
  rw [hs5] at hstep5
  obtain ⟨r6, s6, hstep6, hs6⟩ := count_step2 s5
  rw [hs6] at hstep6
  obtain ⟨r7, s7, hstep7, hs7⟩ := count_step3 s6
  obtain ⟨s8, hev, hic, hia⟩ := count_evict s7
  rw [← hs7] at hev
  have hlast : run evictCfg (pumpState false (2 ^ 32 - 2) c1)
      [Access.data 0x10, Access.instr 0x04, Access.data 0x00, Access.data 0x10]
      = some ([r4, r5, r6, r7], s7) :=
    run_cons_some _ _ _ _ _ _ _ _ hstep4 (run_cons_some _ _ _ _ _ _ _ _ hstep5
      (run_cons_some _ _ _ _ _ _ _ _ hstep6 (run_cons_some _ _ _ _ _ _ _ _ hstep7 rfl)))
  have hall := run_append_some evictCfg _ _ _ _ _ _ _ hrun3
    (run_append_some evictCfg _ _ _ _ _ _ _ hrunp hlast)
  have hreach : Reachable evictCfg s7 := by
    refine reachable_of_run evictCfg _ s0 _ s7 (Reachable.init _ h0) ?_ hall
    have ha : ∀ c ∈ [Access.data 0x00, Access.instr 0x10, Access.data 0x00], c.addr < 2 ^ 32 := by
      decide
    have hb : ∀ c ∈ [Access.data 0x10, Access.instr 0x04, Access.data 0x00, Access.data 0x10],
        c.addr < 2 ^ 32 := by decide
    intro c hc
    rcases List.mem_append.1 hc with hc | hc
    · exact ha c hc
    · rcases List.mem_append.1 hc with hc | hc
      · exact pumpCalls_addr n c hc
      · exact hb c hc
  refine ⟨s0, _, s7, s8, h0, hall, hreach, ?_, ?_, ?_, ?_, hev, hic, hia⟩
  · rw [hs7]; rfl
  · rw [hs7]; rfl
  · rw [hs7]; simp [evictOrigin, withArrays]
  · rw [hs7]; simp [evictOrigin, withArrays]

theorem evict3Cfg_valid : evict3Cfg.Valid :=
  ⟨by unfold Config.Bits32; decide, ⟨2, by decide, rfl⟩,
    Or.inr ⟨⟨0, by decide, rfl⟩, by decide⟩, Or.inr ⟨⟨0, by decide, rfl⟩, by decide⟩,
    Or.inr ⟨⟨2, by decide, rfl⟩, by decide⟩⟩

theorem age_step (u v : Nat) (c : State) :
    ∃ r s1, step evict3Cfg (ageState u v c) (Access.instr 0x0C) = some (r, s1) ∧
      s1 = ageState ((u + 1) % 2 ^ 32) ((v + 1) % 2 ^ 32) s1 := by
  have e1 : 3 &&& 3 = 3 := by decide
  simp [step, icache_access, l2cache_access, evict_L1, ageState, withArrays, evictLevel, forLoop,
    evictBody, evictInner, evict3Cfg, lookupLoop, touchBody, allocBody, l2replaceBody, replaceBody,
    TRUE, emptyBlock, e1]
  exact ⟨_, _, ⟨rfl, rfl⟩, rfl⟩

theorem ageCalls_addr (n : Nat) : ∀ c ∈ ageCalls n, c.addr < 2 ^ 32 := by
  induction n with
  | zero => intro c hc; cases hc
  | succ n ih =>
    intro c hc
    rcases List.mem_cons.1 hc with h | h
    · subst h; decide
    · exact ih c h

theorem age_run (n : Nat) :
    ∀ (u v : Nat) (c : State),
      ∃ rs c1, run evict3Cfg (ageState (u % 2 ^ 32) (v % 2 ^ 32) c) (ageCalls n)
        = some (rs, ageState ((u + n) % 2 ^ 32) ((v + n) % 2 ^ 32) c1) := by
  induction n with
  | zero => intro u v c; exact ⟨[], c, rfl⟩
  | succ n ih =>
    intro u v c
    obtain ⟨r1, s1, hstep1, hs1⟩ := age_step (u % 2 ^ 32) (v % 2 ^ 32) c
    have eu : (u % 2 ^ 32 + 1) % 2 ^ 32 = (u + 1) % 2 ^ 32 := by omega
    have ev : (v % 2 ^ 32 + 1) % 2 ^ 32 = (v + 1) % 2 ^ 32 := by omega
    rw [hs1, eu, ev] at hstep1
    obtain ⟨rs, c1, hrun⟩ := ih (u + 1) (v + 1) s1
    have e2 : u + 1 + n = u + (n + 1) := by omega
    have e3 : v + 1 + n = v + (n + 1) := by omega
    rw [e2, e3] at hrun
    exact ⟨r1 :: rs, c1, run_cons_some _ _ _ _ _ _ _ _ hstep1 hrun⟩

theorem age_evict_step (u v : Nat) (h : v ≤ u) (c : State) :
    ∃ r s1, step evict3Cfg (ageState u v c) (Access.data 0x14) = some (r, s1) ∧
      s1 = withArrays s1
        [[{ valid := true, LRU_val := v, tag := 0 },
          { valid := false, LRU_val := 2, tag := 1 },
          { valid := true, LRU_val := u, tag := 2 }]] [3]
        [[{ valid := true, LRU_val := 0, tag := 5 }]] [1]
        [[{ valid := true, LRU_val := 0, tag := 0 }], [{ valid := true, LRU_val := 0, tag := 1 }],
          [{ valid := true, LRU_val := 0, tag := 0 }], [{ valid := true, LRU_val := 0, tag := 0 }]]
        [0, 0, 0, 0] := by
  have e1 : 5 &&& 3 = 1 := by decide
  have h1 : ¬ u < v := Nat.not_lt.2 h
  simp [step, dcache_access, l2cache_access, evict_L1, ageState, withArrays, evictLevel, forLoop,
    evictBody, evictInner, evict3Cfg, lookupLoop, touchBody, allocBody, l2replaceBody, replaceBody,
    TRUE, emptyBlock, e1, h1]
  exact ⟨_, _, ⟨rfl, rfl⟩, rfl⟩

theorem age_fill_step (c : State) :
    ∃ r s1, icache_access evict3Cfg (withArrays c
        [[{ valid := true, LRU_val := 4294967292, tag := 0 },
          { valid := false, LRU_val := 2, tag := 1 },
          { valid := true, LRU_val := 4294967295, tag := 2 }]] [3]
        [[{ valid := true, LRU_val := 0, tag := 5 }]] [1]
        [[{ valid := true, LRU_val := 0, tag := 0 }], [{ valid := true, LRU_val := 0, tag := 1 }],
          [{ valid := true, LRU_val := 0, tag := 0 }], [{ valid := true, LRU_val := 0, tag := 0 }]]
        [0, 0, 0, 0]) 0x14 = some (r, s1) ∧
      s1.icache = [[{ valid := true, LRU_val := 4294967293, tag := 0 },
                    { valid := true, LRU_val := 0, tag := 5 },
                    { valid := true, LRU_val := 0, tag := 2 }]] ∧
      s1.icache_set_avail = [2] := by
  have e1 : 5 &&& 3 = 1 := by decide
  simp [icache_access, l2cache_access, evict_L1, withArrays, evictLevel, forLoop,
    evictBody, evictInner, evict3Cfg, lookupLoop, touchBody, allocBody, l2replaceBody, replaceBody,
    TRUE, emptyBlock, e1]
  exact ⟨_, _, ⟨rfl, rfl⟩, rfl, rfl⟩

theorem age_miss (u v : Nat) (c : State) :
    ¬ IHit (withArrays c
        [[{ valid := true, LRU_val := v, tag := 0 },
          { valid := false, LRU_val := 2, tag := 1 },
          { valid := true, LRU_val := u, tag := 2 }]] [3]
        [[{ valid := true, LRU_val := 0, tag := 5 }]] [1]
        [[{ valid := true, LRU_val := 0, tag := 0 }], [{ valid := true, LRU_val := 0, tag := 1 }],
          [{ valid := true, LRU_val := 0, tag := 0 }], [{ valid := true, LRU_val := 0, tag := 0 }]]
        [0, 0, 0, 0]) 0x14 := by
  simp [IHit, Holds, iIndex, iTag, withArrays]

set_option maxRecDepth 1000000 in
theorem age_prefix : ∃ s0 rs s9, init_cache evict3Cfg = some s0 ∧
    run evict3Cfg s0 [Access.instr 0x00, Access.instr 0x04, Access.instr 0x10,
        Access.instr 0x08, Access.instr 0x0C, Access.instr 0x0C, Access.data 0x00,
        Access.data 0x10, Access.instr 0x00] = some (rs, s9) ∧
    s9 = ageState (3 % 2 ^ 32) (0 % 2 ^ 32) s9 := ⟨_, _, _, rfl, rfl, rfl⟩

theorem age_wrap (n : Nat) (hu : (3 + n) % 2 ^ 32 = 4294967295)
    (hv : (0 + n) % 2 ^ 32 = 4294967292) :
    ∃ s0 rs s r s1, init_cache evict3Cfg = some s0 ∧
      run evict3Cfg s0 ([Access.instr 0x00, Access.instr 0x04, Access.instr 0x10,
          Access.instr 0x08, Access.instr 0x0C, Access.instr 0x0C, Access.data 0x00,
          Access.data 0x10, Access.instr 0x00]
        ++ (ageCalls n ++ [Access.data 0x14])) = some (rs, s) ∧
      Reachable evict3Cfg s ∧
      s.icache = [[{ valid := true, LRU_val := 4294967292, tag := 0 },
                   { valid := false, LRU_val := 2, tag := 1 },
                   { valid := true, LRU_val := 4294967295, tag := 2 }]] ∧
      s.icache_set_avail = [3] ∧
      iIndex s 0x14 = 0 ∧ iTag s 0x14 = 5 ∧
      ¬ IHit s 0x14 ∧
      icache_access evict3Cfg s 0x14 = some (r, s1) ∧
      s1.icache = [[{ valid := true, LRU_val := 4294967293, tag := 0 },
                    { valid := true, LRU_val := 0, tag := 5 },
                    { valid := true, LRU_val := 0, tag := 2 }]] ∧
      s1.icache_set_avail = [2] := by
  obtain ⟨s0, rs9, s9, h0, hrun9, hp⟩ := age_prefix
  obtain ⟨rsp, c1, hrunp⟩ := age_run n 3 0 s9
  rw [← hp, hu, hv] at hrunp
  obtain ⟨r4, s4, hstep4, hs4⟩ := age_evict_step 4294967295 4294967292 (by norm_num) c1
  obtain ⟨r5, s5, hacc, hic, hia⟩ := age_fill_step s4
  rw [← hs4] at hacc
  have hmiss := age_miss 4294967295 4294967292 s4
  rw [← hs4] at hmiss
  have hlast : run evict3Cfg (ageState 4294967295 4294967292 c1) [Access.data 0x14]
      = some ([r4], s4) :=
    run_cons_some _ _ _ _ _ _ _ _ hstep4 rfl
  have hall := run_append_some evict3Cfg _ _ _ _ _ _ _ hrun9
    (run_append_some evict3Cfg _ _ _ _ _ _ _ hrunp hlast)
  have hreach : Reachable evict3Cfg s4 := by
    refine reachable_of_run evict3Cfg _ s0 _ s4 (Reachable.init _ h0) ?_ hall
    have ha : ∀ c ∈ [Access.instr 0x00, Access.instr 0x04, Access.instr 0x10,
          Access.instr 0x08, Access.instr 0x0C, Access.instr 0x0C, Access.data 0x00,
          Access.data 0x10, Access.instr 0x00], c.addr < 2 ^ 32 := by
      decide
    have hb : ∀ c ∈ [Access.data 0x14], c.addr < 2 ^ 32 := by decide
    intro c hc
    rcases List.mem_append.1 hc with hc | hc
    · exact ha c hc
    · rcases List.mem_append.1 hc with hc | hc
      · exact ageCalls_addr n c hc
      · exact hb c hc
  refine ⟨s0, _, s4, r5, s5, h0, hall, hreach, ?_, ?_, ?_, ?_, hmiss, hacc, hic, hia⟩
  · rw [hs4]; rfl
  · rw [hs4]; rfl
  · rw [hs4]; simp [iIndex, withArrays]
  · rw [hs4]; simp [iTag, withArrays]

/-! ## The claims on invalidation and insertion, evaluated on the code -/

/-- C16. The free-way count is not increased by 1 on the code.  On the valid
inclusive configuration `evictCfg` the run `dcache_access(0x00)`,
`icache_access(0x10)`, `dcache_access(0x00)`, then `2^31 - 3` times the pair
`dcache_access(0x10)`, `dcache_access(0x00)`, then `dcache_access(0x10)`,
`icache_access(0x04)`, `dcache_access(0x00)`, `dcache_access(0x10)` ends in a
(reachable) state whose only I-cache set satisfies the rank property, holds
exactly one way with tag 1, valid with rank 0, and has the free-way count
`2^32 - 1`.  `evict_L1(0, 1)` targets that set with tag 1, invalidates the way,
and leaves the count at 0. -/
theorem evict_count_wraps :
    evictCfg.Valid ∧ ∃ s0 rs s s1, init_cache evictCfg = some s0 ∧
      run evictCfg s0 ([Access.data 0x00, Access.instr 0x10, Access.data 0x00]
        ++ (pumpCalls (2 ^ 31 - 3)
          ++ [Access.data 0x10, Access.instr 0x04, Access.data 0x00, Access.data 0x10]))
        = some (rs, s) ∧
      Reachable evictCfg s ∧
      s.icache = [[{ valid := true, LRU_val := 0, tag := 1 },
                   { valid := false, LRU_val := 1, tag := 0 }]] ∧
      s.icache_set_avail = [4294967295] ∧
      RankOK [{ valid := true, LRU_val := 0, tag := 1 },
              { valid := false, LRU_val := 1, tag := 0 }] ∧
      evictOrigin s 0 1 &&& s.i_setIndex_mask = 0 ∧
      evictOrigin s 0 1 >>> s.i_setIndex_bits = 1 ∧
      evict_L1 evictCfg s 0 1 = some s1 ∧
      s1.icache = [[{ valid := false, LRU_val := 1, tag := 1 },
                    { valid := false, LRU_val := 0, tag := 0 }]] ∧
      s1.icache_set_avail = [0] := by
  obtain ⟨s0, rs, s, s1, h0, hrun, hreach, h1, h2, h3, h4, h5, h6, h7⟩ :=
    count_dup (2 ^ 31 - 3) (by norm_num)
  exact ⟨evictCfg_valid, s0, rs, s, s1, h0, hrun, hreach, h1, h2, by decide, h3, h4, h5, h6, h7⟩

/-- C17. The valid ways are not all aged by exactly 1 on the code.  On the valid
inclusive configuration `evict3Cfg` the run `icache_access` of `0x00`, `0x04`,
`0x10`, `0x08`, `0x0C`, `0x0C`, `dcache_access` of `0x00`, `0x10`,
`icache_access(0x00)`, then `2^32 - 4` times `icache_access(0x0C)`, then
`dcache_access(0x14)` ends in a (reachable) state whose only I-cache set has
free-way count 3, the invalid way 1, and the valid ways 0 and 2 with `LRU_val`
`4294967292` and `4294967295`.  `icache_access(0x14)` misses in that set and
fills way 1, the lowest-index invalid way, and the count becomes 2, but the
`LRU_val` of the valid way 2 becomes 0, not `4294967295 + 1`. -/
theorem insert_age_wraps :
    evict3Cfg.Valid ∧ ∃ s0 rs s r s1, init_cache evict3Cfg = some s0 ∧
      run evict3Cfg s0 ([Access.instr 0x00, Access.instr 0x04, Access.instr 0x10,
          Access.instr 0x08, Access.instr 0x0C, Access.instr 0x0C, Access.data 0x00,
          Access.data 0x10, Access.instr 0x00]
        ++ (ageCalls (2 ^ 32 - 4) ++ [Access.data 0x14])) = some (rs, s) ∧
      Reachable evict3Cfg s ∧
      s.icache = [[{ valid := true, LRU_val := 4294967292, tag := 0 },
                   { valid := false, LRU_val := 2, tag := 1 },
                   { valid := true, LRU_val := 4294967295, tag := 2 }]] ∧
      s.icache_set_avail = [3] ∧
      iIndex s 0x14 = 0 ∧ iTag s 0x14 = 5 ∧
      ¬ IHit s 0x14 ∧
      icache_access evict3Cfg s 0x14 = some (r, s1) ∧
      s1.icache = [[{ valid := true, LRU_val := 4294967293, tag := 0 },
                    { valid := true, LRU_val := 0, tag := 5 },
                    { valid := true, LRU_val := 0, tag := 2 }]] ∧
      s1.icache_set_avail = [2] := by
  obtain ⟨s0, rs, s, r, s1, h0, hrun, hreach, h1, h2, h3, h4, h5, h6, h7, h8⟩ :=
    age_wrap (2 ^ 32 - 4) (by norm_num) (by norm_num)
  exact ⟨evict3Cfg_valid, s0, rs, s, r, s1, h0, hrun, hreach, h1, h2, h3, h4, h5, h6, h7, h8⟩

end CacheSim
